import Mathlib

/-!
Verification development for the surfari web-navigation agent.

Each component needed by the properties under study is shallowly embedded:
Python strings become `List Char`, Python dicts become insertion-ordered
association lists with first-occurrence lookup, in-place mutation becomes
explicit value passing, `random.choice` becomes an explicit choice stream
`Nat → Nat` consumed left to right, and fallible operations return `Option`
or `Except`.  All definitions are fuel-based or structurally recursive so
that every function evaluates inside the kernel.
-/

set_option autoImplicit false

/-! ## Generic helpers: whitespace, association lists, substring search -/

/-- ASCII whitespace as recognised by the regex `\s` / `str.strip` on the
ASCII subset (the source texts are ASCII). -/
def isWsChar (c : Char) : Bool :=
  c = ' ' || c = '\t' || c = '\n' || c = '\r' || c = '\x0b' || c = '\x0c'

/-- First-occurrence lookup in an insertion-ordered association list,
 modelling `dict.get`. -/
def aget {κ α : Type} [DecidableEq κ] : List (κ × α) → κ → Option α
  | [], _ => none
  | (k, v) :: rest, key => if k = key then some v else aget rest key

/-- Models `d[k] = v` on a Python dict: replace the first binding in place if the
key exists, otherwise append at the end (insertion order preserved). -/
def aset {κ α : Type} [DecidableEq κ] : List (κ × α) → κ → α → List (κ × α)
  | [], key, v => [(key, v)]
  | (k, w) :: rest, key, v =>
    if k = key then (k, v) :: rest else (k, w) :: aset rest key v

/-- Models `del d[k]` / `d.pop(k, None)`: remove the binding for the key. -/
def adel {κ α : Type} [DecidableEq κ] : List (κ × α) → κ → List (κ × α)
  | [], _ => []
  | (k, v) :: rest, key =>
    if k = key then adel rest key else (k, v) :: adel rest key

/-- Models `k in d` on a Python dict. -/
def ahas {κ α : Type} [DecidableEq κ] (m : List (κ × α)) (k : κ) : Bool :=
  (aget m k).isSome

/-- Python's `pat in s` substring test on character lists. -/
def occursIn (pat l : List Char) : Bool :=
  l.tails.any (fun t => pat.isPrefixOf t)

/-- Models `str.lstrip()` restricted to ASCII whitespace. -/
def pyLStrip (l : List Char) : List Char := l.dropWhile isWsChar

/-- Models `str.strip()` restricted to ASCII whitespace. -/
def pyStrip (l : List Char) : List Char :=
  ((l.dropWhile isWsChar).reverse.dropWhile isWsChar).reverse

/-- Helper for `pyReplace` with an empty pattern: Python interleaves the
replacement around every character. -/
def interleaveRep (rep : List Char) : List Char → List Char
  | [] => rep
  | c :: cs => rep ++ c :: interleaveRep rep cs

/-- Fueled scanner for `str.replace` with a non-empty pattern: leftmost,
non-overlapping replacement. -/
def pyReplaceAux (pat rep : List Char) : Nat → List Char → List Char
  | 0, l => l
  | _ + 1, [] => []
  | f + 1, c :: cs =>
    if pat.isPrefixOf (c :: cs) then
      rep ++ pyReplaceAux pat rep f ((c :: cs).drop pat.length)
    else
      c :: pyReplaceAux pat rep f cs

/-- Python's `s.replace(pat, rep)` (all occurrences, left to right). -/
def pyReplace (l pat rep : List Char) : List Char :=
  if pat = [] then interleaveRep rep l else pyReplaceAux pat rep l.length l

/-- Decimal digit character for a value below 10. -/
def digitOfNat (d : Nat) : Char := Char.ofNat (48 + d % 10)

/-- Fueled decimal rendering of a natural number. -/
def natToCharsAux : Nat → Nat → List Char
  | 0, _ => []
  | f + 1, n =>
    if n < 10 then [digitOfNat n]
    else natToCharsAux f (n / 10) ++ [digitOfNat (n % 10)]

/-- Decimal rendering of a natural number, as produced by Python's `str`. -/
def natToChars (n : Nat) : List Char := natToCharsAux (n + 1) n

/-- Decimal rendering of an integer, as produced by Python's `str`. -/
def intToChars (n : Int) : List Char :=
  if n < 0 then '-' :: natToChars n.natAbs else natToChars n.natAbs

/-! ## Tool executor (`src/surfari/model/tool_executor.py`)

`execute_tool_calls` normalises a `{"tool_calls": [...]}` payload, builds a
name registry from the supplied callables and executes each call.  A tool
callable is embedded as a pure function from its (already normalised)
arguments to an `Except`: the `.error` branch collects every failure path of
`_execute_single` (argument binding errors, timeouts, exceptions raised by
the tool), each of which becomes a `ToolResult` with `ok=False` and the
error text; `asyncio.gather` is order-preserving, so the parallel branch is
an ordered map just like the serial loop. -/

namespace ToolExec

/-- Opaque stand-in for the normalised `arguments` mapping of a call; the
ordering/identity properties under study never inspect it. -/
abbrev Args := Nat

/-- Opaque stand-in for a JSON-safe result value. -/
abbrev RVal := Nat

/-- A tool callable: total on its argument dictionary, returning either a
result value or the error text produced by `_execute_single`'s handlers. -/
abbrev ToolFn := Args → Except (List Char) RVal

/-- One entry of the `tool_calls` list as received from the model: either a
mapping (whose `name` and `id` may be absent) or some non-mapping value. -/
inductive CallEntry where
  | obj (nm : Option (List Char)) (args : Args) (id : Option (List Char))
  | nonMapping (tag : Nat)
  deriving DecidableEq

/-- Models `ToolCall` dataclass after `_extract_calls`. -/
structure ToolCall where
  nm : List Char
  args : Args
  id : Option (List Char)
  deriving DecidableEq

/-- Models `ToolResult` dataclass (already in its `json_safe` field shape). -/
structure ToolResult where
  id : Option (List Char)
  nm : List Char
  ok : Bool
  result : Option RVal
  error : Option (List Char)
  deriving DecidableEq

/-- Models `_extract_calls`: keep only mapping entries with a truthy `name`;
`arguments` are normalised (opaque here) and `id` is passed through. -/
def extractCalls (payload : List CallEntry) : List ToolCall :=
  payload.filterMap (fun e =>
    match e with
    | .obj (some nm) args id =>
      if nm = [] then none else some ⟨nm, args, id⟩
    | .obj none _ _ => none
    | .nonMapping _ => none)

/-- Models `make_registry`: later callables with the same name win; callables with
a falsy name are skipped. -/
def makeRegistry (tools : List (List Char × ToolFn)) :
    List (List Char × ToolFn) :=
  tools.foldl (fun reg t => if t.1 = [] then reg else aset reg t.1 t.2) []

/-- Models `_execute_single`: unknown names yield an `ok=False` result with the
`Unknown tool:` message; otherwise the callable runs and its outcome is
wrapped.  The call's `id` is copied into the result on every branch. -/
def executeSingle (reg : List (List Char × ToolFn)) (c : ToolCall) :
    ToolResult :=
  match aget reg c.nm with
  | none =>
    ⟨c.id, c.nm, false, none, some ("Unknown tool: ".toList ++ c.nm)⟩
  | some f =>
    match f c.args with
    | .ok v => ⟨c.id, c.nm, true, some v, none⟩
    | .error e => ⟨c.id, c.nm, false, none, some e⟩

/-- A payload entry that is a mapping carrying a truthy `name` (a
well-formed `ToolCall` of the data model). -/
def entryNamed : CallEntry → Bool
  | .obj (some nm) _ _ => !nm.isEmpty
  | _ => false

/-- Models `execute_tool_calls`: the parallel branch fans out via `asyncio.gather`
(order-preserving), the serial branch appends results one by one. -/
def executeToolCalls (payload : List CallEntry)
    (tools : List (List Char × ToolFn)) (parallel : Bool) :
    List ToolResult :=
  let reg := makeRegistry tools
  let calls := extractCalls payload
  if parallel && calls.length > 1 then
    calls.map (executeSingle reg)
  else
    calls.foldl (fun acc c => acc ++ [executeSingle reg c]) []

end ToolExec

/-! ## Value resolver chain (`src/surfari/agents/navigation_agent/_value_resolver.py`)

`resolve_missing_value_in_llm_response` works on dynamically-typed dicts.
A step dict maps string keys to values that are strings for every field the
resolver inspects (`resolve_value`, `value`, `orig_value`); other value
shapes are collected in an opaque constructor.  A response dict maps keys to
strings, a step dict, a list of step dicts, `None`, or something else.
Mutation of the caller's object is made explicit: the entry point returns
both the state of the input object after the call and the returned object.
A resolver (the secret resolver as well as a configured one) is embedded as
a pure `List Char → Option (List Char)` from the stripped prompt to the
resolved value; `none` covers a `None` result as well as a raised exception,
both of which leave the step unchanged. -/

namespace ValueResolver

/-- A value stored in a step dict. -/
inductive SVal where
  | s (v : List Char)
  | other (tag : Nat)
  deriving DecidableEq

/-- A step dict (`LLMActionStep`). -/
abbrev Step := List (String × SVal)

/-- A value stored in a response dict. -/
inductive RVal where
  | s (v : List Char)
  | stepD (st : Step)
  | stepL (l : List Step)
  | nul
  | other (tag : Nat)
  deriving DecidableEq

/-- A response dict (`LLMResponse`). -/
abbrev Resp := List (String × RVal)

/-- An embedded resolver: stripped prompt to optional resolved value. -/
abbrev ResolverFn := List Char → Option (List Char)

/-- Models `extract_steps`: a present non-`None` `step` wins over `steps`; a dict
becomes a one-element list; a non-dict non-list value yields `None`. -/
def extractSteps (r : Resp) : Option (List Step) :=
  match aget r "step" with
  | some (RVal.stepD d) => some [d]
  | some (RVal.stepL l) => some l
  | some RVal.nul =>
    (match aget r "steps" with
     | some (RVal.stepL l) => some l
     | _ => none)
  | some _ => none
  | none =>
    (match aget r "steps" with
     | some (RVal.stepL l) => some l
     | _ => none)

/-- In-place update of every step dict reached by `extract_steps`,
mirroring mutation of the shared dicts through the extracted list. -/
def mapSteps (f : Step → Step) (r : Resp) : Resp :=
  match aget r "step" with
  | some (RVal.stepD d) => aset r "step" (RVal.stepD (f d))
  | some (RVal.stepL l) => aset r "step" (RVal.stepL (l.map f))
  | some RVal.nul =>
    (match aget r "steps" with
     | some (RVal.stepL l) => aset r "steps" (RVal.stepL (l.map f))
     | _ => r)
  | some _ => r
  | none =>
    (match aget r "steps" with
     | some (RVal.stepL l) => aset r "steps" (RVal.stepL (l.map f))
     | _ => r)

/-- A step carries a non-empty string `resolve_value`
(`isinstance(rv, str) and rv.strip()`). -/
def stepHasRV (st : Step) : Bool :=
  match aget st "resolve_value" with
  | some (SVal.s rv) => !(pyStrip rv).isEmpty
  | _ => false

/-- Models `_response_has_resolve_value`. -/
def responseHasRV (r : Resp) : Bool :=
  match extractSteps r with
  | some l => l.any stepHasRV
  | none => false

/-- Sentinel pass (lines 110-114): a `resolve_value` equal to `"OTP"` or
containing `"**"` is promoted to `value`/`orig_value` (stripped) and the
`resolve_value` key is deleted, on the input object itself. -/
def applySentinelStep (st : Step) : Step :=
  match aget st "resolve_value" with
  | some (SVal.s rv) =>
    if rv = "OTP".toList || occursIn "**".toList rv then
      adel (aset (aset st "orig_value" (SVal.s (pyStrip rv)))
        "value" (SVal.s (pyStrip rv))) "resolve_value"
    else st
  | _ => st

/-- One step of `_resolve_steps`: a step that already has `value` drops
`resolve_value`; otherwise a non-blank string `resolve_value` is offered to
the resolver, a truthy result is installed and `resolve_value` deleted. -/
def resolveStep (ρ : ResolverFn) (st : Step) : Step :=
  if ahas st "value" then adel st "resolve_value"
  else
    match aget st "resolve_value" with
    | some (SVal.s rv) =>
      if (pyStrip rv).isEmpty then st
      else
        match ρ (pyStrip rv) with
        | some res =>
          if res.isEmpty then st
          else
            adel (aset (aset st "orig_value" (SVal.s (pyStrip rv)))
              "value" (SVal.s res)) "resolve_value"
        | none => st
    | _ => st

/-- Models `DefaultDelegationResolver.delegate_to_user` on the outgoing object:
drop `step`/`steps`, force `step_execution`, prefix the reasoning. -/
def delegateToUser (r : Resp) : Resp :=
  let base := adel (adel r "step") "steps"
  let withExec := aset base "step_execution" (RVal.s "DELEGATE_TO_USER".toList)
  let reasoning :=
    match aget withExec "reasoning" with
    | some (RVal.s t) => t
    | _ => "No reasoning provided.".toList
  aset withExec "reasoning"
    (RVal.s ("Delegated to user for input: ".toList ++ reasoning))

/-- State of the caller's object after the call with `mutate=False`: the
sentinel pass ran on the input before the defensive deep copy. -/
def sentinelPhase (r : Resp) : Resp :=
  match extractSteps r with
  | none => r
  | some _ => mapSteps applySentinelStep r

/-- The response as it stands after the sentinel pass, the secret-resolver
pass and the configured-resolver pass, with the source's early exits. -/
def resolveCore (secretρ : ResolverFn) (ρ : Option ResolverFn) (r : Resp) :
    Resp :=
  match extractSteps r with
  | none => r
  | some _ =>
    let r1 := mapSteps applySentinelStep r
    if responseHasRV r1 = false then r1
    else
      let out1 := mapSteps (resolveStep secretρ) r1
      if responseHasRV out1 = false then out1
      else
        match ρ with
        | some f => mapSteps (resolveStep f) out1
        | none => out1

/-- Models `resolve_missing_value_in_llm_response`, returning the pair
(input object after the call, returned object). -/
def resolveMissing (secretρ : ResolverFn) (ρ : Option ResolverFn)
    (mutFlag : Bool) (r : Resp) : Resp × Resp :=
  let c := resolveCore secretρ ρ r
  let ret := if responseHasRV c then delegateToUser c else c
  (if mutFlag then ret else sentinelPhase r, ret)

end ValueResolver

/-! ## Embedded filesystem server paths (`src/surfari/model/mcp/fs_http_embed.py`)

Paths are modelled lexically as lists of segments (each a `List Char`), the
way `pathlib` treats them before touching the filesystem: `Path.resolve` on
a base that is already fully resolved appends the relative subpath and
collapses `.`/`..` segments lexically (symbolic links are outside the
model).  `_normalize_subpath` itself is embedded verbatim. -/

namespace FsEmbed

/-- Split a character list on `/`, keeping empty segments, as
`str.split("/")` does. -/
def splitSlash : List Char → List (List Char)
  | [] => [[]]
  | c :: cs =>
    match splitSlash cs with
    | [] => [[]]
    | h :: t => if c = '/' then [] :: h :: t else (c :: h) :: t

/-- The segment-collapsing loop of `_normalize_subpath`: skip empty and `.`
segments, pop on `..`, and clamp the whole path to the root (`none`) when a
`..` would escape above it. -/
def collapseAux : List (List Char) → List (List Char) →
    Option (List (List Char))
  | acc, [] => some acc.reverse
  | acc, seg :: rest =>
    if seg = [] || seg = ['.'] then collapseAux acc rest
    else if seg = ['.', '.'] then
      match acc with
      | [] => none
      | _ :: t => collapseAux t rest
    else collapseAux (seg :: acc) rest

/-- Join segments with `/`. -/
def joinSlash : List (List Char) → List Char
  | [] => []
  | [s] => s
  | s :: rest => s ++ '/' :: joinSlash rest

/-- Models `_normalize_subpath`: `None`/empty/`.`/`./`/`/` map to `.`, backslashes
become slashes, leading slashes are stripped, and the segment loop runs. -/
def normalizeSubpath (p : Option (List Char)) : List Char :=
  match p with
  | none => ['.']
  | some q =>
    if q = [] then ['.']
    else
      let s := pyStrip q
      if s = ['.'] || s = ['.', '/'] || s = ['/'] then ['.']
      else
        let s := s.map (fun c => if c = '\\' then '/' else c)
        let s := s.dropWhile (fun c => c = '/')
        match collapseAux [] (splitSlash s) with
        | none => ['.']
        | some [] => ['.']
        | some parts => joinSlash parts

/-- A well-behaved path segment: non-empty, not `.`, not `..`, and free of
separators. -/
def goodSeg (s : List Char) : Prop :=
  s ≠ [] ∧ s ≠ ['.'] ∧ s ≠ ['.', '.'] ∧ '/' ∉ s

/-- Lexical `Path.resolve` on an absolute path given as segments: collapse
`.` and `..` (at the root, `..` stays at the root), no symlink processing. -/
def resolveLexAux : List (List Char) → List (List Char) →
    List (List Char)
  | acc, [] => acc.reverse
  | acc, seg :: rest =>
    if seg = [] || seg = ['.'] then resolveLexAux acc rest
    else if seg = ['.', '.'] then
      match acc with
      | [] => resolveLexAux [] rest
      | _ :: t => resolveLexAux t rest
    else resolveLexAux (seg :: acc) rest

/-- Lexical resolution of `base / sub` where `base` is an already-resolved
root given by its segments and `sub` is a relative string. -/
def resolveLex (root : List (List Char)) (sub : List Char) :
    List (List Char) :=
  resolveLexAux [] (root ++ (splitSlash sub).filter (fun s => s ≠ []))

/-- Models `root.isPrefixOf target` on segment lists: the `_inside` check
(`target.relative_to(root)` succeeds). -/
def insideLex (root tgt : List (List Char)) : Bool :=
  match root, tgt with
  | [], _ => true
  | _ :: _, [] => false
  | r :: rs, t :: ts => r = t && insideLex rs ts

/-- Models `_resolve_safe`: normalise, join under the root, resolve, and guard. -/
def resolveSafe (root : List (List Char)) (p : Option (List Char)) :
    Except (List Char) (List (List Char)) :=
  let sub := normalizeSubpath p
  let tgt := resolveLex root sub
  if insideLex root tgt then Except.ok tgt
  else Except.error "Path escapes allowed root".toList

end FsEmbed

/-! ## Record-and-replay variable substitution
(`src/surfari/agents/navigation_agent/_record_and_replay.py`)

Step 3 of `attempt_load_recorded_chat_history`: each recorded chat message
is deep-copied; when its `content` is a string, every recorded variable
whose key also exists in the current variable mapping has its recorded
value literally replaced by the current value, one variable at a time in
mapping order.  Variable values are strings (they come from the
parameterisation LLM response). -/

namespace RecordReplay

/-- A value stored in a chat-message dict: a string content or anything
else (lists of structured parts, `None`, ...). -/
inductive MVal where
  | s (v : List Char)
  | other (tag : Nat)
  deriving DecidableEq

/-- A chat message. -/
abbrev Msg := List (String × MVal)

/-- The substitution applied to one string content. -/
def substContent (recorded currentV : List (String × List Char))
    (c : List Char) : List Char :=
  recorded.foldl
    (fun acc kv =>
      match aget currentV kv.1 with
      | some newV => pyReplace acc kv.2 newV
      | none => acc)
    c

/-- The replacement loop over the recorded chat history. -/
def substituteVariables (recorded currentV : List (String × List Char))
    (hist : List Msg) : List Msg :=
  hist.map (fun m =>
    match aget m "content" with
    | some (MVal.s c) => aset m "content" (MVal.s (substContent recorded currentV c))
    | _ => m)

/-- Simultaneous literal substitution, as the specification reads: scan the
content left to right, at each position try the recorded values in mapping
order, replace the first match by its current value and continue after it.
Used only to state what the claim asks for. -/
def simulSubstAux (pairs : List (List Char × List Char)) :
    Nat → List Char → List Char
  | 0, l => l
  | _ + 1, [] => []
  | f + 1, c :: cs =>
    match pairs.find? (fun pv => pv.1 ≠ [] && pv.1.isPrefixOf (c :: cs)) with
    | some pv => pv.2 ++ simulSubstAux pairs f ((c :: cs).drop pv.1.length)
    | none => c :: simulSubstAux pairs f cs

/-- Simultaneous literal substitution of all recorded values present in
both mappings (specification-side definition for claim C6). -/
def simulSubst (recorded currentV : List (String × List Char))
    (c : List Char) : List Char :=
  let pairs := recorded.filterMap (fun kv =>
    match aget currentV kv.1 with
    | some newV => some (kv.2, newV)
    | none => none)
  simulSubstAux pairs c.length c

end RecordReplay

/-! ## OTP step rewriting
(`src/surfari/agents/navigation_agent/_navigation_agent.py`,
`NavigationAgent._check_steps_for_otp_and_solve`)

Steps reuse the step-dict embedding of the value resolver.  The fetched OTP
code is a parameter (`none` models a falsy fetch result, in which case the
source returns the string `"failure getting otp code"`, modelled as the
`none` branch of the returned option). -/

namespace OtpSolve

open ValueResolver

/-- Digits of a character list read as a base-10 natural number. -/
def charsToNatAux : List Char → Nat → Nat
  | [], acc => acc
  | c :: cs, acc => charsToNatAux cs (acc * 10 + (c.toNat - 48))

/-- Models `int(...)` on a digit string. -/
def charsToNat (l : List Char) : Nat := charsToNatAux l 0

/-- Models `re.fullmatch(r"\{\_(\d+)\}", target)`: a `\x7b_<digits>\x7d` shape
with at least one digit, returning the parsed index. -/
def otpDigitIdx (t : List Char) : Option Nat :=
  match t with
  | '{' :: '_' :: rest =>
    (match rest.reverse with
     | '}' :: revMid =>
       let mid := revMid.reverse
       if !mid.isEmpty && mid.all Char.isDigit then some (charsToNat mid)
       else none
     | _ => none)
  | _ => none

/-- Models `step.get("target", "")` restricted to string targets. -/
def targetOf (st : Step) : List Char :=
  match aget st "target" with
  | some (SVal.s t) => t
  | _ => []

/-- Models `step.get("value") == v` for a string literal `v`. -/
def valueIs (st : Step) (v : List Char) : Bool :=
  match aget st "value" with
  | some (SVal.s w) => w = v
  | _ => false

/-- Models `step.get("action") != "fill"` is the skip condition. -/
def isFillStep (st : Step) : Bool :=
  match aget st "action" with
  | some (SVal.s a) => a = "fill".toList
  | _ => false

/-- Step 1 of the source: scan the steps in order, collecting
`(digit_index, position)` pairs for digit-per-box fills and positions of
full-OTP fills. -/
def scanAux : Nat → List Step → List (Nat × Nat) × List Nat
  | _, [] => ([], [])
  | i, st :: rest =>
    if !isFillStep st then scanAux (i + 1) rest
    else if valueIs st "OTP".toList then
      ((scanAux (i + 1) rest).1, i :: (scanAux (i + 1) rest).2)
    else
      match otpDigitIdx (targetOf st) with
      | some n =>
        if valueIs st ['*'] then
          ((n, i) :: (scanAux (i + 1) rest).1, (scanAux (i + 1) rest).2)
        else scanAux (i + 1) rest
      | none => scanAux (i + 1) rest

/-- Lexicographic comparison used by Python's stable `list.sort()` on
`(digit_index, position)` tuples. -/
def pairLe (a b : Nat × Nat) : Bool :=
  a.1 < b.1 || (a.1 = b.1 && a.2 ≤ b.2)

/-- Insertion into a sorted pair list. -/
def insertPair (a : Nat × Nat) : List (Nat × Nat) → List (Nat × Nat)
  | [] => [a]
  | b :: rest => if pairLe a b then a :: b :: rest else b :: insertPair a rest

/-- Insertion sort, agreeing with `list.sort()` on distinct tuples. -/
def sortPairs : List (Nat × Nat) → List (Nat × Nat)
  | [] => []
  | a :: rest => insertPair a (sortPairs rest)

/-- Update the element at an index if it exists. -/
def modifyAt (l : List Step) (i : Nat) (f : Step → Step) : List Step :=
  match l[i]? with
  | some x => l.set i (f x)
  | none => l

/-- Step 3 of the source: overwrite `value` with the full code at every
full-OTP position, counting replacements. -/
def applyFull (code : List Char) (p : List Step × Nat) (idx : Nat) :
    List Step × Nat :=
  (modifyAt p.1 idx (fun st => aset st "value" (SVal.s code)), p.2 + 1)

/-- Step 4 of the source: walk the sorted digit steps zipped with the code
and fill each box whose value is still `"*"`. -/
def applyDigits : List ((Nat × Nat) × Char) → List Step → List Step × Nat
  | [], l => (l, 0)
  | (p, c) :: rest, l =>
    if valueIs (l.getD p.2 []) ['*'] then
      let r := applyDigits rest
        (modifyAt l p.2 (fun st => aset st "value" (SVal.s [c])))
      (r.1, r.2 + 1)
    else applyDigits rest l

/-- The per-digit applicability test of the source: the sorted digit
indices must be exactly `[1..k]` with `k` digit steps and OTP length `k`. -/
def perDigitCond (steps : List Step) (otp : List Char) : Bool :=
  ((sortPairs (scanAux 0 steps).1).map Prod.fst =
      List.range' 1 (scanAux 0 steps).1.length) &&
    otp.length = (scanAux 0 steps).1.length

/-- A digit-per-box fill step for the given target. -/
def digitBoxStep (t : List Char) : Step :=
  [("action", SVal.s "fill".toList), ("target", SVal.s t),
   ("value", SVal.s ['*'])]

/-- Models `_check_steps_for_otp_and_solve` with the OTP fetch as a parameter.
The `none` branch of the result is the `"failure getting otp code"`
return. -/
def checkStepsForOTP (otp : Option (List Char)) (steps : List Step) :
    Nat × Option (List Step) :=
  let scanned := scanAux 0 steps
  let digitSteps := scanned.1
  let otpFillIdx := scanned.2
  if digitSteps.isEmpty && otpFillIdx.isEmpty then (0, some steps)
  else
    match otp with
    | none => (0, none)
    | some code =>
      if code.isEmpty then (0, none)
      else
        let r1 := otpFillIdx.foldl (applyFull code) (steps, 0)
        let sorted := sortPairs digitSteps
        let actual := sorted.map Prod.fst
        let expected := List.range' 1 digitSteps.length
        if actual ≠ expected then (r1.2, some r1.1)
        else if code.length ≠ digitSteps.length then (r1.2, some r1.1)
        else
          let r2 := applyDigits (sorted.zip code) r1.1
          (r1.2 + r2.2, some r2.1)

end OtpSolve

/-! ## Numeric data masker (`src/surfari/security/data_masker.py`)

`NumericMasker` splits a text on whitespace (`re.compile(r"\S+").sub`):
the text is decomposed into maximal whitespace/non-whitespace runs
(chunks), the replacer runs on every non-whitespace run, and whitespace is
preserved.  `random.choice`/`random.randint` are modelled by a choice
stream `σ : Nat → Nat` consumed left to right with an explicit counter:
picking from a candidate string of length `n` uses `σ i % n`, and
`random.randint(100000, 999999)` uses `100000 + σ i % 900000`.
`float(...)` inside `_normalize_number` is modelled by exact decimal
parsing (`[+-]? (digits [. digits?] | . digits) ([eE][+-]?digits)?`) with
exact half-even rounding for the `:.2f` format; special floats (`inf`,
`nan`) and underscore digit separators are treated as parse failures.
Character classes (`\d`, `\w`, `\s`) are read over ASCII. -/

namespace DataMasker

/-- Digits of a character list read as a base-10 natural number. -/
def digitsToNatAux : List Char → Nat → Nat
  | [], acc => acc
  | c :: cs, acc => digitsToNatAux cs (acc * 10 + (c.toNat - 48))

/-- Models `int(...)` on a digit string. -/
def digitsToNat (l : List Char) : Nat := digitsToNatAux l 0

/-- Models `str.rstrip(".")`. -/
def rstripDots (l : List Char) : List Char :=
  (l.reverse.dropWhile (fun c => c = '.')).reverse

/-- The character class removed by `_normalize_number`'s regex. -/
def normCharSet : List Char := ['{', '}', '[', ']', '(', ')', ':', ';', ',', '$', '\'']

/-- Mantissa part of a Python float literal: `digits [. digits?]` or
`. digits`, returning (magnitude, number of fraction digits, rest). -/
def parseMant (l : List Char) : Option (Nat × Nat × List Char) :=
  let ip := l.takeWhile Char.isDigit
  let r1 := l.dropWhile Char.isDigit
  match r1 with
  | '.' :: r2 =>
    let fp := r2.takeWhile Char.isDigit
    let r3 := r2.dropWhile Char.isDigit
    if ip.isEmpty && fp.isEmpty then none
    else some (digitsToNat (ip ++ fp), fp.length, r3)
  | _ => if ip.isEmpty then none else some (digitsToNat ip, 0, r1)

/-- Models `float(tmp)` as an exact decimal: returns (negative, magnitude,
base-10 exponent) so that the value is `±magnitude * 10^exp`. -/
def parsePyFloat (l : List Char) : Option (Bool × Nat × Int) :=
  let sgn := match l with
    | '+' :: r => (false, r)
    | '-' :: r => (true, r)
    | r => (false, r)
  match parseMant sgn.2 with
  | none => none
  | some (mag, dexp, rest) =>
    match rest with
    | [] => some (sgn.1, mag, -(dexp : Int))
    | e :: r1 =>
      if e = 'e' || e = 'E' then
        let es := match r1 with
          | '+' :: r => ((1 : Int), r)
          | '-' :: r => (-1, r)
          | r => (1, r)
        let ds := es.2.takeWhile Char.isDigit
        let r3 := es.2.dropWhile Char.isDigit
        if ds.isEmpty || !r3.isEmpty then none
        else some (sgn.1, mag, es.1 * (digitsToNat ds : Int) - (dexp : Int))
      else none

/-- Half-even rounding of `mag * 10^exp * 100` to an integer. -/
def roundHalfEven (mag : Nat) (e : Int) : Nat :=
  if 0 ≤ e + 2 then mag * 10 ^ (e + 2).toNat
  else
    let d := 10 ^ (-(e + 2)).toNat
    let q := mag / d
    let r := mag % d
    if 2 * r < d then q
    else if 2 * r > d then q + 1
    else if q % 2 = 0 then q else q + 1

/-- Models `f"{val:.2f}"`. -/
def formatTwoDec (neg : Bool) (mag : Nat) (e : Int) : List Char :=
  let n := roundHalfEven mag e
  let f2 := n % 100
  (if neg then ['-'] else []) ++ natToChars (n / 100) ++
    '.' :: [digitOfNat (f2 / 10), digitOfNat (f2 % 10)]

/-- Models `f"{int(val)}"` (truncation toward zero). -/
def formatIntTrunc (neg : Bool) (mag : Nat) (e : Int) : List Char :=
  let n := if 0 ≤ e then mag * 10 ^ e.toNat else mag / 10 ^ (-e).toNat
  (if neg && n ≠ 0 then ['-'] else []) ++ natToChars n

/-- Models `_normalize_number`. -/
def normNumber (tok : List Char) : List Char :=
  let hasDollar := tok.contains '$'
  let s1 := rstripDots (pyStrip (tok.filter (fun c => !normCharSet.contains c)))
  let sp := match s1 with
    | '+' :: r => (['+'], pyLStrip r)
    | '-' :: r => (['-'], pyLStrip r)
    | r => (([] : List Char), r)
  match parsePyFloat sp.2 with
  | none => s1
  | some (neg, mag, e) =>
    let formatted :=
      if sp.2.contains '.' then formatTwoDec neg mag e
      else formatIntTrunc neg mag e
    sp.1 ++ (if hasDollar then '$' :: formatted else formatted)

/-- Python's `\w` over ASCII. -/
def isWordChar (c : Char) : Bool := c.isAlphanum || c = '_'

/-- Models `re.sub(r"[^\w]", "", term).lower()`. -/
def normalizeForDonot (tok : List Char) : List Char :=
  (tok.filter isWordChar).map Char.toLower

/-- Masker configuration: normalised donot-mask terms and minimum
token length. -/
structure MaskerCfg where
  donotTerms : List (List Char)
  minTokenLength : Nat
  deriving DecidableEq

/-- The default configuration (`DEFAULT_DONOT_MASK_TERMS`, min length 5). -/
def defaultCfg : MaskerCfg :=
  ⟨["1099".toList, "2024".toList, "2025".toList, "2026".toList,
    "401k".toList], 5⟩

/-- Models `_is_donot_mask_term`. -/
def isDonotTerm (cfg : MaskerCfg) (tok : List Char) : Bool :=
  cfg.donotTerms.contains (normalizeForDonot tok)

/-- Models `_has_digit` over ASCII digits. -/
def hasDigitTok (tok : List Char) : Bool := tok.any Char.isDigit

/-- Models `[APMapm]`. -/
def isAmpmChar (c : Char) : Bool :=
  c = 'A' || c = 'P' || c = 'M' || c = 'a' || c = 'p' || c = 'm'

/-- Tail of `TIME_PATTERN` after the minutes: `(?:\s?[APMapm]{2})?$`. -/
def ampmTail : List Char → Bool
  | [] => true
  | [a, b] => isAmpmChar a && isAmpmChar b
  | [w, a, b] => isWsChar w && isAmpmChar a && isAmpmChar b
  | _ => false

/-- Tail of `TIME_PATTERN` after the minutes: `(?::\d{2})?` then am/pm. -/
def secTail : List Char → Bool
  | ':' :: a :: b :: rest =>
    if a.isDigit && b.isDigit then ampmTail rest
    else ampmTail (':' :: a :: b :: rest)
  | l => ampmTail l

/-- Models `TIME_PATTERN.match`: `^\d{1,2}:\d{2}(?::\d{2})?(?:\s?[APMapm]{2})?$`. -/
def timeMatch : List Char → Bool
  | a :: ':' :: c :: d :: rest =>
    a.isDigit && c.isDigit && d.isDigit && secTail rest
  | a :: b :: ':' :: c :: d :: rest =>
    a.isDigit && b.isDigit && c.isDigit && d.isDigit && secTail rest
  | _ => false

/-- Models `MONTH_NAMES`. -/
def monthNames : List (List Char) :=
  ["Jan", "Feb", "Mar", "Apr", "May", "Jun", "Jul", "Aug", "Sep", "Sept",
   "Oct", "Nov", "Dec", "January", "February", "March", "April", "June",
   "July", "August", "September", "October", "November",
   "December"].map String.toList

/-- Case-insensitive prefix test. -/
def ciPrefix : List Char → List Char → Bool
  | [], _ => true
  | _ :: _, [] => false
  | p :: ps, c :: cs => p.toLower = c.toLower && ciPrefix ps cs

/-- A month name matches here, with a `\b` boundary after it. -/
def monthHere (t : List Char) : Bool :=
  monthNames.any (fun m =>
    ciPrefix m t &&
      (match t.drop m.length with
       | [] => true
       | c :: _ => !isWordChar c))

/-- Models `re.search` for `(?i)\b(?:<months>)\b`: scan every position, requiring
a `\b` boundary before the match. -/
def monthScan : Option Char → List Char → Bool
  | _, [] => false
  | prev, c :: cs =>
    let boundaryBefore := match prev with
      | none => true
      | some p => !isWordChar p
    (boundaryBefore && monthHere (c :: cs)) || monthScan (some c) cs

/-- The month-name disjunct of `_is_dateish`. -/
def containsMonthWord (t : List Char) : Bool := monthScan none t

/-- The leading-dash normalisation of `_is_dateish`: a stripped token
starting with `-` loses the dash and any following whitespace. -/
def dashStrip (t : List Char) : List Char :=
  match t with
  | '-' :: r => pyLStrip r
  | _ => t

/-- Models `_is_dateish`. -/
def isDateish (tok : List Char) : Bool :=
  let t := pyStrip tok
  let t2 := match t with
    | '-' :: r => pyLStrip r
    | _ => t
  timeMatch t2 ||
    ((t2.any (fun c => c = '/' || c = '-')) && t2.any Char.isDigit) ||
    (containsMonthWord t2 && t2.any Char.isDigit)

/-- A maximal whitespace or non-whitespace run of the text. -/
inductive Chunk where
  | ws (l : List Char)
  | tok (l : List Char)
  deriving DecidableEq

/-- The characters of a chunk. -/
def chunkData : Chunk → List Char
  | .ws l => l
  | .tok l => l

/-- Whether a chunk is a whitespace run. -/
def chunkIsWs : Chunk → Bool
  | .ws _ => true
  | .tok _ => false

/-- Reassemble a chunk list into a text. -/
def flattenChunks (cs : List Chunk) : List Char :=
  cs.foldr (fun c acc => chunkData c ++ acc) []

/-- Fueled maximal-run decomposition. -/
def chunksAux : Nat → List Char → List Chunk
  | _, [] => []
  | 0, _ :: _ => []
  | f + 1, c :: cs =>
    if isWsChar c then
      Chunk.ws (c :: cs.takeWhile isWsChar) :: chunksAux f (cs.dropWhile isWsChar)
    else
      Chunk.tok (c :: cs.takeWhile (fun x => !isWsChar x)) ::
        chunksAux f (cs.dropWhile (fun x => !isWsChar x))

/-- Decompose a text into maximal whitespace/token runs (the way
`TOKEN_PATTERN.sub` walks the string). -/
def chunksOf (l : List Char) : List Chunk := chunksAux l.length l

/-- Masker state: `replacement_map` (insertion-ordered), `used_masked`,
and the position in the choice stream. -/
structure MaskState where
  replacementMap : List (List Char × List Char)
  usedMasked : List (List Char)
  ctr : Nat
  deriving DecidableEq

/-- The state after `_clear()`. -/
def emptyMaskState : MaskState := ⟨[], [], 0⟩

/-- Models `random.choice("0123456789")` candidates. -/
def digitChoices0 : List Char := "0123456789".toList

/-- Models `random.choice("123456789")` candidates. -/
def digitChoices : List Char := "123456789".toList

/-- One candidate pass of `_mask_token`'s loop: every digit is replaced by
a stream-chosen digit (`0` from `0-9`, others from `1-9`), everything else
is kept. -/
def maskCandidateAux (σ : Nat → Nat) : List Char → Nat → List Char × Nat
  | [], n => ([], n)
  | c :: cs, n =>
    if c.isDigit then
      let d := if c = '0' then digitChoices0.getD (σ n % 10) '0'
               else digitChoices.getD (σ n % 9) '1'
      let r := maskCandidateAux σ cs (n + 1)
      (d :: r.1, r.2)
    else
      let r := maskCandidateAux σ cs n
      (c :: r.1, r.2)

/-- Models `_mask_token`'s retry loop: 100 candidate attempts avoiding
`used_masked`, then the `MASK<randint>` fallback. -/
def maskTokenLoop (σ : Nat → Nat) (tok : List Char) :
    Nat → MaskState → List Char × MaskState
  | 0, st =>
    let n := 100000 + σ st.ctr % 900000
    let cand := "MASK".toList ++ natToChars n
    (cand, ⟨st.replacementMap ++ [(tok, cand)], cand :: st.usedMasked,
      st.ctr + 1⟩)
  | f + 1, st =>
    if st.usedMasked.contains (maskCandidateAux σ tok st.ctr).1 then
      maskTokenLoop σ tok f
        ⟨st.replacementMap, st.usedMasked, (maskCandidateAux σ tok st.ctr).2⟩
    else
      ((maskCandidateAux σ tok st.ctr).1,
        ⟨st.replacementMap ++ [(tok, (maskCandidateAux σ tok st.ctr).1)],
         (maskCandidateAux σ tok st.ctr).1 :: st.usedMasked,
         (maskCandidateAux σ tok st.ctr).2⟩)

/-- Models `_mask_token`: reuse a previous replacement, else run the loop. -/
def maskTok (σ : Nat → Nat) (st : MaskState) (tok : List Char) :
    List Char × MaskState :=
  match aget st.replacementMap tok with
  | some m => (m, st)
  | none => maskTokenLoop σ tok 100 st

/-- The decision cascade of `mask_sensitive_info`'s `replacer`, which does
not depend on the masker state. -/
def shouldMask (cfg : MaskerCfg) (dm : List (List Char))
    (tok : List Char) : Bool :=
  if (normNumber tok).length < cfg.minTokenLength then false
  else if !hasDigitTok tok then false
  else if isDonotTerm cfg tok then false
  else if isDateish tok then false
  else if dm.any (fun item => occursIn tok item) then false
  else true

/-- Models `replacer`. -/
def replacer (cfg : MaskerCfg) (σ : Nat → Nat) (dm : List (List Char))
    (st : MaskState) (tok : List Char) : List Char × MaskState :=
  if shouldMask cfg dm tok then maskTok σ st tok else (tok, st)

/-- Models `TOKEN_PATTERN.sub(replacer, text)`, threading the masker state left
to right over the runs. -/
def maskChunks (cfg : MaskerCfg) (σ : Nat → Nat) (dm : List (List Char)) :
    List Chunk → MaskState → List Chunk × MaskState
  | [], st => ([], st)
  | Chunk.ws w :: rest, st =>
    let r := maskChunks cfg σ dm rest st
    (Chunk.ws w :: r.1, r.2)
  | Chunk.tok t :: rest, st =>
    let r1 := replacer cfg σ dm st t
    let r2 := maskChunks cfg σ dm rest r1.2
    (Chunk.tok r1.1 :: r2.1, r2.2)

/-- Models `mask_sensitive_info` (state cleared on entry), returning the masked
text and the final state. -/
def maskText (cfg : MaskerCfg) (σ : Nat → Nat) (dm : List (List Char))
    (T : List Char) : List Char × MaskState :=
  let r := maskChunks cfg σ dm (chunksOf T) emptyMaskState
  (flattenChunks r.1, r.2)

/-- Models `_build_reverse_map`: `reverse_map`. -/
def buildReverse (m : List (List Char × List Char)) :
    List (List Char × List Char) :=
  m.foldl (fun acc om => aset acc om.2 om.1) []

/-- Models `_build_reverse_map`: `normalized_reverse_map`. -/
def buildReverseNorm (m : List (List Char × List Char)) :
    List (List Char × List Char) :=
  m.foldl (fun acc om => aset acc (normNumber om.2) (normNumber om.1)) []

/-- The normalised-lookup fallback of `revert_func`. -/
def revertNorm (m : List (List Char × List Char)) (tok : List Char) :
    List Char :=
  match aget (buildReverseNorm m) (normNumber tok) with
  | some o => if o.isEmpty then tok else o
  | none => tok

/-- Models `revert_func` of `unmask_sensitive_info`. -/
def revertTok (m : List (List Char × List Char)) (tok : List Char) :
    List Char :=
  if !hasDigitTok tok || isDateish tok then tok
  else
    match aget (buildReverse m) tok with
    | some o => if o.isEmpty then revertNorm m tok else o
    | none => revertNorm m tok

/-- Models `.` of the final guard regex matches everything but a newline. -/
def noNl (l : List Char) : Bool := l.all (fun c => c ≠ '\n')

/-- One alternative of `^(\[\[.*\]\]|\x7b\x7b.*\x7d\x7d|\[.*\]|\x7b.*\x7d)`. -/
def altMatch (g : List Char) : Bool :=
  (match g with
   | '[' :: '[' :: rest =>
     (match rest.reverse with
      | ']' :: ']' :: mid => noNl mid
      | _ => false)
   | _ => false) ||
  (match g with
   | '{' :: '{' :: rest =>
     (match rest.reverse with
      | '}' :: '}' :: mid => noNl mid
      | _ => false)
   | _ => false) ||
  (match g with
   | '[' :: rest =>
     (match rest.reverse with
      | ']' :: mid => noNl mid
      | _ => false)
   | _ => false) ||
  (match g with
   | '{' :: rest =>
     (match rest.reverse with
      | '}' :: mid => noNl mid
      | _ => false)
   | _ => false)

/-- Models `re.fullmatch(r"^(...)\d*$", masked_text)`: some split into a bracket
group followed by digits. -/
def fullmatchBracketNum (t : List Char) : Bool :=
  (List.range (t.length + 1)).any
    (fun i => altMatch (t.take i) && (t.drop i).all Char.isDigit)

/-- Models `re.sub(r"[{}\[\]\(\)]", "", ...)`. -/
def stripBracketChars (l : List Char) : List Char :=
  l.filter (fun c => !(['{', '}', '[', ']', '(', ')'].contains c))

/-- Apply a function to token runs only. -/
def mapTokChunk (f : List Char → List Char) : Chunk → Chunk
  | .ws w => .ws w
  | .tok t => .tok (f t)

/-- Models `unmask_sensitive_info`, given the replacement map of the mask pass. -/
def unmaskText (m : List (List Char × List Char)) (text : List Char) :
    List Char :=
  if text.isEmpty then []
  else
    let u := flattenChunks ((chunksOf text).map (mapTokChunk (revertTok m)))
    if fullmatchBracketNum text then u else stripBracketChars u

/-- A text free of the bracket characters the unmask pass strips. -/
def noBrackets (l : List Char) : Bool :=
  l.all (fun c => !(['{', '}', '[', ']', '(', ')'].contains c))

/-- Well-formedness of a single chunk: a whitespace run is nonempty and
all-whitespace, a token run is nonempty and whitespace-free. -/
def chunkOK : Chunk → Bool
  | .ws w => !w.isEmpty && w.all isWsChar
  | .tok t => !t.isEmpty && t.all (fun c => !isWsChar c)

/-- Strict alternation of a Boolean trace. -/
def alternatingB : List Bool → Bool
  | [] => true
  | [_] => true
  | b1 :: b2 :: rest => (b1 != b2) && alternatingB (b2 :: rest)

/-- Well-formed chunk sequences: exactly what `chunksOf` produces and what
re-chunking inverts. -/
def goodChunks (cs : List Chunk) : Bool :=
  cs.all chunkOK && alternatingB (cs.map chunkIsWs)

/-- The pointwise relation between a token and a digit-replaced copy:
digits map to digits, every other character is kept verbatim. -/
def sameShape : List Char → List Char → Bool
  | [], [] => true
  | a :: as, b :: bs =>
    (a.isDigit && b.isDigit || a == b) && sameShape as bs
  | _, _ => false

/-- The invariant of every value recorded in the replacement map: nonempty,
whitespace-free, digit-bearing and not date-like. -/
def valOK (v : List Char) : Bool :=
  !v.isEmpty && v.all (fun c => !isWsChar c) && hasDigitTok v && !isDateish v

end DataMasker

/-! ## Duplicate-token indexing (`src/surfari/view/full_text_extractor.py`)

`process_duplicate_content` walks distilled-text lines.  A line is embedded
in its parsed form (the named groups of `TEXT_LINE_PATTERN`); blank lines
and lines the pattern rejects are skipped by both passes and dropped from
the output, so the input is modelled as the list of parsed lines.  The
legend-dictionary side output is not involved in the property and is
omitted. -/

namespace FullText

/-- The named groups of a matching distilled-text line. -/
structure PLine where
  frame : List Char
  content : List Char
  coords : List Char
  xpath : List Char
  locatorString : List Char
  deriving DecidableEq

/-- Models `content.split("||", 1)`: split at the first occurrence. -/
def splitFirstAux (pat : List Char) : Nat → List Char →
    Option (List Char × List Char)
  | 0, _ => none
  | _ + 1, [] => none
  | f + 1, c :: cs =>
    if pat.isPrefixOf (c :: cs) then some ([], (c :: cs).drop pat.length)
    else
      match splitFirstAux pat f cs with
      | some (a, b) => some (c :: a, b)
      | none => none

/-- Models `content.split(pat, 1)` when `pat` occurs. -/
def splitFirst (pat l : List Char) : Option (List Char × List Char) :=
  splitFirstAux pat l.length l

/-- The `\x7b\x7b ... \x7d\x7d` renormalisation applied to the first
segment by `_process_select_option_content`. -/
def braceNorm (a : List Char) : List Char :=
  match a with
  | '{' :: '{' :: rest =>
    (match rest.reverse with
     | '}' :: '}' :: revMid =>
       '{' :: '{' :: (pyStrip revMid.reverse ++ "\x7d\x7d".toList)
     | _ => a)
  | _ => a

/-- Models `_process_select_option_content`. -/
def processSelect (c : List Char) : List Char × List Char :=
  if !occursIn "||".toList c then (pyStrip c, [])
  else
    match splitFirst "||".toList c with
    | some (a0, b0) => (braceNorm (pyStrip a0), pyStrip b0)
    | none => (pyStrip c, [])

/-- The interactable token of a line: first segment of the processed
content. -/
def lineKey (l : PLine) : List Char := (processSelect (pyStrip l.content)).1

/-- The select-option remainder of a line. -/
def lineRem (l : PLine) : List Char := (processSelect (pyStrip l.content)).2

/-- Models `is_included_to_duplicate`. -/
def isIncludedToDuplicate (c : List Char) : Bool :=
  (match c with
   | [] => false
   | h :: _ =>
     (h = '[' || h = '{') &&
       (match c.reverse with
        | [] => false
        | t :: _ => t = ']' || t = '}')) ||
  c = "☐".toList || c = "✅".toList || c = "🔘".toList || c = "🟢".toList

/-- The first counting pass: occurrences of each included token. -/
def cnt (ls : List PLine) (k : List Char) : Nat :=
  if isIncludedToDuplicate k then
    (ls.filter (fun l => lineKey l = k)).length
  else 0

/-- Models `remainder = f"|| {remainder}"` when non-empty. -/
def remStr (l : PLine) : List Char :=
  if lineRem l ≠ [] then "|| ".toList ++ lineRem l else []

/-- The second pass, carrying the occurrence dictionary. -/
def pass2 (cf : List Char → Nat) : List (List Char × Nat) → List PLine →
    List PLine
  | _, [] => []
  | occ, l :: rest =>
    if cf (lineKey l) > 1 then
      let j := (aget occ (lineKey l)).getD 0 + 1
      let newContent := lineKey l ++ natToChars j ++ remStr l
      ⟨l.frame, newContent, l.coords, l.xpath, l.locatorString⟩ ::
        pass2 cf (aset occ (lineKey l) j) rest
    else l :: pass2 cf occ rest

/-- Models `process_duplicate_content` on parsed lines. -/
def processDuplicate (ls : List PLine) : List PLine :=
  pass2 (cnt ls) [] ls

/-- The 1-based rank of position `i` among the lines sharing its key. -/
def keyRank (ls : List PLine) (k : List Char) (i : Nat) : Nat :=
  ((ls.take i).filter (fun l => lineKey l = k)).length + 1

/-- The line `process_duplicate_content` emits for input line `l` at a
position of rank `j` among its key, assuming its key is duplicated. -/
def dupLine (l : PLine) (j : Nat) : PLine :=
  ⟨l.frame, lineKey l ++ natToChars j ++ remStr l, l.coords, l.xpath,
    l.locatorString⟩

end FullText

/-! ## Specification-side statements used for refutations

These definitions follow the words of the specification claims (not the
source); each is compared against the source-derived embedding above. -/

/-- Claim C8's masking criterion as written: digit-bearing, *raw token
length* at least the minimum, not a donot-mask term, not date-like, not
contained in any supplied donot-mask entry. -/
def specMaskCriterionRaw (cfg : DataMasker.MaskerCfg)
    (dm : List (List Char)) (tok : List Char) : Bool :=
  DataMasker.hasDigitTok tok &&
    decide (cfg.minTokenLength ≤ tok.length) &&
    !DataMasker.isDonotTerm cfg tok &&
    !DataMasker.isDateish tok &&
    !(dm.any (fun item => occursIn tok item))

/-- Claim C4's side condition as written: the *set* of collected digit
indices equals `{1..k}` for some `k` equal to the OTP length (duplicates
ignored by the set reading). -/
def specOTPSetCondition (digitIdxs : List Nat) (otpLen : Nat) : Bool :=
  digitIdxs.all (fun n => (List.range' 1 otpLen).contains n) &&
    (List.range' 1 otpLen).all (fun n => digitIdxs.contains n)

/-- Claim C8's criterion with the length measured on the normalised token,
which is the amended reading. -/
def amendedMaskCriterion (cfg : DataMasker.MaskerCfg)
    (dm : List (List Char)) (tok : List Char) : Bool :=
  DataMasker.hasDigitTok tok &&
    decide (cfg.minTokenLength ≤ (DataMasker.normNumber tok).length) &&
    !DataMasker.isDonotTerm cfg tok &&
    !DataMasker.isDateish tok &&
    !(dm.any (fun item => occursIn tok item))

/-! # Theorems -/

/-! ## Generic association-list lemmas -/

theorem aget_aset_self {κ α : Type} [DecidableEq κ]
    (m : List (κ × α)) (k : κ) (v : α) : aget (aset m k v) k = some v := by
  induction m with
  | nil => simp [aget, aset]
  | cons kv rest ih =>
    by_cases h : kv.1 = k
    · simp [aset, h, aget]
    · simp [aset, h, aget, ih]

theorem aget_aset_ne {κ α : Type} [DecidableEq κ]
    (m : List (κ × α)) (k k' : κ) (v : α) (hne : k ≠ k') :
    aget (aset m k v) k' = aget m k' := by
  induction m with
  | nil => simp [aget, aset, hne]
  | cons kv rest ih =>
    by_cases h : kv.1 = k
    · simp [aset, h, aget, hne]
    · simp [aset, h, aget, ih]

theorem aget_adel_self {κ α : Type} [DecidableEq κ]
    (m : List (κ × α)) (k : κ) : aget (adel m k) k = none := by
  induction m with
  | nil => simp [adel, aget]
  | cons kv rest ih =>
    by_cases h : kv.1 = k
    · simp [adel, h, ih]
    · simp [adel, h, aget, ih]

theorem aget_adel_ne {κ α : Type} [DecidableEq κ]
    (m : List (κ × α)) (k k' : κ) (hne : k ≠ k') :
    aget (adel m k) k' = aget m k' := by
  induction m with
  | nil => simp [adel, aget]
  | cons kv rest ih =>
    by_cases h : kv.1 = k
    · simp [adel, h, aget, hne, ih]
    · simp [adel, h, aget, ih]

/-! ## Claim C3 and C10: tool-call execution -/

namespace ToolExec

theorem foldl_append_eq_map {α β : Type} (f : α → β) (l : List α)
    (acc : List β) :
    l.foldl (fun a c => a ++ [f c]) acc = acc ++ l.map f := by
  induction l generalizing acc with
  | nil => simp
  | cons c rest ih => simp [List.foldl, ih]

theorem executeToolCalls_eq_map (payload : List CallEntry)
    (tools : List (List Char × ToolFn)) (parallel : Bool) :
    executeToolCalls payload tools parallel =
      (extractCalls payload).map (executeSingle (makeRegistry tools)) := by
  unfold executeToolCalls
  by_cases h : parallel && (extractCalls payload).length > 1
  · simp [h]
  · simp [h, foldl_append_eq_map]

theorem executeSingle_id (reg : List (List Char × ToolFn)) (c : ToolCall) :
    (executeSingle reg c).id = c.id := by
  unfold executeSingle
  cases aget reg c.nm with
  | none => rfl
  | some f => cases hf : f c.args <;> simp [hf]

end ToolExec

/-- C3 (counterexample): a `tool_calls` entry that carries an `id` but no
`name` is dropped by `_extract_calls`, so the returned `tool_results` list
is shorter than the input `tool_calls` list, refuting the claimed equal
length for every payload. -/
theorem c3_tool_ordering_counterexample :
    (ToolExec.executeToolCalls
        [ToolExec.CallEntry.obj none 0 (some "a".toList)] [] false).length ≠
      [ToolExec.CallEntry.obj none 0 (some "a".toList)].length := by
  decide

/-- C3 (amended): `execute_tool_calls` returns, for both values of the
parallel flag, one result per *extracted* call (the entries that are
mappings with a non-empty name, in payload order), and the result at every
position carries the id of the extracted call at the same position. -/
theorem c3_tool_ordering_amended (payload : List ToolExec.CallEntry)
    (tools : List (List Char × ToolExec.ToolFn)) (parallel : Bool) :
    (ToolExec.executeToolCalls payload tools parallel).length =
        (ToolExec.extractCalls payload).length ∧
      ∀ i : Nat,
        ((ToolExec.executeToolCalls payload tools parallel)[i]?).map
            ToolExec.ToolResult.id =
          ((ToolExec.extractCalls payload)[i]?).map ToolExec.ToolCall.id := by
  rw [ToolExec.executeToolCalls_eq_map]
  constructor
  · exact List.length_map _ _
  · intro i
    rw [List.getElem?_map]
    cases (ToolExec.extractCalls payload)[i]? with
    | none => rfl
    | some c => simp [ToolExec.executeSingle_id]

/-- C3 (amended) at a concrete input: one named and one nameless entry. -/
theorem c3_tool_ordering_amended_witness :
    ((ToolExec.executeToolCalls
        [ToolExec.CallEntry.obj (some "t".toList) 0 (some "a".toList),
         ToolExec.CallEntry.obj none 0 (some "b".toList)] [] true).length =
      (ToolExec.extractCalls
        [ToolExec.CallEntry.obj (some "t".toList) 0 (some "a".toList),
         ToolExec.CallEntry.obj none 0 (some "b".toList)]).length) ∧
    ((ToolExec.executeToolCalls
        [ToolExec.CallEntry.obj (some "t".toList) 0 (some "a".toList),
         ToolExec.CallEntry.obj none 0 (some "b".toList)] [] true)[0]?).map
        ToolExec.ToolResult.id = some (some "a".toList) := by
  have h := c3_tool_ordering_amended
    [ToolExec.CallEntry.obj (some "t".toList) 0 (some "a".toList),
     ToolExec.CallEntry.obj none 0 (some "b".toList)] [] true
  refine ⟨h.1, ?_⟩
  rw [h.2 0]
  decide

namespace ToolExec

theorem extractCalls_cons_named (nm : List Char) (args : Args)
    (id : Option (List Char)) (rest : List CallEntry) (hne : nm ≠ []) :
    extractCalls (CallEntry.obj (some nm) args id :: rest) =
      ⟨nm, args, id⟩ :: extractCalls rest := by
  simp [extractCalls, List.filterMap_cons, hne]

theorem extractCalls_length_of_named (payload : List CallEntry)
    (hwf : payload.all entryNamed = true) :
    (extractCalls payload).length = payload.length := by
  induction payload with
  | nil => rfl
  | cons e rest ih =>
    rw [List.all_cons, Bool.and_eq_true] at hwf
    cases e with
    | obj onm args id =>
      cases onm with
      | none => simp [entryNamed] at hwf
      | some nm =>
        have h1 := hwf.1
        have hne : nm ≠ [] := by
          intro h
          rw [h] at h1
          simp [entryNamed] at h1
        rw [extractCalls_cons_named nm args id rest hne, List.length_cons,
          List.length_cons, ih hwf.2]
    | nonMapping t => simp [entryNamed] at hwf

end ToolExec

/-- C10: when every payload entry is a well-formed named call, the result
list pairs up with the payload position by position; a call whose name is
not in the registry yields (without raising) an `ok=False` result carrying
`Unknown tool: <name>` at its position, and every call is executed
independently according to `_execute_single`. -/
theorem c10_unknown_tool (payload : List ToolExec.CallEntry)
    (tools : List (List Char × ToolExec.ToolFn)) (parallel : Bool)
    (hwf : payload.all ToolExec.entryNamed = true) :
    (ToolExec.executeToolCalls payload tools parallel).length =
        payload.length ∧
      (∀ (i : Nat) (c : ToolExec.ToolCall),
        (ToolExec.extractCalls payload)[i]? = some c →
        aget (ToolExec.makeRegistry tools) c.nm = none →
        (ToolExec.executeToolCalls payload tools parallel)[i]? =
          some ⟨c.id, c.nm, false, none,
            some ("Unknown tool: ".toList ++ c.nm)⟩) ∧
      (∀ (i : Nat) (c : ToolExec.ToolCall),
        (ToolExec.extractCalls payload)[i]? = some c →
        (ToolExec.executeToolCalls payload tools parallel)[i]? =
          some (ToolExec.executeSingle (ToolExec.makeRegistry tools) c)) := by
  refine ⟨?_, ?_, ?_⟩
  · rw [ToolExec.executeToolCalls_eq_map, List.length_map]
    exact ToolExec.extractCalls_length_of_named payload hwf
  · intro i c hc hreg
    rw [ToolExec.executeToolCalls_eq_map, List.getElem?_map, hc]
    simp [ToolExec.executeSingle, hreg]
  · intro i c hc
    rw [ToolExec.executeToolCalls_eq_map, List.getElem?_map, hc]
    rfl

/-- C10 at a concrete input: an unknown tool `zzz` produces its error
result in place while the registered tool `add` still runs. -/
theorem c10_unknown_tool_witness :
    (ToolExec.executeToolCalls
        [ToolExec.CallEntry.obj (some "zzz".toList) 0 (some "a".toList),
         ToolExec.CallEntry.obj (some "add".toList) 0 (some "b".toList)]
        [("add".toList, fun _ => Except.ok 7)] false)[0]? =
      some ⟨some "a".toList, "zzz".toList, false, none,
        some ("Unknown tool: ".toList ++ "zzz".toList)⟩ ∧
    (ToolExec.executeToolCalls
        [ToolExec.CallEntry.obj (some "zzz".toList) 0 (some "a".toList),
         ToolExec.CallEntry.obj (some "add".toList) 0 (some "b".toList)]
        [("add".toList, fun _ => Except.ok 7)] false)[1]? =
      some ⟨some "b".toList, "add".toList, true, some 7, none⟩ := by
  have h := c10_unknown_tool
    [ToolExec.CallEntry.obj (some "zzz".toList) 0 (some "a".toList),
     ToolExec.CallEntry.obj (some "add".toList) 0 (some "b".toList)]
    [("add".toList, fun _ => Except.ok 7)] false (by decide)
  constructor
  · exact h.2.1 0 ⟨"zzz".toList, 0, some "a".toList⟩ rfl rfl
  · rw [h.2.2 1 ⟨"add".toList, 0, some "b".toList⟩ rfl]
    rfl

/-! ## Claim C8: the masking criterion -/

theorem ahas_append_single {κ α : Type} [DecidableEq κ]
    (m : List (κ × α)) (k : κ) (v : α) :
    ahas (m ++ [(k, v)]) k = true := by
  induction m with
  | nil => simp [ahas, aget]
  | cons kv rest ih =>
    by_cases h : kv.1 = k
    · simp [ahas, aget, h]
    · simpa [ahas, aget, h] using ih

theorem maskTokenLoop_records (σ : Nat → Nat) (tok : List Char)
    (fuel : Nat) (st : DataMasker.MaskState) :
    ahas (DataMasker.maskTokenLoop σ tok fuel st).2.replacementMap tok =
      true := by
  induction fuel generalizing st with
  | zero => simpa [DataMasker.maskTokenLoop] using ahas_append_single _ _ _
  | succ f ih =>
    unfold DataMasker.maskTokenLoop
    split
    · exact ih _
    · exact ahas_append_single _ _ _

theorem maskTok_records (σ : Nat → Nat) (st : DataMasker.MaskState)
    (tok : List Char) :
    ahas (DataMasker.maskTok σ st tok).2.replacementMap tok = true := by
  unfold DataMasker.maskTok
  cases h : aget st.replacementMap tok with
  | some m => simpa [ahas] using congrArg Option.isSome h
  | none => exact maskTokenLoop_records σ tok 100 st

theorem shouldMask_eq_amended (cfg : DataMasker.MaskerCfg)
    (dm : List (List Char)) (tok : List Char) :
    DataMasker.shouldMask cfg dm tok = amendedMaskCriterion cfg dm tok := by
  unfold DataMasker.shouldMask amendedMaskCriterion
  by_cases h1 : (DataMasker.normNumber tok).length < cfg.minTokenLength <;>
    by_cases h2 : DataMasker.hasDigitTok tok <;>
      by_cases h3 : DataMasker.isDonotTerm cfg tok <;>
        by_cases h4 : DataMasker.isDateish tok <;>
          by_cases h5 : dm.any (fun item => occursIn tok item) <;>
            simp_all [Nat.not_lt, List.any_eq_true, List.any_eq_false,
              decide_eq_true_eq, decide_eq_false_iff_not, List.any_eq]

/-- C8 (counterexample): the token `1,234` contains a digit, has raw
length 5 (the configured minimum), is no donot-mask term, is not
date-like and no donot-mask entry contains it — the claim as stated says
it is replaced — yet `mask_sensitive_info` leaves the text unchanged and
records no replacement, because the length check runs on the *normalised*
token `1234` of length 4. -/
theorem c8_mask_criterion_counterexample :
    specMaskCriterionRaw DataMasker.defaultCfg [] "1,234".toList = true ∧
      DataMasker.maskText DataMasker.defaultCfg (fun _ => 0) []
          "1,234".toList =
        ("1,234".toList, DataMasker.emptyMaskState) := by
  constructor
  · decide
  · decide

/-- C8 (amended): `mask_sensitive_info` takes the replacement branch for a
whitespace-delimited token iff the token contains a digit, the length of
its numeric normalisation (`_normalize_number`) is at least the configured
minimum, it is not a donot-mask term, it is not date/time-shaped, and it
is not contained in any supplied `donot_mask` entry; a token failing the
criterion is returned unchanged with the state untouched, and a token
meeting it is handed to `_mask_token`, which records a replacement for it. -/
theorem c8_mask_criterion_amended (cfg : DataMasker.MaskerCfg)
    (σ : Nat → Nat) (dm : List (List Char))
    (st : DataMasker.MaskState) (tok : List Char) :
    DataMasker.shouldMask cfg dm tok = amendedMaskCriterion cfg dm tok ∧
      (amendedMaskCriterion cfg dm tok = false →
        DataMasker.replacer cfg σ dm st tok = (tok, st)) ∧
      (amendedMaskCriterion cfg dm tok = true →
        DataMasker.replacer cfg σ dm st tok = DataMasker.maskTok σ st tok ∧
          ahas (DataMasker.replacer cfg σ dm st tok).2.replacementMap tok =
            true) := by
  refine ⟨shouldMask_eq_amended cfg dm tok, ?_, ?_⟩
  · intro h
    unfold DataMasker.replacer
    rw [shouldMask_eq_amended, h]
    simp
  · intro h
    unfold DataMasker.replacer
    rw [shouldMask_eq_amended, h]
    exact ⟨by simp, by simpa using maskTok_records σ st tok⟩

/-- C8 (amended) at concrete tokens: `98765` meets the criterion and is
replaced (with a recorded mapping), `hello` does not and passes through. -/
theorem c8_mask_criterion_amended_witness :
    DataMasker.replacer DataMasker.defaultCfg (fun _ => 0) []
        DataMasker.emptyMaskState "98765".toList =
      DataMasker.maskTok (fun _ => 0) DataMasker.emptyMaskState
        "98765".toList ∧
    DataMasker.replacer DataMasker.defaultCfg (fun _ => 0) []
        DataMasker.emptyMaskState "hello".toList =
      ("hello".toList, DataMasker.emptyMaskState) := by
  constructor
  · exact ((c8_mask_criterion_amended DataMasker.defaultCfg (fun _ => 0) []
      DataMasker.emptyMaskState "98765".toList).2.2 (by decide)).1
  · exact (c8_mask_criterion_amended DataMasker.defaultCfg (fun _ => 0) []
      DataMasker.emptyMaskState "hello".toList).2.1 (by decide)

/-! ## Claim C5: embedded-filesystem path confinement -/

namespace FsEmbed

theorem splitSlash_ne_nil (l : List Char) : splitSlash l ≠ [] := by
  cases l with
  | nil => simp [splitSlash]
  | cons c cs =>
    unfold splitSlash
    cases h : splitSlash cs with
    | nil => simp
    | cons a t => by_cases hc : c = '/' <;> simp [hc]

theorem splitSlash_no_slash (l : List Char) :
    ∀ s ∈ splitSlash l, '/' ∉ s := by
  induction l with
  | nil => intro s hs; simp [splitSlash] at hs; simp [hs]
  | cons c cs ih =>
    intro s hs
    unfold splitSlash at hs
    cases h : splitSlash cs with
    | nil => exact absurd h (splitSlash_ne_nil cs)
    | cons a t =>
      rw [h] at hs
      have iha : '/' ∉ a := ih a (h ▸ List.mem_cons_self a t)
      have iht : ∀ x ∈ t, '/' ∉ x := fun x hx => ih x (h ▸ List.mem_cons_of_mem a hx)
      by_cases hc : c = '/'
      · simp [hc] at hs
        rcases hs with hs | hs | hs
        · simp [hs]
        · exact hs ▸ iha
        · exact iht s hs
      · simp [hc] at hs
        rcases hs with hs | hs
        · rw [hs]
          intro hmem
          rcases List.mem_cons.mp hmem with h1 | h1
          · exact hc h1.symm
          · exact iha h1
        · exact iht s hs

theorem splitSlash_slashfree (l : List Char) (h : '/' ∉ l) :
    splitSlash l = [l] := by
  induction l with
  | nil => rfl
  | cons c cs ih =>
    have hc : c ≠ '/' := fun hh => h (hh ▸ List.mem_cons_self c cs)
    have hcs : '/' ∉ cs := fun hh => h (List.mem_cons_of_mem c hh)
    unfold splitSlash
    rw [ih hcs]
    simp [fun hh => hc hh]

theorem splitSlash_append_slash (a b : List Char) (h : '/' ∉ a) :
    splitSlash (a ++ '/' :: b) = a :: splitSlash b := by
  induction a with
  | nil =>
    show splitSlash ('/' :: b) = [] :: splitSlash b
    conv_lhs => rw [splitSlash]
    cases hb : splitSlash b with
    | nil => exact absurd hb (splitSlash_ne_nil b)
    | cons x t => simp
  | cons c cs ih =>
    have hc : c ≠ '/' := fun hh => h (hh ▸ List.mem_cons_self c cs)
    have hcs : '/' ∉ cs := fun hh => h (List.mem_cons_of_mem c hh)
    show splitSlash (c :: (cs ++ '/' :: b)) = (c :: cs) :: splitSlash b
    conv_lhs => rw [splitSlash]
    rw [ih hcs]
    simp [hc]

theorem splitSlash_joinSlash (parts : List (List Char)) (hne : parts ≠ [])
    (h : ∀ s ∈ parts, '/' ∉ s) : splitSlash (joinSlash parts) = parts := by
  induction parts with
  | nil => exact absurd rfl hne
  | cons p rest ih =>
    cases rest with
    | nil =>
      exact splitSlash_slashfree p (h p (List.mem_cons_self p []))
    | cons q rest2 =>
      have hjoin : joinSlash (p :: q :: rest2) = p ++ '/' :: joinSlash (q :: rest2) := rfl
      rw [hjoin, splitSlash_append_slash p _ (h p (List.mem_cons_self p _)),
        ih (by simp) (fun s hs => h s (List.mem_cons_of_mem p hs))]

theorem collapse_good (segs : List (List Char)) :
    ∀ acc parts, collapseAux acc segs = some parts →
      (∀ s ∈ acc, goodSeg s) → (∀ s ∈ segs, '/' ∉ s) →
      ∀ s ∈ parts, goodSeg s := by
  induction segs with
  | nil =>
    intro acc parts hcol hacc _ s hs
    unfold collapseAux at hcol
    cases hcol
    exact hacc s (List.mem_reverse.mp hs)
  | cons seg rest ih =>
    intro acc parts hcol hacc hsl s hs
    unfold collapseAux at hcol
    by_cases h1 : seg = [] ∨ seg = ['.']
    · rw [if_pos (by simpa using h1)] at hcol
      exact ih acc parts hcol hacc
        (fun x hx => hsl x (List.mem_cons_of_mem seg hx)) s hs
    · rw [if_neg (by simpa using h1)] at hcol
      by_cases h2 : seg = ['.', '.']
      · rw [if_pos (by simp [h2])] at hcol
        cases acc with
        | nil => exact absurd hcol (by simp)
        | cons a accT =>
          exact ih accT parts hcol
            (fun x hx => hacc x (List.mem_cons_of_mem a hx))
            (fun x hx => hsl x (List.mem_cons_of_mem seg hx)) s hs
      · rw [if_neg (by simp [h2])] at hcol
        push_neg at h1
        refine ih (seg :: acc) parts hcol ?_
          (fun x hx => hsl x (List.mem_cons_of_mem seg hx)) s hs
        intro x hx
        rcases List.mem_cons.mp hx with hx | hx
        · exact hx ▸ ⟨h1.1, h1.2, h2, hsl seg (List.mem_cons_self seg rest)⟩
        · exact hacc x hx

theorem normalizeSubpath_cases (p : Option (List Char)) :
    normalizeSubpath p = ['.'] ∨
      ∃ parts, parts ≠ [] ∧ (∀ s ∈ parts, goodSeg s) ∧
        normalizeSubpath p = joinSlash parts := by
  cases p with
  | none => exact Or.inl rfl
  | some q =>
    unfold normalizeSubpath
    dsimp only
    by_cases hq : q = []
    · rw [if_pos hq]
      exact Or.inl rfl
    · rw [if_neg hq]
      by_cases hs : pyStrip q = ['.'] ∨ pyStrip q = ['.', '/'] ∨
          pyStrip q = ['/']
      · rw [if_pos (by rcases hs with h | h | h <;> simp [h])]
        exact Or.inl rfl
      · rw [if_neg (by push_neg at hs; simp [hs.1, hs.2.1, hs.2.2])]
        cases hcol : collapseAux []
            (splitSlash
              (((pyStrip q).map
                (fun c => if c = '\\' then '/' else c)).dropWhile
                  (fun c => c = '/'))) with
        | none => exact Or.inl rfl
        | some parts =>
          cases parts with
          | nil => exact Or.inl rfl
          | cons a t =>
            refine Or.inr ⟨a :: t, by simp, ?_, rfl⟩
            exact collapse_good _ [] (a :: t) hcol (by simp)
              (splitSlash_no_slash _)

theorem resolveLexAux_skip_good (xs : List (List Char)) :
    ∀ acc ys, (∀ s ∈ xs, s ≠ [] ∧ s ≠ ['.'] ∧ s ≠ ['.', '.']) →
      resolveLexAux acc (xs ++ ys) = resolveLexAux (xs.reverse ++ acc) ys := by
  induction xs with
  | nil => intro acc ys _; rfl
  | cons x rest ih =>
    intro acc ys hxs
    have hx := hxs x (List.mem_cons_self x rest)
    have hrw : (x :: rest).reverse ++ acc = rest.reverse ++ x :: acc := by
      simp
    rw [hrw, List.cons_append]
    conv_lhs => rw [resolveLexAux.eq_def]
    dsimp only
    rw [if_neg (by simp [hx.1, hx.2.1]), if_neg (by simp [hx.2.2])]
    exact ih (x :: acc) ys (fun s hs => hxs s (List.mem_cons_of_mem x hs))

theorem insideLex_append (root rest : List (List Char)) :
    insideLex root (root ++ rest) = true := by
  induction root with
  | nil => rfl
  | cons r rs ih => simpa [insideLex] using ih

end FsEmbed

/-- C5: for every root (given as already-resolved, well-formed segments)
and every client-supplied path, the normalised subpath contains no `..`
segment and does not start with `/`, and `_resolve_safe` succeeds — the
guardrail branch is unreachable — with a resolved path that passes the
`_inside` check, i.e. is the root itself or a descendant of it (symbolic
links are outside the lexical model). -/
theorem c5_path_confinement (root : List (List Char))
    (p : Option (List Char))
    (hroot : ∀ s ∈ root, s ≠ [] ∧ s ≠ ['.'] ∧ s ≠ ['.', '.']) :
    (∀ s ∈ FsEmbed.splitSlash (FsEmbed.normalizeSubpath p),
        s ≠ ['.', '.']) ∧
      (FsEmbed.normalizeSubpath p).head? ≠ some '/' ∧
      FsEmbed.resolveSafe root p =
        Except.ok (FsEmbed.resolveLex root (FsEmbed.normalizeSubpath p)) ∧
      FsEmbed.insideLex root
        (FsEmbed.resolveLex root (FsEmbed.normalizeSubpath p)) = true := by
  have hmain : FsEmbed.insideLex root
      (FsEmbed.resolveLex root (FsEmbed.normalizeSubpath p)) = true ∧
      (∀ s ∈ FsEmbed.splitSlash (FsEmbed.normalizeSubpath p),
        s ≠ ['.', '.']) ∧
      (FsEmbed.normalizeSubpath p).head? ≠ some '/' := by
    rcases FsEmbed.normalizeSubpath_cases p with hdot | ⟨parts, hne, hgood, heq⟩
    · refine ⟨?_, ?_, ?_⟩
      · rw [hdot]
        have hres : FsEmbed.resolveLex root ['.'] = root := by
          unfold FsEmbed.resolveLex
          have hsplit : FsEmbed.splitSlash ['.'] = [['.']] := by decide
          rw [hsplit]
          have hfil : ([['.']] : List (List Char)).filter
              (fun s => s ≠ []) = [['.']] := by decide
          rw [hfil, FsEmbed.resolveLexAux_skip_good root [] [['.']] hroot]
          conv_lhs => rw [FsEmbed.resolveLexAux.eq_def]
          dsimp only
          rw [if_pos (by simp)]
          conv_lhs => rw [FsEmbed.resolveLexAux.eq_def]
          simp
        rw [hres]
        simpa using FsEmbed.insideLex_append root []
      · rw [hdot]; decide
      · rw [hdot]; decide
    · have hsplit : FsEmbed.splitSlash (FsEmbed.normalizeSubpath p) =
          parts := by
        rw [heq]
        exact FsEmbed.splitSlash_joinSlash parts hne
          (fun s hs => (hgood s hs).2.2.2)
      have hres : FsEmbed.resolveLex root (FsEmbed.normalizeSubpath p) =
          root ++ parts := by
        unfold FsEmbed.resolveLex
        have hfil : (FsEmbed.splitSlash
            (FsEmbed.normalizeSubpath p)).filter (fun s => s ≠ []) =
            parts := by
          rw [hsplit]
          exact List.filter_eq_self.mpr
            (fun s hs => by simpa using (hgood s hs).1)
        rw [hfil, FsEmbed.resolveLexAux_skip_good root [] parts hroot]
        conv_lhs => rw [(List.append_nil parts).symm]
        rw [FsEmbed.resolveLexAux_skip_good parts (root.reverse ++ []) []
          (fun s hs => by
            have hg := hgood s hs
            exact ⟨hg.1, hg.2.1, hg.2.2.1⟩)]
        conv_lhs => rw [FsEmbed.resolveLexAux.eq_def]
        simp
      refine ⟨?_, ?_, ?_⟩
      · rw [hres]
        exact FsEmbed.insideLex_append root parts
      · rw [hsplit]
        exact fun s hs => (hgood s hs).2.2.1
      · cases parts with
        | nil => exact absurd rfl hne
        | cons a t =>
          have ha := hgood a (List.mem_cons_self a t)
          rw [heq]
          cases a with
          | nil => exact absurd rfl ha.1
          | cons c cs =>
            have hcne : c ≠ '/' :=
              fun hc => ha.2.2.2 (hc ▸ List.mem_cons_self c cs)
            cases t with
            | nil =>
              simp [FsEmbed.joinSlash]
              exact hcne
            | cons b t2 =>
              have hj : FsEmbed.joinSlash ((c :: cs) :: b :: t2) =
                  (c :: cs) ++ '/' :: FsEmbed.joinSlash (b :: t2) := rfl
              rw [hj]
              simp
              exact hcne
  refine ⟨hmain.2.1, hmain.2.2, ?_, hmain.1⟩
  unfold FsEmbed.resolveSafe
  rw [if_pos hmain.1]

/-- C5 at a concrete input: a `..` traversal attempt resolves inside the
root and the guardrail does not fire. -/
theorem c5_path_confinement_witness :
    FsEmbed.resolveSafe ["home".toList, "data".toList]
        (some "../../etc/passwd".toList) =
      Except.ok (FsEmbed.resolveLex ["home".toList, "data".toList]
        (FsEmbed.normalizeSubpath (some "../../etc/passwd".toList))) ∧
    FsEmbed.insideLex ["home".toList, "data".toList]
      (FsEmbed.resolveLex ["home".toList, "data".toList]
        (FsEmbed.normalizeSubpath (some "../../etc/passwd".toList))) =
      true := by
  have h := c5_path_confinement ["home".toList, "data".toList]
    (some "../../etc/passwd".toList) (by decide)
  exact ⟨h.2.2.1, h.2.2.2⟩

/-! ## Claim C6: replay variable substitution -/

theorem aset_self_eq {κ α : Type} [DecidableEq κ]
    (m : List (κ × α)) (k : κ) (v : α) (h : aget m k = some v) :
    aset m k v = m := by
  induction m with
  | nil => simp [aget] at h
  | cons kv rest ih =>
    unfold aget at h
    unfold aset
    by_cases hk : kv.1 = k
    · rw [if_pos hk] at h
      rw [if_pos hk]
      injection h with h2
      rw [← h2]
    · rw [if_neg hk] at h
      rw [if_neg hk, ih h]

theorem pyReplaceAux_no_occur (pat rep : List Char) :
    ∀ (fuel : Nat) (l : List Char),
      (∀ t ∈ l.tails, ¬ pat.isPrefixOf t = true) →
      pyReplaceAux pat rep fuel l = l := by
  intro fuel
  induction fuel with
  | zero => intro l _; rfl
  | succ f ih =>
    intro l hl
    cases l with
    | nil => rfl
    | cons c cs =>
      have h1 : (c :: cs) ∈ (c :: cs).tails := by
        rw [List.tails_cons]
        exact List.mem_cons_self _ _
      have h2 : ∀ t ∈ cs.tails, t ∈ (c :: cs).tails := by
        intro t ht
        rw [List.tails_cons]
        exact List.mem_cons_of_mem _ ht
      unfold pyReplaceAux
      rw [if_neg (hl (c :: cs) h1), ih cs (fun t ht => hl t (h2 t ht))]

theorem pyReplace_no_occur (c pat rep : List Char) (hp : pat ≠ [])
    (h : occursIn pat c = false) : pyReplace c pat rep = c := by
  unfold pyReplace
  rw [if_neg hp]
  refine pyReplaceAux_no_occur pat rep c.length c ?_
  intro t ht hpre
  have : c.tails.any (fun t => pat.isPrefixOf t) = true :=
    List.any_eq_true.mpr ⟨t, ht, hpre⟩
  rw [occursIn] at h
  rw [h] at this
  exact Bool.false_ne_true this

/-- C6 (counterexample): with recorded variables `{:1 -> A, :2 -> B}` and
current variables `{:1 -> B, :2 -> C}`, the recorded message `A` is
rewritten to `C` (the first substitution's output is consumed by the
second), while the claim's simultaneous literal substitution yields `B`. -/
theorem c6_replay_subst_counterexample :
    RecordReplay.substituteVariables
        [(":1", "A".toList), (":2", "B".toList)]
        [(":1", "B".toList), (":2", "C".toList)]
        [[("content", RecordReplay.MVal.s "A".toList)]] =
      [[("content", RecordReplay.MVal.s "C".toList)]] ∧
    RecordReplay.simulSubst [(":1", "A".toList), (":2", "B".toList)]
        [(":1", "B".toList), (":2", "C".toList)] "A".toList = "B".toList ∧
    ("C".toList : List Char) ≠ "B".toList := by
  refine ⟨by decide, by decide, by decide⟩

/-- C6 (amended): replacements are applied sequentially, one recorded
variable at a time in mapping order, each a literal string replacement on
string contents only.  For a single-variable mapping the claim holds as
written: every string content has the recorded value literally replaced by
the current value, the message is otherwise untouched, and a message whose
content does not contain the recorded value is returned unchanged. -/
theorem c6_replay_subst_amended (k : String) (A B : List Char)
    (currentV : List (String × List Char))
    (hist : List RecordReplay.Msg)
    (hcur : aget currentV k = some B) (hA : A ≠ []) :
    RecordReplay.substituteVariables [(k, A)] currentV hist =
      hist.map (fun m =>
        match aget m "content" with
        | some (RecordReplay.MVal.s c) =>
          aset m "content" (RecordReplay.MVal.s (pyReplace c A B))
        | _ => m) ∧
    ∀ m ∈ hist, ∀ c, aget m "content" = some (RecordReplay.MVal.s c) →
      occursIn A c = false →
      (match aget m "content" with
       | some (RecordReplay.MVal.s c) =>
         aset m "content" (RecordReplay.MVal.s (pyReplace c A B))
       | _ => m) = m := by
  constructor
  · unfold RecordReplay.substituteVariables
    refine List.map_congr_left ?_
    intro m _
    cases hm : aget m "content" with
    | none => rfl
    | some v =>
      cases v with
      | s c => simp [RecordReplay.substContent, hcur]
      | other t => rfl
  · intro m _ c hm hocc
    rw [hm]
    dsimp only
    rw [pyReplace_no_occur c A B hA hocc]
    exact aset_self_eq m "content" (RecordReplay.MVal.s c) hm

/-- C6 (amended) at concrete inputs: `Boston` is rewritten to `NYC` in the
message that contains it and the message without it stays identical. -/
theorem c6_replay_subst_amended_witness :
    RecordReplay.substituteVariables [(":1", "Boston".toList)]
        [(":1", "NYC".toList)]
        [[("role", RecordReplay.MVal.s "user".toList),
          ("content", RecordReplay.MVal.s "fly from Boston now".toList)],
         [("content", RecordReplay.MVal.s "no city here".toList)],
         [("content", RecordReplay.MVal.other 3)]] =
      [[("role", RecordReplay.MVal.s "user".toList),
        ("content", RecordReplay.MVal.s "fly from NYC now".toList)],
       [("content", RecordReplay.MVal.s "no city here".toList)],
       [("content", RecordReplay.MVal.other 3)]] := by
  have h := c6_replay_subst_amended ":1" "Boston".toList "NYC".toList
    [(":1", "NYC".toList)]
    [[("role", RecordReplay.MVal.s "user".toList),
      ("content", RecordReplay.MVal.s "fly from Boston now".toList)],
     [("content", RecordReplay.MVal.s "no city here".toList)],
     [("content", RecordReplay.MVal.other 3)]] (by decide) (by decide)
  rw [h.1]
  decide

/-! ## Claims C2 and C9: the value-resolver chain -/

namespace ValueResolver

theorem delegate_step_none (r : Resp) :
    aget (delegateToUser r) "step" = none ∧
      aget (delegateToUser r) "steps" = none := by
  unfold delegateToUser
  constructor
  · rw [aget_aset_ne _ _ _ _ (by decide), aget_aset_ne _ _ _ _ (by decide),
      aget_adel_ne _ _ _ (by decide), aget_adel_self]
  · rw [aget_aset_ne _ _ _ _ (by decide), aget_aset_ne _ _ _ _ (by decide),
      aget_adel_self]

theorem delegate_noRV (r : Resp) :
    responseHasRV (delegateToUser r) = false := by
  have h := delegate_step_none r
  unfold responseHasRV extractSteps
  rw [h.1, h.2]

theorem delegate_exec (r : Resp) :
    aget (delegateToUser r) "step_execution" =
      some (RVal.s "DELEGATE_TO_USER".toList) := by
  unfold delegateToUser
  rw [aget_aset_ne _ _ _ _ (by decide), aget_aset_self]

theorem delegate_reasoning (r : Resp) :
    ∃ t, aget (delegateToUser r) "reasoning" =
      some (RVal.s ("Delegated to user for input: ".toList ++ t)) := by
  unfold delegateToUser
  exact ⟨_, aget_aset_self _ _ _⟩

end ValueResolver

/-- C2 (counterexample): a response whose single step carries the
whitespace-only `resolve_value` `" "` is returned unchanged: the returned
response still contains the `resolve_value` key, the step has no `value`,
and `step_execution` is not set to `DELEGATE_TO_USER` — refuting the claim
as stated. -/
theorem c2_resolver_fixpoint_counterexample :
    (ValueResolver.resolveMissing (fun _ => none) none false
        [("step", ValueResolver.RVal.stepD
            [("resolve_value", ValueResolver.SVal.s " ".toList)]),
         ("reasoning", ValueResolver.RVal.s "r".toList)]).2 =
      [("step", ValueResolver.RVal.stepD
          [("resolve_value", ValueResolver.SVal.s " ".toList)]),
       ("reasoning", ValueResolver.RVal.s "r".toList)] ∧
    aget (ValueResolver.resolveMissing (fun _ => none) none false
        [("step", ValueResolver.RVal.stepD
            [("resolve_value", ValueResolver.SVal.s " ".toList)]),
         ("reasoning", ValueResolver.RVal.s "r".toList)]).2
      "step_execution" = none := by
  refine ⟨by decide, by decide⟩

/-- C2 (amended): after `resolve_missing_value_in_llm_response` returns,
no step of the returned response carries a *non-blank string*
`resolve_value`; and whenever a non-blank `resolve_value` survives the
sentinel, secret-resolver and configured-resolver passes, the returned
response is the delegation rewrite: `step_execution = DELEGATE_TO_USER`,
the `step`/`steps` keys removed, and the reasoning prefixed with
`Delegated to user for input: `. -/
theorem c2_resolver_fixpoint_amended (secretρ : ValueResolver.ResolverFn)
    (ρ : Option ValueResolver.ResolverFn) (mutFlag : Bool)
    (r : ValueResolver.Resp) :
    ValueResolver.responseHasRV
        (ValueResolver.resolveMissing secretρ ρ mutFlag r).2 = false ∧
      (ValueResolver.responseHasRV
          (ValueResolver.resolveCore secretρ ρ r) = true →
        aget (ValueResolver.resolveMissing secretρ ρ mutFlag r).2
            "step_execution" =
            some (ValueResolver.RVal.s "DELEGATE_TO_USER".toList) ∧
          aget (ValueResolver.resolveMissing secretρ ρ mutFlag r).2
            "step" = none ∧
          aget (ValueResolver.resolveMissing secretρ ρ mutFlag r).2
            "steps" = none ∧
          ∃ t, aget (ValueResolver.resolveMissing secretρ ρ mutFlag r).2
            "reasoning" =
            some (ValueResolver.RVal.s
              ("Delegated to user for input: ".toList ++ t))) := by
  unfold ValueResolver.resolveMissing
  by_cases h : ValueResolver.responseHasRV
      (ValueResolver.resolveCore secretρ ρ r) = true
  · constructor
    · simp only [h, if_true]
      exact ValueResolver.delegate_noRV _
    · intro _
      simp only [h, if_true]
      exact ⟨ValueResolver.delegate_exec _, (ValueResolver.delegate_step_none _).1,
        (ValueResolver.delegate_step_none _).2, ValueResolver.delegate_reasoning _⟩
  · have hb : ValueResolver.responseHasRV
        (ValueResolver.resolveCore secretρ ρ r) = false :=
      Bool.not_eq_true _ ▸ Bool.eq_false_iff.mpr (fun hh => h hh)
    constructor
    · simp only [hb, Bool.false_eq_true, if_false]
    · intro hc
      exact absurd hc h

/-- C2 (amended) at a concrete input: a step whose placeholder no resolver
satisfies ends in the delegation rewrite with the tell-tale shape. -/
theorem c2_resolver_fixpoint_amended_witness :
    ValueResolver.responseHasRV
        (ValueResolver.resolveMissing (fun _ => none) none false
          [("step", ValueResolver.RVal.stepD
              [("resolve_value", ValueResolver.SVal.s "city".toList)]),
           ("reasoning", ValueResolver.RVal.s "r".toList)]).2 = false ∧
      aget (ValueResolver.resolveMissing (fun _ => none) none false
          [("step", ValueResolver.RVal.stepD
              [("resolve_value", ValueResolver.SVal.s "city".toList)]),
           ("reasoning", ValueResolver.RVal.s "r".toList)]).2
        "step_execution" =
        some (ValueResolver.RVal.s "DELEGATE_TO_USER".toList) ∧
      aget (ValueResolver.resolveMissing (fun _ => none) none false
          [("step", ValueResolver.RVal.stepD
              [("resolve_value", ValueResolver.SVal.s "city".toList)]),
           ("reasoning", ValueResolver.RVal.s "r".toList)]).2 "step" =
        none := by
  have h := c2_resolver_fixpoint_amended (fun _ => none) none false
    [("step", ValueResolver.RVal.stepD
        [("resolve_value", ValueResolver.SVal.s "city".toList)]),
     ("reasoning", ValueResolver.RVal.s "r".toList)]
  have hd := h.2 (by decide)
  exact ⟨h.1, hd.1, hd.2.1⟩

/-- C9: with `mutate=False` the caller's object is still mutated by the
sentinel pass, which runs before the defensive deep copy: the state of the
input object after the call is exactly the sentinel-rewritten input, the
rewritten `step` dict is installed in the input object, and every step
whose `resolve_value` is exactly `OTP` or contains `**` ends with `value`
and `orig_value` set to the stripped sentinel and without the
`resolve_value` key. -/
theorem c9_sentinel_mutation (secretρ : ValueResolver.ResolverFn)
    (ρ : Option ValueResolver.ResolverFn) (r : ValueResolver.Resp) :
    (ValueResolver.resolveMissing secretρ ρ false r).1 =
        ValueResolver.sentinelPhase r ∧
      (∀ d, aget r "step" = some (ValueResolver.RVal.stepD d) →
        aget (ValueResolver.sentinelPhase r) "step" =
          some (ValueResolver.RVal.stepD
            (ValueResolver.applySentinelStep d))) ∧
      (∀ st rv, aget st "resolve_value" = some (ValueResolver.SVal.s rv) →
        (rv = "OTP".toList ∨ occursIn "**".toList rv = true) →
        aget (ValueResolver.applySentinelStep st) "value" =
            some (ValueResolver.SVal.s (pyStrip rv)) ∧
          aget (ValueResolver.applySentinelStep st) "orig_value" =
            some (ValueResolver.SVal.s (pyStrip rv)) ∧
          aget (ValueResolver.applySentinelStep st) "resolve_value" =
            none) := by
  refine ⟨rfl, ?_, ?_⟩
  · intro d hd
    unfold ValueResolver.sentinelPhase ValueResolver.extractSteps
      ValueResolver.mapSteps
    rw [hd]
    exact aget_aset_self r "step" _
  · intro st rv hrv hsent
    unfold ValueResolver.applySentinelStep
    rw [hrv]
    dsimp only
    have hcond : (rv = "OTP".toList || occursIn "**".toList rv) = true := by
      rcases hsent with h | h
      · rw [h]
        simp
      · rw [h]
        simp
    rw [if_pos hcond]
    refine ⟨?_, ?_, ?_⟩
    · rw [aget_adel_ne _ _ _ (by decide), aget_aset_self]
    · rw [aget_adel_ne _ _ _ (by decide),
        aget_aset_ne _ _ _ _ (by decide), aget_aset_self]
    · exact aget_adel_self _ _

/-- C9 at a concrete input: the sentinel `OTP` step is rewritten in the
input object itself even though `mutate=False`. -/
theorem c9_sentinel_mutation_witness :
    (ValueResolver.resolveMissing (fun _ => none) none false
        [("step", ValueResolver.RVal.stepD
            [("resolve_value", ValueResolver.SVal.s "OTP".toList)]),
         ("reasoning", ValueResolver.RVal.s "r".toList)]).1 =
      ValueResolver.sentinelPhase
        [("step", ValueResolver.RVal.stepD
            [("resolve_value", ValueResolver.SVal.s "OTP".toList)]),
         ("reasoning", ValueResolver.RVal.s "r".toList)] ∧
    aget (ValueResolver.applySentinelStep
        [("resolve_value", ValueResolver.SVal.s "OTP".toList)]) "value" =
      some (ValueResolver.SVal.s "OTP".toList) := by
  have h := c9_sentinel_mutation (fun _ => none) none
    [("step", ValueResolver.RVal.stepD
        [("resolve_value", ValueResolver.SVal.s "OTP".toList)]),
     ("reasoning", ValueResolver.RVal.s "r".toList)]
  refine ⟨h.1, ?_⟩
  have h3 := (h.2.2 [("resolve_value", ValueResolver.SVal.s "OTP".toList)]
    "OTP".toList rfl (Or.inl rfl)).1
  rw [h3]
  decide

/-! ## Claim C4: OTP per-digit soundness -/

/-- C4 (counterexample): with digit-box steps for targets
`\x7b_1\x7d, \x7b_1\x7d, \x7b_2\x7d` and OTP `42`, the collected digit
indices are `[1, 1, 2]`: as a *set* they equal `{1..2}` and the OTP has
length 2, so the claim as stated demands the per-digit substitution; the
code compares the sorted index list with `[1, 2, 3]` and skips it, leaving
every value `"*"`. -/
theorem c4_otp_per_digit_counterexample :
    ((OtpSolve.scanAux 0
        [OtpSolve.digitBoxStep "\x7b_1\x7d".toList,
         OtpSolve.digitBoxStep "\x7b_1\x7d".toList,
         OtpSolve.digitBoxStep "\x7b_2\x7d".toList]).1.map Prod.fst =
      [1, 1, 2]) ∧
    specOTPSetCondition [1, 1, 2] "42".toList.length = true ∧
    OtpSolve.checkStepsForOTP (some "42".toList)
        [OtpSolve.digitBoxStep "\x7b_1\x7d".toList,
         OtpSolve.digitBoxStep "\x7b_1\x7d".toList,
         OtpSolve.digitBoxStep "\x7b_2\x7d".toList] =
      (0, some
        [OtpSolve.digitBoxStep "\x7b_1\x7d".toList,
         OtpSolve.digitBoxStep "\x7b_1\x7d".toList,
         OtpSolve.digitBoxStep "\x7b_2\x7d".toList]) := by
  refine ⟨by decide, by decide, by decide⟩

namespace OtpSolve

theorem modifyAt_length (l : List ValueResolver.Step) (i : Nat)
    (f : ValueResolver.Step → ValueResolver.Step) :
    (modifyAt l i f).length = l.length := by
  unfold modifyAt
  cases h : l[i]? with
  | none => rfl
  | some x => simp

theorem modifyAt_ne (l : List ValueResolver.Step) (i j : Nat)
    (f : ValueResolver.Step → ValueResolver.Step) (hij : i ≠ j) :
    (modifyAt l i f)[j]? = l[j]? := by
  unfold modifyAt
  cases h : l[i]? with
  | none => rfl
  | some x => simp [List.getElem?_set, hij]

theorem modifyAt_self (l : List ValueResolver.Step) (i : Nat)
    (f : ValueResolver.Step → ValueResolver.Step) (x : ValueResolver.Step)
    (h : l[i]? = some x) : (modifyAt l i f)[i]? = some (f x) := by
  unfold modifyAt
  rw [h]
  have hi : i < l.length := by
    rcases List.getElem?_eq_some_iff.mp h with ⟨hlt, _⟩
    exact hlt
  simp [List.getElem?_set, hi, h]

theorem applyFull_fold_length (code : List Char) (idxs : List Nat) :
    ∀ p : List ValueResolver.Step × Nat,
      ((idxs.foldl (applyFull code) p).1).length = p.1.length := by
  induction idxs with
  | nil => intro p; rfl
  | cons a rest ih =>
    intro p
    rw [List.foldl_cons, ih]
    exact modifyAt_length p.1 a _

theorem applyFull_fold_ne (code : List Char) (idxs : List Nat) :
    ∀ (p : List ValueResolver.Step × Nat) (j : Nat), j ∉ idxs →
      ((idxs.foldl (applyFull code) p).1)[j]? = p.1[j]? := by
  induction idxs with
  | nil => intro p j _; rfl
  | cons a rest ih =>
    intro p j hj
    rw [List.foldl_cons,
      ih _ j (fun hm => hj (List.mem_cons_of_mem a hm))]
    exact modifyAt_ne p.1 a j _ (fun ha => hj (ha ▸ List.mem_cons_self a rest))

theorem applyFull_fold_mem (code : List Char) (idxs : List Nat) :
    ∀ (p : List ValueResolver.Step × Nat) (i : Nat)
      (x : ValueResolver.Step), idxs.Nodup → i ∈ idxs →
      p.1[i]? = some x →
      ((idxs.foldl (applyFull code) p).1)[i]? =
        some (aset x "value" (ValueResolver.SVal.s code)) := by
  induction idxs with
  | nil => intro p i x _ hi; exact absurd hi (by simp)
  | cons a rest ih =>
    intro p i x hnd hi hx
    rw [List.foldl_cons]
    rcases List.mem_cons.mp hi with hia | hir
    · have hnr : i ∉ rest := hia ▸ (List.nodup_cons.mp hnd).1
      rw [applyFull_fold_ne code rest _ i hnr]
      show (modifyAt p.1 a _)[i]? = _
      rw [← hia] at *
      exact modifyAt_self p.1 i _ x hx
    · refine ih _ i x (List.nodup_cons.mp hnd).2 hir ?_
      show (modifyAt p.1 a _)[i]? = some x
      have hia : a ≠ i := by
        intro he
        exact (List.nodup_cons.mp hnd).1 (he ▸ hir)
      rw [modifyAt_ne p.1 a i _ hia]
      exact hx

theorem applyDigits_length (pairs : List ((Nat × Nat) × Char)) :
    ∀ l : List ValueResolver.Step,
      (applyDigits pairs l).1.length = l.length := by
  induction pairs with
  | nil => intro l; rfl
  | cons pc rest ih =>
    intro l
    unfold applyDigits
    by_cases h : valueIs (l.getD pc.1.2 []) ['*'] = true
    · simp only [h, if_true]
      rw [ih (modifyAt l pc.1.2 _)]
      exact modifyAt_length _ _ _
    · simp only [h]
      rw [if_neg (by simpa using h)]
      exact ih l

theorem applyDigits_ne (pairs : List ((Nat × Nat) × Char)) :
    ∀ (l : List ValueResolver.Step) (j : Nat),
      (∀ pc ∈ pairs, pc.1.2 ≠ j) →
      (applyDigits pairs l).1[j]? = l[j]? := by
  induction pairs with
  | nil => intro l j _; rfl
  | cons pc rest ih =>
    intro l j hj
    unfold applyDigits
    by_cases h : valueIs (l.getD pc.1.2 []) ['*'] = true
    · simp only [h, if_true]
      rw [ih _ j (fun q hq => hj q (List.mem_cons_of_mem pc hq))]
      exact modifyAt_ne l pc.1.2 j _ (hj pc (List.mem_cons_self pc rest))
    · simp only [h]
      rw [if_neg (by simpa using h)]
      exact ih l j (fun q hq => hj q (List.mem_cons_of_mem pc hq))

theorem applyDigits_mem (pairs : List ((Nat × Nat) × Char)) :
    ∀ (l : List ValueResolver.Step) (p : Nat × Nat) (c : Char)
      (x : ValueResolver.Step),
      (pairs.map (fun pc => pc.1.2)).Nodup → (p, c) ∈ pairs →
      l[p.2]? = some x → valueIs x ['*'] = true →
      (applyDigits pairs l).1[p.2]? =
        some (aset x "value" (ValueResolver.SVal.s [c])) := by
  induction pairs with
  | nil => intro l p c x _ hm; exact absurd hm (by simp)
  | cons pc rest ih =>
    intro l p c x hnd hm hx hstar
    rcases List.mem_cons.mp hm with hh | hr
    · subst hh
      unfold applyDigits
      have hget : l.getD p.2 [] = x := by
        rw [List.getD_eq_getElem?_getD, hx]
        rfl
      rw [hget, if_pos hstar]
      have hnr : ∀ q ∈ rest, q.1.2 ≠ p.2 := by
        intro q hq he
        rw [List.map_cons, List.nodup_cons] at hnd
        exact hnd.1 (he ▸ List.mem_map_of_mem (fun pc => pc.1.2) hq)
      show (applyDigits rest (modifyAt l p.2 _)).1[p.2]? = _
      rw [applyDigits_ne rest _ p.2 hnr]
      exact modifyAt_self l p.2 _ x hx
    · unfold applyDigits
      by_cases h : valueIs (l.getD pc.1.2 []) ['*'] = true
      · simp only [h, if_true]
        refine ih _ p c x (List.nodup_cons.mp (by
          rw [List.map_cons] at hnd; exact hnd)).2 hr ?_ hstar
        have hne : pc.1.2 ≠ p.2 := by
          intro he
          rw [List.map_cons, List.nodup_cons] at hnd
          exact hnd.1 (he ▸ List.mem_map_of_mem (fun pc => pc.1.2) hr)
        rw [modifyAt_ne l pc.1.2 p.2 _ hne]
        exact hx
      · simp only [h]
        rw [if_neg (by simpa using h)]
        exact ih l p c x (by
          rw [List.map_cons, List.nodup_cons] at hnd
          exact hnd.2) hr hx hstar

end OtpSolve

namespace OtpSolve

theorem scanAux_char (l : List ValueResolver.Step) :
    ∀ k,
      (∀ p ∈ (scanAux k l).1, ∃ j, j < l.length ∧ p.2 = k + j ∧
        ∃ st, l[j]? = some st ∧ isFillStep st = true ∧
          valueIs st ['*'] = true ∧
          otpDigitIdx (targetOf st) = some p.1) ∧
      (∀ i ∈ (scanAux k l).2, ∃ j, j < l.length ∧ i = k + j ∧
        ∃ st, l[j]? = some st ∧ isFillStep st = true ∧
          valueIs st "OTP".toList = true) := by
  induction l with
  | nil =>
    intro k
    constructor
    · intro p hp
      simp [scanAux] at hp
    · intro i hi
      simp [scanAux] at hi
  | cons st rest ih =>
    intro k
    have bump1 : ∀ p ∈ (scanAux (k + 1) rest).1,
        ∃ j, j < (st :: rest).length ∧ p.2 = k + j ∧
          ∃ s2, (st :: rest)[j]? = some s2 ∧ isFillStep s2 = true ∧
            valueIs s2 ['*'] = true ∧
            otpDigitIdx (targetOf s2) = some p.1 := by
      intro p hp
      obtain ⟨j, hj, hpj, s2, hs2, hrest⟩ := ((ih (k + 1)).1) p hp
      exact ⟨j + 1, by simpa using hj, by omega, s2, by simpa using hs2,
        hrest⟩
    have bump2 : ∀ i ∈ (scanAux (k + 1) rest).2,
        ∃ j, j < (st :: rest).length ∧ i = k + j ∧
          ∃ s2, (st :: rest)[j]? = some s2 ∧ isFillStep s2 = true ∧
            valueIs s2 "OTP".toList = true := by
      intro i hi
      obtain ⟨j, hj, hij, s2, hs2, hrest⟩ := ((ih (k + 1)).2) i hi
      exact ⟨j + 1, by simpa using hj, by omega, s2, by simpa using hs2,
        hrest⟩
    constructor
    · intro p hp
      unfold scanAux at hp
      by_cases h1 : isFillStep st = true
      · rw [if_neg (by simp [h1])] at hp
        by_cases h2 : valueIs st "OTP".toList = true
        · rw [if_pos h2] at hp
          exact bump1 p hp
        · rw [if_neg h2] at hp
          cases hidx : otpDigitIdx (targetOf st) with
          | some n =>
            rw [hidx] at hp
            dsimp only at hp
            by_cases h3 : valueIs st ['*'] = true
            · rw [if_pos h3] at hp
              rcases List.mem_cons.mp hp with hh | hh
              · refine ⟨0, by simp, ?_, st, by simp, h1, h3, ?_⟩
                · rw [hh]
                  simp
                · rw [hh]
                  exact hidx
              · exact bump1 p hh
            · rw [if_neg h3] at hp
              exact bump1 p hp
          | none =>
            rw [hidx] at hp
            dsimp only at hp
            exact bump1 p hp
      · rw [if_pos (by simp [h1])] at hp
        exact bump1 p hp
    · intro i hi
      unfold scanAux at hi
      by_cases h1 : isFillStep st = true
      · rw [if_neg (by simp [h1])] at hi
        by_cases h2 : valueIs st "OTP".toList = true
        · rw [if_pos h2] at hi
          rcases List.mem_cons.mp hi with hh | hh
          · exact ⟨0, by simp, by simpa using hh, st, by simp, h1, h2⟩
          · exact bump2 i hh
        · rw [if_neg h2] at hi
          cases hidx : otpDigitIdx (targetOf st) with
          | some n =>
            rw [hidx] at hi
            dsimp only at hi
            by_cases h3 : valueIs st ['*'] = true
            · rw [if_pos h3] at hi
              exact bump2 i hi
            · rw [if_neg h3] at hi
              exact bump2 i hi
          | none =>
            rw [hidx] at hi
            dsimp only at hi
            exact bump2 i hi
      · rw [if_pos (by simp [h1])] at hi
        exact bump2 i hi

end OtpSolve

namespace OtpSolve

theorem scanAux_lb (l : List ValueResolver.Step) (k : Nat) :
    (∀ p ∈ (scanAux k l).1, k ≤ p.2) ∧ (∀ i ∈ (scanAux k l).2, k ≤ i) := by
  constructor
  · intro p hp
    obtain ⟨j, _, hpj, _⟩ := (scanAux_char l k).1 p hp
    omega
  · intro i hi
    obtain ⟨j, _, hij, _⟩ := (scanAux_char l k).2 i hi
    omega

theorem scanAux_nodup (l : List ValueResolver.Step) :
    ∀ k, ((scanAux k l).1.map Prod.snd).Nodup ∧
      (scanAux k l).2.Nodup ∧
      (∀ p ∈ (scanAux k l).1, p.2 ∉ (scanAux k l).2) := by
  induction l with
  | nil =>
    intro k
    refine ⟨by simp [scanAux], by simp [scanAux], by simp [scanAux]⟩
  | cons st rest ih =>
    intro k
    have hlb := scanAux_lb rest (k + 1)
    have ihk := ih (k + 1)
    unfold scanAux
    by_cases h1 : isFillStep st = true
    · rw [if_neg (by simp [h1])]
      by_cases h2 : valueIs st "OTP".toList = true
      · rw [if_pos h2]
        refine ⟨ihk.1, ?_, ?_⟩
        · refine List.nodup_cons.mpr ⟨?_, ihk.2.1⟩
          intro hk
          have := hlb.2 k hk
          omega
        · intro p hp hmem
          rcases List.mem_cons.mp hmem with hh | hh
          · have := hlb.1 p hp
            omega
          · exact ihk.2.2 p hp hh
      · rw [if_neg h2]
        cases hidx : otpDigitIdx (targetOf st) with
        | some n =>
          dsimp only
          by_cases h3 : valueIs st ['*'] = true
          · rw [if_pos h3]
            refine ⟨?_, ihk.2.1, ?_⟩
            · rw [List.map_cons]
              refine List.nodup_cons.mpr ⟨?_, ihk.1⟩
              intro hk
              obtain ⟨q, hq, hq2⟩ := List.mem_map.mp hk
              have := hlb.1 q hq
              omega
            · intro p hp hmem
              rcases List.mem_cons.mp hp with hh | hh
              · rw [hh] at hmem
                have := hlb.2 k hmem
                omega
              · exact ihk.2.2 p hh hmem
          · rw [if_neg h3]
            exact ihk
        | none =>
          dsimp only
          exact ihk
    · rw [if_pos (by simp [h1])]
      exact ihk

theorem pairLe_iff (a b : Nat × Nat) :
    pairLe a b = true ↔ a.1 < b.1 ∨ (a.1 = b.1 ∧ a.2 ≤ b.2) := by
  simp [pairLe]

theorem pairLe_total (a b : Nat × Nat) :
    pairLe a b = true ∨ pairLe b a = true := by
  rw [pairLe_iff, pairLe_iff]
  omega

theorem pairLe_trans (a b c : Nat × Nat) (h1 : pairLe a b = true)
    (h2 : pairLe b c = true) : pairLe a c = true := by
  rw [pairLe_iff] at *
  omega

theorem insertPair_perm (a : Nat × Nat) (l : List (Nat × Nat)) :
    (insertPair a l).Perm (a :: l) := by
  induction l with
  | nil => rfl
  | cons b rest ih =>
    unfold insertPair
    by_cases h : pairLe a b = true
    · rw [if_pos h]
    · rw [if_neg h]
      exact (List.Perm.cons b ih).trans (List.Perm.swap a b rest)

theorem sortPairs_perm (l : List (Nat × Nat)) : (sortPairs l).Perm l := by
  induction l with
  | nil => rfl
  | cons a rest ih =>
    exact (insertPair_perm a (sortPairs rest)).trans (List.Perm.cons a ih)

theorem insertPair_sorted (a : Nat × Nat) (l : List (Nat × Nat))
    (h : l.Pairwise (fun x y => pairLe x y = true)) :
    (insertPair a l).Pairwise (fun x y => pairLe x y = true) := by
  induction l with
  | nil => simp [insertPair]
  | cons b rest ih =>
    rw [List.pairwise_cons] at h
    unfold insertPair
    by_cases hab : pairLe a b = true
    · rw [if_pos hab]
      refine List.pairwise_cons.mpr ⟨?_, List.pairwise_cons.mpr h⟩
      intro x hx
      rcases List.mem_cons.mp hx with hh | hh
      · exact hh ▸ hab
      · exact pairLe_trans a b x hab (h.1 x hh)
    · rw [if_neg hab]
      have hba : pairLe b a = true := (pairLe_total a b).resolve_left hab
      refine List.pairwise_cons.mpr ⟨?_, ih h.2⟩
      intro x hx
      have hx2 := (insertPair_perm a rest).mem_iff.mp hx
      rcases List.mem_cons.mp hx2 with hh | hh
      · exact hh ▸ hba
      · exact h.1 x hh

theorem sortPairs_sorted (l : List (Nat × Nat)) :
    (sortPairs l).Pairwise (fun x y => pairLe x y = true) := by
  induction l with
  | nil => simp [sortPairs]
  | cons a rest ih => exact insertPair_sorted a (sortPairs rest) ih

theorem sortPairs_fst_sorted (l : List (Nat × Nat)) :
    ((sortPairs l).map Prod.fst).Pairwise (· ≤ ·) := by
  refine List.Pairwise.map Prod.fst ?_ (sortPairs_sorted l)
  intro a b hab
  rw [pairLe_iff] at hab
  omega

end OtpSolve

namespace OtpSolve

theorem mem_specSet_iff (xs : List Nat) (k : Nat)
    (h : specOTPSetCondition xs k = true) :
    ∀ n, n ∈ xs ↔ n ∈ List.range' 1 k := by
  unfold specOTPSetCondition at h
  rw [Bool.and_eq_true, List.all_eq_true, List.all_eq_true] at h
  intro n
  constructor
  · intro hn
    have := h.1 n hn
    simpa using this
  · intro hn
    have := h.2 n hn
    simpa using this

theorem specSet_of_mem_iff (xs : List Nat) (k : Nat)
    (h : ∀ n, n ∈ xs ↔ n ∈ List.range' 1 k) :
    specOTPSetCondition xs k = true := by
  unfold specOTPSetCondition
  rw [Bool.and_eq_true, List.all_eq_true, List.all_eq_true]
  constructor
  · intro n hn
    simpa using (h n).mp hn
  · intro n hn
    simpa using (h n).mpr hn

theorem perDigitCond_iff (steps : List ValueResolver.Step)
    (otp : List Char) :
    perDigitCond steps otp = true ↔
      (((scanAux 0 steps).1.map Prod.fst).Nodup ∧
        specOTPSetCondition ((scanAux 0 steps).1.map Prod.fst)
          otp.length = true) := by
  have hperm : ((sortPairs (scanAux 0 steps).1).map Prod.fst).Perm
      ((scanAux 0 steps).1.map Prod.fst) :=
    (sortPairs_perm (scanAux 0 steps).1).map Prod.fst
  have hlen : ((scanAux 0 steps).1.map Prod.fst).length =
      (scanAux 0 steps).1.length := List.length_map _ _
  unfold perDigitCond
  rw [Bool.and_eq_true, decide_eq_true_eq, decide_eq_true_eq]
  constructor
  · rintro ⟨hA, hB⟩
    have hpr : ((scanAux 0 steps).1.map Prod.fst).Perm
        (List.range' 1 (scanAux 0 steps).1.length) := by
      rw [← hA]
      exact hperm.symm
    refine ⟨hpr.symm.nodup (List.nodup_range' _ _), ?_⟩
    refine specSet_of_mem_iff _ _ ?_
    intro n
    rw [hpr.mem_iff, hB]
  · rintro ⟨hnd, hset⟩
    have hmem := mem_specSet_iff _ _ hset
    have hpr : ((scanAux 0 steps).1.map Prod.fst).Perm
        (List.range' 1 otp.length) := by
      rw [List.perm_iff_count]
      intro a
      by_cases ha : a ∈ (scanAux 0 steps).1.map Prod.fst
      · rw [List.count_eq_one_of_mem hnd ha,
          List.count_eq_one_of_mem (List.nodup_range' _ _)
            ((hmem a).mp ha)]
      · rw [List.count_eq_zero_of_not_mem ha,
          List.count_eq_zero_of_not_mem (fun hr => ha ((hmem a).mpr hr))]
    have hlen2 : otp.length = (scanAux 0 steps).1.length := by
      have := hpr.length_eq
      simp at this
      omega
    refine ⟨?_, hlen2⟩
    have hp2 : ((sortPairs (scanAux 0 steps).1).map Prod.fst).Perm
        (List.range' 1 (scanAux 0 steps).1.length) := by
      rw [← hlen2]
      exact hperm.trans hpr
    have hs1 : ((sortPairs (scanAux 0 steps).1).map Prod.fst).Pairwise
        (· ≤ ·) := sortPairs_fst_sorted (scanAux 0 steps).1
    have hs2 : (List.range' 1 (scanAux 0 steps).1.length).Pairwise
        (· ≤ ·) := List.pairwise_le_range' 1 (scanAux 0 steps).1.length
    exact @List.eq_of_perm_of_sorted Nat (· ≤ ·) _ _ _ hp2 hs1 hs2

end OtpSolve

namespace OtpSolve

theorem checkStepsForOTP_eq (steps : List ValueResolver.Step)
    (otp : List Char) (hotp : otp ≠ [])
    (hne : ((scanAux 0 steps).1.isEmpty &&
      (scanAux 0 steps).2.isEmpty) = false) :
    checkStepsForOTP (some otp) steps =
      (if perDigitCond steps otp = true then
        (((scanAux 0 steps).2.foldl (applyFull otp) (steps, 0)).2 +
            (applyDigits ((sortPairs (scanAux 0 steps).1).zip otp)
              ((scanAux 0 steps).2.foldl (applyFull otp)
                (steps, 0)).1).2,
          some (applyDigits ((sortPairs (scanAux 0 steps).1).zip otp)
            ((scanAux 0 steps).2.foldl (applyFull otp) (steps, 0)).1).1)
      else
        (((scanAux 0 steps).2.foldl (applyFull otp) (steps, 0)).2,
          some ((scanAux 0 steps).2.foldl (applyFull otp)
            (steps, 0)).1)) := by
  unfold checkStepsForOTP
  dsimp only
  rw [if_neg (by simp [hne])]
  rw [if_neg (by simp [hotp])]
  unfold perDigitCond
  by_cases hA : (sortPairs (scanAux 0 steps).1).map Prod.fst =
      List.range' 1 (scanAux 0 steps).1.length
  · by_cases hB : otp.length = (scanAux 0 steps).1.length
    · rw [if_neg (by simp [hA]), if_neg (by simp [hB]),
        if_pos (by simp [hA, hB])]
    · rw [if_neg (by simp [hA]), if_pos (by simp [hB]),
        if_neg (by simp [hB])]
  · rw [if_pos (by simp [hA]), if_neg (by simp [hA])]

end OtpSolve

/-- C4 (amended): with a non-empty fetched OTP code,
`_check_steps_for_otp_and_solve` rewrites the steps as follows.  Steps with
`value == "OTP"` receive the full code verbatim.  Per-digit substitution is
applied iff the collected digit indices are *pairwise distinct* and form
exactly the set `{1..k}` where `k` is the number of digit-box steps and the
OTP length equals `k` (the code's sorted-list test is equivalent to this);
when applied, the step for index `n` receives the `n`-th digit of the code,
and when not applied the digit-box steps are unchanged; every step not
matched by the scan is unchanged. -/
theorem c4_otp_per_digit_amended (steps : List ValueResolver.Step)
    (otp : List Char) (hotp : otp ≠ []) :
    (OtpSolve.perDigitCond steps otp = true ↔
      (((OtpSolve.scanAux 0 steps).1.map Prod.fst).Nodup ∧
        specOTPSetCondition ((OtpSolve.scanAux 0 steps).1.map Prod.fst)
          otp.length = true)) ∧
    ∃ u, (OtpSolve.checkStepsForOTP (some otp) steps).2 = some u ∧
      u.length = steps.length ∧
      (∀ p ∈ (OtpSolve.scanAux 0 steps).1,
        (OtpSolve.perDigitCond steps otp = true →
          ∃ st c, steps[p.2]? = some st ∧ otp[p.1 - 1]? = some c ∧
            u[p.2]? =
              some (aset st "value" (ValueResolver.SVal.s [c]))) ∧
        (OtpSolve.perDigitCond steps otp = false →
          u[p.2]? = steps[p.2]?)) ∧
      (∀ i ∈ (OtpSolve.scanAux 0 steps).2, ∃ st, steps[i]? = some st ∧
        u[i]? = some (aset st "value" (ValueResolver.SVal.s otp))) ∧
      (∀ i : Nat, i ∉ (OtpSolve.scanAux 0 steps).2 →
        (∀ d, (d, i) ∉ (OtpSolve.scanAux 0 steps).1) →
        u[i]? = steps[i]?) := by
  refine ⟨OtpSolve.perDigitCond_iff steps otp, ?_⟩
  have hnd := OtpSolve.scanAux_nodup steps 0
  have hchar := OtpSolve.scanAux_char steps 0
  have hstepOf : ∀ p ∈ (OtpSolve.scanAux 0 steps).1, ∃ st,
      steps[p.2]? = some st ∧ OtpSolve.valueIs st ['*'] = true := by
    intro p hp
    obtain ⟨j, hj, hpj, st, hst, _, hstar, _⟩ := hchar.1 p hp
    have hje : j = p.2 := by omega
    exact ⟨st, hje ▸ hst, hstar⟩
  have hosOf : ∀ i ∈ (OtpSolve.scanAux 0 steps).2, ∃ st,
      steps[i]? = some st := by
    intro i hi
    obtain ⟨j, hj, hij, st, hst, _⟩ := hchar.2 i hi
    have hje : j = i := by omega
    exact ⟨st, hje ▸ hst⟩
  by_cases hempty : ((OtpSolve.scanAux 0 steps).1.isEmpty &&
      (OtpSolve.scanAux 0 steps).2.isEmpty) = true
  · have h1 : (OtpSolve.scanAux 0 steps).1 = [] := by
      rw [Bool.and_eq_true] at hempty
      exact List.isEmpty_iff.mp hempty.1
    have h2 : (OtpSolve.scanAux 0 steps).2 = [] := by
      rw [Bool.and_eq_true] at hempty
      exact List.isEmpty_iff.mp hempty.2
    refine ⟨steps, ?_, rfl, ?_, ?_, ?_⟩
    · unfold OtpSolve.checkStepsForOTP
      dsimp only
      rw [if_pos hempty]
    · intro p hp
      rw [h1] at hp
      cases hp
    · intro i hi
      rw [h2] at hi
      cases hi
    · intro i _ _
      rfl
  · have hb : ((OtpSolve.scanAux 0 steps).1.isEmpty &&
        (OtpSolve.scanAux 0 steps).2.isEmpty) = false :=
      Bool.eq_false_iff.mpr hempty
    have hck := OtpSolve.checkStepsForOTP_eq steps otp hotp hb
    have r1ne : ∀ j, j ∉ (OtpSolve.scanAux 0 steps).2 →
        ((OtpSolve.scanAux 0 steps).2.foldl (OtpSolve.applyFull otp)
          (steps, 0)).1[j]? = steps[j]? :=
      fun j hj => OtpSolve.applyFull_fold_ne otp _ (steps, 0) j hj
    have r1len : ((OtpSolve.scanAux 0 steps).2.foldl
        (OtpSolve.applyFull otp) (steps, 0)).1.length = steps.length :=
      OtpSolve.applyFull_fold_length otp _ (steps, 0)
    have r1mem : ∀ i ∈ (OtpSolve.scanAux 0 steps).2, ∃ st,
        steps[i]? = some st ∧
        ((OtpSolve.scanAux 0 steps).2.foldl (OtpSolve.applyFull otp)
          (steps, 0)).1[i]? =
          some (aset st "value" (ValueResolver.SVal.s otp)) := by
      intro i hi
      obtain ⟨st, hst⟩ := hosOf i hi
      exact ⟨st, hst, OtpSolve.applyFull_fold_mem otp _ (steps, 0) i st
        hnd.2.1 hi hst⟩
    by_cases hcond : OtpSolve.perDigitCond steps otp = true
    · have hAB := hcond
      unfold OtpSolve.perDigitCond at hAB
      rw [Bool.and_eq_true, decide_eq_true_eq, decide_eq_true_eq] at hAB
      have hsortlen : (OtpSolve.sortPairs (OtpSolve.scanAux 0 steps).1).length =
          (OtpSolve.scanAux 0 steps).1.length :=
        (OtpSolve.sortPairs_perm _).length_eq
      have hpairs_fst : ((OtpSolve.sortPairs (OtpSolve.scanAux 0 steps).1).zip
          otp).map Prod.fst = OtpSolve.sortPairs (OtpSolve.scanAux 0 steps).1 :=
        List.map_fst_zip _ _ (by omega)
      have hmemzip : ∀ pc ∈ (OtpSolve.sortPairs
          (OtpSolve.scanAux 0 steps).1).zip otp,
          pc.1 ∈ (OtpSolve.scanAux 0 steps).1 := by
        intro pc hpc
        obtain ⟨a, b⟩ := pc
        have hz := (List.of_mem_zip hpc).1
        exact ((OtpSolve.sortPairs_perm _).mem_iff).mp hz
      have hzip_nodup : (((OtpSolve.sortPairs (OtpSolve.scanAux 0 steps).1).zip
          otp).map (fun pc => pc.1.2)).Nodup := by
        have he : ((OtpSolve.sortPairs (OtpSolve.scanAux 0 steps).1).zip
            otp).map (fun pc => pc.1.2) =
            ((OtpSolve.sortPairs (OtpSolve.scanAux 0 steps).1).zip
              otp).map (Prod.snd ∘ Prod.fst) := rfl
        rw [he, ← List.map_map, hpairs_fst]
        exact (((OtpSolve.sortPairs_perm
          (OtpSolve.scanAux 0 steps).1).map Prod.snd).symm).nodup hnd.1
      refine ⟨_, by rw [hck, if_pos hcond], ?_, ?_, ?_, ?_⟩
      · rw [OtpSolve.applyDigits_length, r1len]
      · intro p hp
        refine ⟨?_, fun hf => absurd hcond (by rw [hf]; simp)⟩
        intro _
        obtain ⟨st, hst, hstar⟩ := hstepOf p hp
        have hpsort : p ∈ OtpSolve.sortPairs (OtpSolve.scanAux 0 steps).1 :=
          ((OtpSolve.sortPairs_perm _).mem_iff).mpr hp
        obtain ⟨idx, hidxlt, hidx⟩ := List.mem_iff_getElem.mp hpsort
        have hfst : p.1 = 1 + idx := by
          have h1 : ((OtpSolve.sortPairs
              (OtpSolve.scanAux 0 steps).1).map Prod.fst)[idx]? =
              some p.1 := by
            rw [List.getElem?_map, List.getElem?_eq_getElem hidxlt, hidx]
            rfl
          rw [hAB.1] at h1
          have hlt2 : idx < (List.range' 1
              (OtpSolve.scanAux 0 steps).1.length).length := by
            rw [List.length_range']
            omega
          rw [List.getElem?_eq_getElem hlt2, List.getElem_range'] at h1
          have h3 := Option.some.inj h1
          omega
        have hidxotp : idx < otp.length := by omega
        refine ⟨st, otp.get ⟨idx, hidxotp⟩, hst, ?_, ?_⟩
        · have h5 : p.1 - 1 = idx := by omega
          rw [h5]
          exact List.getElem?_eq_getElem hidxotp
        · have hlt : idx < ((OtpSolve.sortPairs
              (OtpSolve.scanAux 0 steps).1).zip otp).length := by
            rw [List.length_zip]
            omega
          have hmempair : (p, otp.get ⟨idx, hidxotp⟩) ∈
              (OtpSolve.sortPairs (OtpSolve.scanAux 0 steps).1).zip otp := by
            have hz : ((OtpSolve.sortPairs
                (OtpSolve.scanAux 0 steps).1).zip otp)[idx] =
                (p, otp.get ⟨idx, hidxotp⟩) := by
              rw [List.getElem_zip, hidx]
              rfl
            rw [← hz]
            exact List.getElem_mem hlt
          refine OtpSolve.applyDigits_mem _ _ p (otp.get ⟨idx, hidxotp⟩) st
            hzip_nodup hmempair ?_ hstar
          rw [r1ne p.2 (hnd.2.2 p hp)]
          exact hst
      · intro i hi
        obtain ⟨st, hst, hr1⟩ := r1mem i hi
        refine ⟨st, hst, ?_⟩
        rw [OtpSolve.applyDigits_ne _ _ i ?_, hr1]
        intro pc hpc he
        exact absurd hi (he ▸ hnd.2.2 pc.1 (hmemzip pc hpc))
      · intro i hios hids
        rw [OtpSolve.applyDigits_ne _ _ i ?_, r1ne i hios]
        intro pc hpc he
        exact hids pc.1.1 (by
          have := hmemzip pc hpc
          rw [← he]
          simpa using this)
    · have hcf : OtpSolve.perDigitCond steps otp = false :=
        Bool.eq_false_iff.mpr hcond
      refine ⟨_, by rw [hck, if_neg hcond], r1len, ?_, ?_, ?_⟩
      · intro p hp
        refine ⟨fun ht => absurd ht hcond, fun _ => ?_⟩
        exact r1ne p.2 (hnd.2.2 p hp)
      · intro i hi
        obtain ⟨st, hst, hr1⟩ := r1mem i hi
        exact ⟨st, hst, hr1⟩
      · intro i hios _
        exact r1ne i hios

/-- C4 (amended) at a concrete input: two digit boxes `\x7b_1\x7d\x7b_2\x7d`
with OTP `48` satisfy the (distinct) set condition and receive the digits
in order. -/
theorem c4_otp_per_digit_amended_witness :
    OtpSolve.perDigitCond
        [OtpSolve.digitBoxStep "\x7b_1\x7d".toList,
         OtpSolve.digitBoxStep "\x7b_2\x7d".toList] "48".toList = true ∧
    (OtpSolve.checkStepsForOTP (some "48".toList)
        [OtpSolve.digitBoxStep "\x7b_1\x7d".toList,
         OtpSolve.digitBoxStep "\x7b_2\x7d".toList]).2 =
      some [aset (OtpSolve.digitBoxStep "\x7b_1\x7d".toList) "value"
          (ValueResolver.SVal.s ['4']),
        aset (OtpSolve.digitBoxStep "\x7b_2\x7d".toList) "value"
          (ValueResolver.SVal.s ['8'])] := by
  constructor
  · exact (c4_otp_per_digit_amended
      [OtpSolve.digitBoxStep "\x7b_1\x7d".toList,
       OtpSolve.digitBoxStep "\x7b_2\x7d".toList] "48".toList
      (by decide)).1.mpr (by decide)
  · decide

/-! ## Claim C7: duplicate-token indexing -/

namespace FullText

theorem pass2_length (cf : List Char → Nat) :
    ∀ (rest : List PLine) (occ : List (List Char × Nat)),
      (pass2 cf occ rest).length = rest.length := by
  intro rest
  induction rest with
  | nil => intro occ; rfl
  | cons h t ih =>
    intro occ
    unfold pass2
    by_cases hh : cf (lineKey h) > 1
    · rw [if_pos hh]
      simp [ih]
    · rw [if_neg hh]
      simp [ih]

theorem pass2_getElem (cf : List Char → Nat) :
    ∀ (rest : List PLine) (occ : List (List Char × Nat)) (i : Nat)
      (l : PLine), rest[i]? = some l →
      (pass2 cf occ rest)[i]? = some (
        if cf (lineKey l) > 1 then
          dupLine l ((aget occ (lineKey l)).getD 0 +
            ((rest.take i).filter
              (fun x => lineKey x = lineKey l)).length + 1)
        else l) := by
  intro rest
  induction rest with
  | nil =>
    intro occ i l hl
    simp at hl
  | cons h t ih =>
    intro occ i l hl
    cases i with
    | zero =>
      rw [List.getElem?_cons_zero, Option.some.injEq] at hl
      rw [← hl]
      unfold pass2
      by_cases hh : cf (lineKey h) > 1
      · rw [if_pos hh, List.getElem?_cons_zero, if_pos hh]
        simp [dupLine]
      · rw [if_neg hh, List.getElem?_cons_zero, if_neg hh]
    | succ i =>
      rw [List.getElem?_cons_succ] at hl
      unfold pass2
      by_cases hh : cf (lineKey h) > 1
      · rw [if_pos hh, List.getElem?_cons_succ,
          ih (aset occ (lineKey h) ((aget occ (lineKey h)).getD 0 + 1))
            i l hl]
        by_cases hc : cf (lineKey l) > 1
        · rw [if_pos hc, if_pos hc]
          by_cases hk : lineKey h = lineKey l
          · have hrank : (aget (aset occ (lineKey h)
                ((aget occ (lineKey h)).getD 0 + 1)) (lineKey l)).getD 0 +
                ((t.take i).filter
                  (fun x => lineKey x = lineKey l)).length + 1 =
                (aget occ (lineKey l)).getD 0 +
                (((h :: t).take (i + 1)).filter
                  (fun x => lineKey x = lineKey l)).length + 1 := by
              rw [← hk, aget_aset_self, List.take_succ_cons,
                List.filter_cons_of_pos (by simp [hk])]
              simp [Option.getD]
              omega
            rw [hrank]
          · rw [aget_aset_ne occ (lineKey h) (lineKey l) _ hk]
            rw [List.take_succ_cons, List.filter_cons_of_neg (by simp [hk])]
        · rw [if_neg hc, if_neg hc]
      · rw [if_neg hh, List.getElem?_cons_succ, ih occ i l hl]
        by_cases hc : cf (lineKey l) > 1
        · rw [if_pos hc, if_pos hc]
          have hk : lineKey h ≠ lineKey l := by
            intro he
            rw [he] at hh
            exact hh hc
          rw [List.take_succ_cons, List.filter_cons_of_neg (by simp [hk])]
        · rw [if_neg hc, if_neg hc]

end FullText

namespace FullText

theorem digitOfNat_isDigit (d : Nat) : (digitOfNat d).isDigit = true := by
  have h : d % 10 < 10 := Nat.mod_lt _ (by norm_num)
  unfold digitOfNat
  interval_cases hm : d % 10 <;> decide

theorem natToCharsAux_digits (f : Nat) :
    ∀ n, natToCharsAux (f + 1) n ≠ [] ∧
      ∀ c ∈ natToCharsAux (f + 1) n, c.isDigit = true := by
  induction f with
  | zero =>
    intro n
    unfold natToCharsAux
    by_cases h : n < 10
    · rw [if_pos h]
      exact ⟨by simp, by
        intro c hc
        simp at hc
        rw [hc]
        exact digitOfNat_isDigit n⟩
    · rw [if_neg h]
      unfold natToCharsAux
      refine ⟨by simp, ?_⟩
      intro c hc
      simp at hc
      rw [hc]
      exact digitOfNat_isDigit _
  | succ f ih =>
    intro n
    unfold natToCharsAux
    by_cases h : n < 10
    · rw [if_pos h]
      exact ⟨by simp, by
        intro c hc
        simp at hc
        rw [hc]
        exact digitOfNat_isDigit n⟩
    · rw [if_neg h]
      refine ⟨by simp, ?_⟩
      intro c hc
      rcases List.mem_append.mp hc with hc | hc
      · exact (ih (n / 10)).2 c hc
      · simp at hc
        rw [hc]
        exact digitOfNat_isDigit _

theorem natToChars_digits (n : Nat) :
    natToChars n ≠ [] ∧ ∀ c ∈ natToChars n, c.isDigit = true :=
  natToCharsAux_digits n n

theorem DataMasker.digitsToNatAux_append (a b : List Char) :
    ∀ acc, DataMasker.digitsToNatAux (a ++ b) acc =
      DataMasker.digitsToNatAux b (DataMasker.digitsToNatAux a acc) := by
  induction a with
  | nil => intro acc; rfl
  | cons c cs ih => intro acc; exact ih _

theorem DataMasker.digitsToNatAux_acc (l : List Char) :
    ∀ acc, DataMasker.digitsToNatAux l acc =
      acc * 10 ^ l.length + DataMasker.digitsToNatAux l 0 := by
  induction l with
  | nil => intro acc; simp [DataMasker.digitsToNatAux]
  | cons c cs ih =>
    intro acc
    show DataMasker.digitsToNatAux cs (acc * 10 + (c.toNat - 48)) = _
    rw [ih (acc * 10 + (c.toNat - 48))]
    have h2 : DataMasker.digitsToNatAux (c :: cs) 0 =
        DataMasker.digitsToNatAux cs (c.toNat - 48) := by
      show DataMasker.digitsToNatAux cs (0 * 10 + (c.toNat - 48)) = _
      rw [Nat.zero_mul, Nat.zero_add]
    rw [h2, ih (c.toNat - 48)]
    rw [List.length_cons, pow_succ]
    ring

theorem digitOfNat_val (d : Nat) (h : d < 10) :
    (digitOfNat d).toNat - 48 = d := by
  unfold digitOfNat
  interval_cases d <;> decide

theorem natToCharsAux_val (f : Nat) :
    ∀ n, n ≤ f → DataMasker.digitsToNat (natToCharsAux (f + 1) n) = n := by
  induction f with
  | zero =>
    intro n hn
    have h0 : n = 0 := by omega
    rw [h0]
    decide
  | succ f ih =>
    intro n hn
    unfold natToCharsAux
    by_cases h : n < 10
    · rw [if_pos h]
      show DataMasker.digitsToNatAux [digitOfNat n] 0 = n
      show DataMasker.digitsToNatAux [] (0 * 10 + ((digitOfNat n).toNat - 48)) = n
      rw [digitOfNat_val n h]
      show 0 * 10 + n = n
      omega
    · rw [if_neg h]
      cases f with
      | zero => omega
      | succ f2 =>
        unfold DataMasker.digitsToNat
        rw [DataMasker.digitsToNatAux_append _ _ 0]
        have hdiv : n / 10 ≤ f2 + 1 := by omega
        have hval := ih (n / 10) (by omega)
        unfold DataMasker.digitsToNat at hval
        rw [hval]
        show DataMasker.digitsToNatAux [] ((n / 10) * 10 +
          ((digitOfNat (n % 10)).toNat - 48)) = n
        rw [digitOfNat_val (n % 10) (Nat.mod_lt _ (by norm_num))]
        show (n / 10) * 10 + n % 10 = n
        omega

theorem natToChars_inj (a b : Nat) (h : natToChars a = natToChars b) :
    a = b := by
  have ha := natToCharsAux_val a a (Nat.le_refl a)
  have hb := natToCharsAux_val b b (Nat.le_refl b)
  unfold natToChars at h
  rw [← ha, ← hb, h]

end FullText

namespace FullText

/-! ### Substring and strip lemmas for the duplicate-token analysis -/

theorem occursIn_nil (pat : List Char) (hp : pat ≠ []) :
    occursIn pat [] = false := by
  cases pat with
  | nil => exact absurd rfl hp
  | cons a as => rfl

theorem occursIn_cons (pat : List Char) (a : Char) (l : List Char) :
    occursIn pat (a :: l) = (pat.isPrefixOf (a :: l) || occursIn pat l) := by
  simp [occursIn, List.tails_cons]

theorem isPrefixOf_append_ext (p x y : List Char)
    (h : p.isPrefixOf x = true) : p.isPrefixOf (x ++ y) = true := by
  simp only [List.isPrefixOf_iff_prefix] at h ⊢
  exact h.trans (List.prefix_append x y)

theorem occursIn_append_right (pat x y : List Char)
    (h : occursIn pat y = true) : occursIn pat (x ++ y) = true := by
  induction x with
  | nil => exact h
  | cons a as ih =>
    rw [List.cons_append, occursIn_cons, ih, Bool.or_true]

theorem occursIn_append_left (pat x y : List Char) (hp : pat ≠ [])
    (h : occursIn pat x = true) : occursIn pat (x ++ y) = true := by
  induction x with
  | nil => rw [occursIn_nil pat hp] at h; exact absurd h (by simp)
  | cons a as ih =>
    rw [occursIn_cons] at h
    rw [List.cons_append, occursIn_cons]
    rcases Bool.or_eq_true_iff.mp h with h1 | h2
    · have h3 := isPrefixOf_append_ext pat (a :: as) y h1
      rw [List.cons_append] at h3
      rw [h3, Bool.true_or]
    · rw [ih h2, Bool.or_true]

theorem occursIn_extend (pat x y : List Char) (hp : pat ≠ [])
    (hxy : x <:+: y) (h : occursIn pat x = true) : occursIn pat y = true := by
  obtain ⟨s, t, hst⟩ := hxy
  rw [← hst, List.append_assoc]
  exact occursIn_append_right pat s _ (occursIn_append_left pat x t hp h)

theorem pyStrip_within (l : List Char) : pyStrip l <:+: l := by
  refine ⟨l.takeWhile isWsChar,
    ((l.dropWhile isWsChar).reverse.takeWhile isWsChar).reverse, ?_⟩
  have h2 : (l.dropWhile isWsChar).reverse.takeWhile isWsChar ++
      (l.dropWhile isWsChar).reverse.dropWhile isWsChar =
      (l.dropWhile isWsChar).reverse :=
    List.takeWhile_append_dropWhile isWsChar _
  have h3 : pyStrip l ++
      ((l.dropWhile isWsChar).reverse.takeWhile isWsChar).reverse =
      l.dropWhile isWsChar := by
    show ((l.dropWhile isWsChar).reverse.dropWhile isWsChar).reverse ++ _ = _
    conv_rhs => rw [← List.reverse_reverse (l.dropWhile isWsChar), ← h2]
    rw [List.reverse_append]
  rw [List.append_assoc, h3]
  exact List.takeWhile_append_dropWhile isWsChar l

theorem occursIn_pyStrip (pat l : List Char) (hp : pat ≠ [])
    (h : occursIn pat (pyStrip l) = true) : occursIn pat l = true :=
  occursIn_extend pat _ l hp (pyStrip_within l) h

theorem occursIn_pair_none (c1 c2 : Char) (y : List Char)
    (h : ∀ c ∈ y, c ≠ c1) : occursIn [c1, c2] y = false := by
  induction y with
  | nil => rfl
  | cons a as ih =>
    rw [occursIn_cons]
    have ha : a ≠ c1 := h a (List.mem_cons_self a as)
    have h1 : [c1, c2].isPrefixOf (a :: as) = false := by
      show ((c1 == a) && [c2].isPrefixOf as) = false
      rw [beq_eq_false_iff_ne.mpr (fun he => ha he.symm), Bool.false_and]
    rw [h1, ih (fun c hc => h c (List.mem_cons_of_mem a hc)), Bool.or_self]

theorem isPrefixOf_pair_cons_cons (c1 c2 a b : Char) (t : List Char) :
    [c1, c2].isPrefixOf (a :: b :: t) = ((c1 == a) && (c2 == b)) := by
  show ((c1 == a) && ((c2 == b) && List.isPrefixOf [] t)) = _
  cases t <;> simp [List.isPrefixOf]

theorem occursIn_pair_append_neg (c1 c2 : Char) (x y : List Char)
    (hx : occursIn [c1, c2] x = false) (hy : occursIn [c1, c2] y = false)
    (hj : x.getLast? = some c1 → y.head? ≠ some c2) :
    occursIn [c1, c2] (x ++ y) = false := by
  induction x with
  | nil => exact hy
  | cons a xs ih =>
    rw [occursIn_cons] at hx
    obtain ⟨hx1, hx2⟩ := Bool.or_eq_false_iff.mp hx
    rw [List.cons_append, occursIn_cons]
    have hpre : [c1, c2].isPrefixOf (a :: (xs ++ y)) = false := by
      cases xs with
      | nil =>
        by_cases hac : a = c1
        · subst hac
          have hy2 := hj (by simp)
          cases y with
          | nil => simp [List.isPrefixOf]
          | cons b bs =>
            have hbc : b ≠ c2 := fun he => hy2 (by subst he; rfl)
            rw [List.nil_append, isPrefixOf_pair_cons_cons]
            simp [Ne.symm hbc]
        · show ((c1 == a) && _) = false
          rw [beq_eq_false_iff_ne.mpr (fun he => hac he.symm), Bool.false_and]
      | cons b xs' =>
        rw [isPrefixOf_pair_cons_cons] at hx1
        rw [List.cons_append, isPrefixOf_pair_cons_cons]
        exact hx1
    have hj2 : xs.getLast? = some c1 → y.head? ≠ some c2 := by
      intro hg
      apply hj
      cases xs with
      | nil => simp at hg
      | cons b xs' =>
        rw [List.getLast?_cons_cons]
        exact hg
    rw [hpre, ih hx2 hj2, Bool.or_self]

theorem occursIn_pair_present (c1 c2 : Char) (x y : List Char) :
    occursIn [c1, c2] (x ++ c1 :: c2 :: y) = true := by
  apply occursIn_append_right
  rw [occursIn_cons, isPrefixOf_pair_cons_cons]
  simp

end FullText

namespace FullText

theorem splitFirstAux_decomp (pat : List Char) (hp : pat ≠ []) :
    ∀ (fuel : Nat) (l a b : List Char),
      splitFirstAux pat fuel l = some (a, b) →
      a ++ pat ++ b = l ∧ occursIn pat a = false := by
  intro fuel
  induction fuel with
  | zero => intro l a b h; exact absurd h (by simp [splitFirstAux])
  | succ f ih =>
    intro l a b h
    cases l with
    | nil => exact absurd h (by simp [splitFirstAux])
    | cons c cs =>
      unfold splitFirstAux at h
      by_cases hpre : pat.isPrefixOf (c :: cs) = true
      · rw [if_pos hpre, Option.some.injEq, Prod.mk.injEq] at h
        obtain ⟨ha, hb⟩ := h
        subst ha
        subst hb
        refine ⟨?_, occursIn_nil pat hp⟩
        rw [List.nil_append]
        have hp2 : pat <+: (c :: cs) := List.isPrefixOf_iff_prefix.mp hpre
        obtain ⟨r, hr⟩ := hp2
        rw [← hr, List.drop_left]
      · rw [if_neg hpre] at h
        cases hrec : splitFirstAux pat f cs with
        | none => rw [hrec] at h; exact absurd h (by simp)
        | some p =>
          obtain ⟨a', b'⟩ := p
          rw [hrec, Option.some.injEq, Prod.mk.injEq] at h
          obtain ⟨ha, hb⟩ := h
          obtain ⟨hdec, hocc⟩ := ih cs a' b' hrec
          subst hb
          rw [← ha]
          constructor
          · rw [List.cons_append, List.cons_append, hdec]
          · rw [occursIn_cons, hocc, Bool.or_false]
            cases hp3 : pat.isPrefixOf (c :: a')
            · rfl
            · exfalso
              apply hpre
              have h4 := isPrefixOf_append_ext pat (c :: a') (pat ++ b') hp3
              rw [List.cons_append, ← List.append_assoc, hdec] at h4
              exact h4

theorem splitFirstAux_some_of_occurs (pat : List Char) (hp : pat ≠ []) :
    ∀ (fuel : Nat) (l : List Char), l.length ≤ fuel →
      occursIn pat l = true → splitFirstAux pat fuel l ≠ none := by
  intro fuel
  induction fuel with
  | zero =>
    intro l hf ho
    rw [List.length_eq_zero.mp (Nat.le_zero.mp hf)] at ho
    rw [occursIn_nil pat hp] at ho
    exact absurd ho (by simp)
  | succ f ih =>
    intro l hf ho
    cases l with
    | nil =>
      rw [occursIn_nil pat hp] at ho
      exact absurd ho (by simp)
    | cons c cs =>
      unfold splitFirstAux
      by_cases hpre : pat.isPrefixOf (c :: cs) = true
      · rw [if_pos hpre]; simp
      · rw [if_neg hpre]
        rw [occursIn_cons] at ho
        rcases Bool.or_eq_true_iff.mp ho with h1 | h2
        · exact absurd h1 hpre
        · have hr := ih cs (by simpa using Nat.le_of_succ_le_succ hf) h2
          cases hrec : splitFirstAux pat f cs with
          | none => exact absurd hrec hr
          | some p => obtain ⟨a', b'⟩ := p; simp

theorem splitFirstAux_exact (c1 c2 : Char) (y : List Char) :
    ∀ (x : List Char) (fuel : Nat),
      occursIn [c1, c2] x = false → x.getLast? ≠ some c1 →
      (x ++ c1 :: c2 :: y).length ≤ fuel →
      splitFirstAux [c1, c2] fuel (x ++ c1 :: c2 :: y) = some (x, y) := by
  intro x
  induction x with
  | nil =>
    intro fuel _ _ hf
    rw [List.nil_append] at hf ⊢
    cases fuel with
    | zero => simp at hf
    | succ f =>
      unfold splitFirstAux
      rw [if_pos (by rw [isPrefixOf_pair_cons_cons]; simp)]
      rfl
  | cons a xs ih =>
    intro fuel hx hl hf
    rw [occursIn_cons] at hx
    obtain ⟨hx1, hx2⟩ := Bool.or_eq_false_iff.mp hx
    rw [List.cons_append] at hf ⊢
    cases fuel with
    | zero => simp at hf
    | succ f =>
      unfold splitFirstAux
      have hpre : [c1, c2].isPrefixOf (a :: (xs ++ c1 :: c2 :: y)) = false := by
        cases xs with
        | nil =>
          rw [List.nil_append, isPrefixOf_pair_cons_cons]
          have ha : a ≠ c1 := by
            intro he
            exact hl (by rw [List.getLast?_singleton, he])
          rw [beq_eq_false_iff_ne.mpr (fun he => ha he.symm), Bool.false_and]
        | cons b xs' =>
          rw [isPrefixOf_pair_cons_cons] at hx1
          rw [List.cons_append, isPrefixOf_pair_cons_cons]
          exact hx1
      rw [if_neg (by rw [hpre]; simp)]
      have hl2 : xs.getLast? ≠ some c1 := by
        intro hg
        apply hl
        cases xs with
        | nil => simp at hg
        | cons b xs' => rw [List.getLast?_cons_cons]; exact hg
      rw [ih f hx2 hl2 (by simpa using Nat.le_of_succ_le_succ hf)]

theorem splitFirst_exact (c1 c2 : Char) (x y : List Char)
    (hx : occursIn [c1, c2] x = false) (hl : x.getLast? ≠ some c1) :
    splitFirst [c1, c2] (x ++ c1 :: c2 :: y) = some (x, y) :=
  splitFirstAux_exact c1 c2 y x _ hx hl (Nat.le_refl _)

end FullText

namespace FullText

theorem dropWhile_head_not (p : Char → Bool) :
    ∀ (l : List Char) (c : Char),
      (l.dropWhile p).head? = some c → p c = false := by
  intro l
  induction l with
  | nil => intro c h; simp at h
  | cons a as ih =>
    intro c h
    rw [List.dropWhile_cons] at h
    by_cases hpa : p a = true
    · rw [if_pos hpa] at h
      exact ih c h
    · rw [if_neg hpa] at h
      rw [List.head?_cons, Option.some.injEq] at h
      rw [← h]
      exact Bool.eq_false_iff.mpr hpa

theorem pyStrip_last_not_ws (l : List Char) (c : Char)
    (h : (pyStrip l).getLast? = some c) : isWsChar c = false := by
  unfold pyStrip at h
  rw [List.getLast?_reverse] at h
  exact dropWhile_head_not isWsChar _ c h

theorem pyStrip_head_not_ws (l : List Char) (c : Char)
    (h : (pyStrip l).head? = some c) : isWsChar c = false := by
  unfold pyStrip at h
  rw [List.head?_reverse] at h
  obtain ⟨w, hw⟩ :=
    (List.dropWhile_suffix isWsChar :
      _ <:+ (l.dropWhile isWsChar).reverse)
  have hXne : (l.dropWhile isWsChar).reverse.dropWhile isWsChar ≠ [] := by
    intro he
    rw [he] at h
    simp at h
  have h2 : ((l.dropWhile isWsChar).reverse).getLast? = some c := by
    rw [← hw, List.getLast?_append_of_ne_nil _ hXne]
    exact h
  rw [List.getLast?_reverse] at h2
  exact dropWhile_head_not isWsChar l c h2

theorem pyStrip_eq_self (l : List Char)
    (h1 : ∀ c, l.head? = some c → isWsChar c = false)
    (h2 : ∀ c, l.getLast? = some c → isWsChar c = false) :
    pyStrip l = l := by
  cases l with
  | nil => rfl
  | cons a as =>
    have ha : isWsChar a = false := h1 a rfl
    unfold pyStrip
    rw [List.dropWhile_cons, if_neg (by rw [ha]; simp)]
    obtain ⟨d, hd⟩ : ∃ d, (a :: as).getLast? = some d := by
      cases hgo : (a :: as).getLast? with
      | none => rw [List.getLast?_eq_none_iff] at hgo; exact absurd hgo (by simp)
      | some d => exact ⟨d, rfl⟩
    have hdw : isWsChar d = false := h2 d hd
    cases hr : (a :: as).reverse with
    | nil => simp at hr
    | cons b bs =>
      have hbd : b = d := by
        have h3 := List.head?_reverse (a :: as)
        rw [hr, List.head?_cons, hd] at h3
        exact Option.some.injEq b d ▸ h3
      subst hbd
      rw [List.dropWhile_cons, if_neg (by rw [hdw]; simp), ← hr,
        List.reverse_reverse]

theorem isDigit_not_ws (c : Char) (h : c.isDigit = true) :
    isWsChar c = false := by
  cases hw : isWsChar c
  · rfl
  · exfalso
    unfold isWsChar at hw
    simp only [Bool.or_eq_true, decide_eq_true_eq] at hw
    rcases hw with ((((rfl | rfl) | rfl) | rfl) | rfl) | rfl <;>
      exact absurd h (by decide)

theorem isDigit_ne_pipe (c : Char) (h : c.isDigit = true) : c ≠ '|' := by
  intro he
  rw [he] at h
  exact absurd h (by decide)

theorem isDigit_ne_rbrace (c : Char) (h : c.isDigit = true) : c ≠ '}' := by
  intro he
  rw [he] at h
  exact absurd h (by decide)

end FullText

namespace FullText

theorem braceNorm_eq_self (a : List Char) (d : Char)
    (h : a.getLast? = some d) (hd : d ≠ '}') : braceNorm a = a := by
  unfold braceNorm
  split
  · rename_i rest
    split
    · rename_i revMid hrev
      exfalso
      have hrne : rest ≠ [] := by
        intro he
        rw [he] at hrev
        simp at hrev
      have h2 : rest.getLast? = some d := by
        rw [List.getLast?_cons_cons] at h
        cases rest with
        | nil => exact absurd rfl hrne
        | cons r rs =>
          rw [List.getLast?_cons_cons] at h
          exact h
      rw [← List.head?_reverse, hrev, List.head?_cons] at h2
      injection h2 with h3
      exact hd h3.symm
    · rfl
  · rfl

theorem occursIn_braceNorm (a : List Char)
    (h : occursIn ['|', '|'] a = false) :
    occursIn ['|', '|'] (braceNorm a) = false := by
  unfold braceNorm
  split
  · rename_i rest
    split
    · rename_i revMid hrev
      have hrest : rest = revMid.reverse ++ ['}', '}'] := by
        rw [← List.reverse_reverse rest, hrev]
        simp
      rw [occursIn_cons, occursIn_cons] at h
      obtain ⟨h1, h23⟩ := Bool.or_eq_false_iff.mp h
      obtain ⟨h2, h3⟩ := Bool.or_eq_false_iff.mp h23
      have hrev2 : occursIn ['|', '|'] revMid.reverse = false := by
        cases ho : occursIn ['|', '|'] revMid.reverse
        · rfl
        · exfalso
          have := occursIn_append_left ['|', '|'] revMid.reverse ['}', '}']
            (by simp) ho
          rw [← hrest] at this
          rw [this] at h3
          exact absurd h3 (by simp)
      have hstrip : occursIn ['|', '|'] (pyStrip revMid.reverse) = false := by
        cases ho : occursIn ['|', '|'] (pyStrip revMid.reverse)
        · rfl
        · exfalso
          have := occursIn_pyStrip ['|', '|'] revMid.reverse (by simp) ho
          rw [this] at hrev2
          exact absurd hrev2 (by simp)
      rw [occursIn_cons, occursIn_cons]
      rw [isPrefixOf_pair_cons_cons, show (('|' : Char) == '{') = false from
        by decide, Bool.false_and, Bool.false_or]
      have hpre2 : ['|', '|'].isPrefixOf
          ('{' :: (pyStrip revMid.reverse ++ "\x7d\x7d".toList)) = false := by
        show (('|' == '{') && _) = false
        rw [show (('|' : Char) == '{') = false from by decide, Bool.false_and]
      rw [hpre2, Bool.false_or]
      apply occursIn_pair_append_neg
      · exact hstrip
      · decide
      · intro hgl hhd
        simp at hhd
    · exact h
  · exact h

theorem included_props (k : List Char) (h : isIncludedToDuplicate k = true) :
    k ≠ [] ∧
    (∀ c, k.head? = some c → isWsChar c = false) ∧
    (∀ c, k.getLast? = some c →
      isWsChar c = false ∧ c ≠ '|' ∧ c.isDigit = false) := by
  unfold isIncludedToDuplicate at h
  cases k with
  | nil => exact absurd h (by decide)
  | cons a as =>
    dsimp only at h
    simp only [Bool.or_eq_true, Bool.and_eq_true, decide_eq_true_eq] at h
    rcases h with ((((⟨ha, hm2⟩ | h1) | h2) | h3) | h4)
    · -- bracket/brace-delimited token
      cases hr : (a :: as).reverse with
      | nil => simp at hr
      | cons t ts =>
        rw [hr] at hm2
        dsimp only at hm2
        simp only [Bool.or_eq_true, decide_eq_true_eq] at hm2
        have hgl : (a :: as).getLast? = some t := by
          rw [← List.head?_reverse, hr, List.head?_cons]
        refine ⟨by simp, ?_, ?_⟩
        · intro c hc
          rw [List.head?_cons, Option.some.injEq] at hc
          subst hc
          rcases ha with rfl | rfl <;> decide
        · intro c hc
          rw [hgl, Option.some.injEq] at hc
          subst hc
          rcases hm2 with rfl | rfl <;> refine ⟨by decide, by decide, by decide⟩
    · rw [show "☐".toList = ['☐'] from rfl] at h1
      rw [h1]
      refine ⟨by simp, ?_, ?_⟩ <;> intro c hc <;> simp at hc <;>
        rw [← hc] <;> decide
    · rw [show "✅".toList = ['✅'] from rfl] at h2
      rw [h2]
      refine ⟨by simp, ?_, ?_⟩ <;> intro c hc <;> simp at hc <;>
        rw [← hc] <;> decide
    · rw [show "🔘".toList = ['🔘'] from rfl] at h3
      rw [h3]
      refine ⟨by simp, ?_, ?_⟩ <;> intro c hc <;> simp at hc <;>
        rw [← hc] <;> decide
    · rw [show "🟢".toList = ['🟢'] from rfl] at h4
      rw [h4]
      refine ⟨by simp, ?_, ?_⟩ <;> intro c hc <;> simp at hc <;>
        rw [← hc] <;> decide

end FullText

namespace FullText

theorem processSelect_fst_no_sep (c : List Char) :
    occursIn ['|', '|'] (processSelect c).1 = false := by
  unfold processSelect
  rw [show "||".toList = ['|', '|'] from rfl]
  by_cases hocc : occursIn ['|', '|'] c = true
  · rw [hocc, if_neg (by simp)]
    cases hsp : splitFirst ['|', '|'] c with
    | none =>
      exact absurd hsp (splitFirstAux_some_of_occurs ['|', '|'] (by simp)
        c.length c (Nat.le_refl _) hocc)
    | some p =>
      obtain ⟨a0, b0⟩ := p
      dsimp only
      have hdec := splitFirstAux_decomp ['|', '|'] (by simp) c.length c a0 b0 hsp
      apply occursIn_braceNorm
      cases ho : occursIn ['|', '|'] (pyStrip a0)
      · rfl
      · exact absurd (occursIn_pyStrip ['|', '|'] a0 (by simp) ho)
          (by rw [hdec.2]; simp)
  · have hocc2 : occursIn ['|', '|'] c = false := Bool.eq_false_iff.mpr hocc
    rw [hocc2, if_pos (by simp)]
    dsimp only
    cases ho : occursIn ['|', '|'] (pyStrip c)
    · rfl
    · exact absurd (occursIn_pyStrip ['|', '|'] c (by simp) ho)
        (by rw [hocc2]; simp)

theorem processSelect_snd_stripped (c : List Char) (ch : Char)
    (h : ((processSelect c).2).getLast? = some ch) : isWsChar ch = false := by
  unfold processSelect at h
  by_cases hocc : occursIn "||".toList c = true
  · rw [hocc, if_neg (by simp)] at h
    cases hsp : splitFirst "||".toList c with
    | none =>
      rw [hsp] at h
      dsimp only at h
      simp at h
    | some p =>
      obtain ⟨a0, b0⟩ := p
      rw [hsp] at h
      dsimp only at h
      exact pyStrip_last_not_ws b0 ch h
  · rw [Bool.eq_false_iff.mpr hocc, if_pos (by simp)] at h
    dsimp only at h
    simp at h

theorem lineKey_no_sep (l : PLine) :
    occursIn ['|', '|'] (lineKey l) = false :=
  processSelect_fst_no_sep (pyStrip l.content)

theorem lineRem_stripped (l : PLine) (ch : Char)
    (h : (lineRem l).getLast? = some ch) : isWsChar ch = false :=
  processSelect_snd_stripped (pyStrip l.content) ch h

end FullText

namespace FullText

theorem lineKey_dupLine (l : PLine) (j : Nat)
    (h : isIncludedToDuplicate (lineKey l) = true) :
    lineKey (dupLine l j) = lineKey l ++ natToChars j := by
  obtain ⟨hkne, hkhead, hklast⟩ := included_props (lineKey l) h
  have hknosep := lineKey_no_sep l
  obtain ⟨hdne, hddig⟩ := natToChars_digits j
  have hdlast : ∃ d, (natToChars j).getLast? = some d ∧ d.isDigit = true := by
    cases hgo : (natToChars j).getLast? with
    | none => rw [List.getLast?_eq_none_iff] at hgo; exact absurd hgo hdne
    | some d =>
      refine ⟨d, rfl, hddig d ?_⟩
      rw [List.getLast?_eq_some_iff] at hgo
      obtain ⟨ys, hys⟩ := hgo
      rw [hys]
      exact List.mem_append_right ys (List.mem_singleton_self d)
  have hxhead : ∀ c, (lineKey l ++ natToChars j).head? = some c →
      isWsChar c = false := by
    intro c hc
    rw [List.head?_append_of_ne_nil _ hkne] at hc
    exact hkhead c hc
  have hxlast : ∃ d, (lineKey l ++ natToChars j).getLast? = some d ∧
      d.isDigit = true := by
    obtain ⟨d, hd1, hd2⟩ := hdlast
    exact ⟨d, by rw [List.getLast?_append_of_ne_nil _ hdne]; exact hd1, hd2⟩
  have hxlast_ws : ∀ c, (lineKey l ++ natToChars j).getLast? = some c →
      isWsChar c = false := by
    intro c hc
    obtain ⟨d, hd1, hd2⟩ := hxlast
    rw [hd1, Option.some.injEq] at hc
    rw [← hc]
    exact isDigit_not_ws d hd2
  have hxnosep : occursIn ['|', '|']
      (lineKey l ++ natToChars j) = false := by
    apply occursIn_pair_append_neg
    · exact hknosep
    · exact occursIn_pair_none '|' '|' _
        (fun c hc => isDigit_ne_pipe c (hddig c hc))
    · intro hgl
      exact absurd rfl (hklast '|' hgl).2.1
  have hxstrip : pyStrip (lineKey l ++ natToChars j) =
      lineKey l ++ natToChars j :=
    pyStrip_eq_self _ hxhead hxlast_ws
  have hxlast_ne : (lineKey l ++ natToChars j).getLast? ≠ some '|' := by
    obtain ⟨d, hd1, hd2⟩ := hxlast
    rw [hd1]
    intro he
    injection he with he2
    exact isDigit_ne_pipe d hd2 he2
  show (processSelect (pyStrip
    (lineKey l ++ natToChars j ++ remStr l))).1 = lineKey l ++ natToChars j
  by_cases hrem : lineRem l = []
  · have hR : remStr l = [] := by
      unfold remStr
      rw [if_neg (by simp [hrem])]
    rw [hR, List.append_nil, hxstrip]
    unfold processSelect
    rw [show "||".toList = ['|', '|'] from rfl, hxnosep, if_pos (by simp)]
    exact hxstrip
  · have hR : remStr l = '|' :: '|' :: ' ' :: lineRem l := by
      unfold remStr
      rw [if_pos hrem]
      rfl
    rw [hR]
    have hwhole_head : ∀ c, ((lineKey l ++ natToChars j) ++
        '|' :: '|' :: ' ' :: lineRem l).head? = some c →
        isWsChar c = false := by
      intro c hc
      rw [List.head?_append_of_ne_nil _ (by
        intro he
        exact hkne (List.append_eq_nil.mp he).1)] at hc
      exact hxhead c hc
    have hwhole_last : ∀ c, ((lineKey l ++ natToChars j) ++
        '|' :: '|' :: ' ' :: lineRem l).getLast? = some c →
        isWsChar c = false := by
      intro c hc
      rw [List.getLast?_append_of_ne_nil _ (by simp)] at hc
      rw [List.getLast?_cons_cons, List.getLast?_cons_cons] at hc
      cases hrm : lineRem l with
      | nil => exact absurd hrm hrem
      | cons r rs =>
        rw [hrm, List.getLast?_cons_cons] at hc
        exact lineRem_stripped l c (by rw [hrm]; exact hc)
    have hstripwhole : pyStrip ((lineKey l ++ natToChars j) ++
        '|' :: '|' :: ' ' :: lineRem l) =
        (lineKey l ++ natToChars j) ++ '|' :: '|' :: ' ' :: lineRem l :=
      pyStrip_eq_self _ hwhole_head hwhole_last
    rw [hstripwhole]
    unfold processSelect
    rw [show "||".toList = ['|', '|'] from rfl]
    rw [occursIn_pair_present '|' '|' (lineKey l ++ natToChars j)
      (' ' :: lineRem l)]
    rw [if_neg (by simp)]
    rw [show splitFirst ['|', '|'] ((lineKey l ++ natToChars j) ++
        '|' :: '|' :: ' ' :: lineRem l) = some (lineKey l ++ natToChars j,
        ' ' :: lineRem l) from splitFirst_exact '|' '|' _ _ hxnosep hxlast_ne]
    dsimp only
    rw [hxstrip]
    obtain ⟨d, hd1, hd2⟩ := hxlast
    exact braceNorm_eq_self _ d hd1 (isDigit_ne_rbrace d hd2)

end FullText

namespace FullText

theorem cnt_included (ls : List PLine) (k : List Char) (h : cnt ls k > 1) :
    isIncludedToDuplicate k = true := by
  by_contra hni
  unfold cnt at h
  rw [if_neg hni] at h
  exact absurd h (by simp)

theorem lineKey_dupLine_last_digit (l : PLine) (j : Nat)
    (h : isIncludedToDuplicate (lineKey l) = true) :
    ∃ d, (lineKey (dupLine l j)).getLast? = some d ∧ d.isDigit = true := by
  rw [lineKey_dupLine l j h]
  obtain ⟨hdne, hddig⟩ := natToChars_digits j
  cases hgo : (natToChars j).getLast? with
  | none => rw [List.getLast?_eq_none_iff] at hgo; exact absurd hgo hdne
  | some d =>
    refine ⟨d, ?_, ?_⟩
    · rw [List.getLast?_append_of_ne_nil _ hdne]
      exact hgo
    · rw [List.getLast?_eq_some_iff] at hgo
      obtain ⟨ys, hys⟩ := hgo
      exact hddig d (by
        rw [hys]
        exact List.mem_append_right ys (List.mem_singleton_self d))

theorem keyRank_lt (ls : List PLine) (k : List Char) (i j : Nat) (l : PLine)
    (hij : i < j) (hi : ls[i]? = some l) (hk : lineKey l = k) :
    keyRank ls k i < keyRank ls k j := by
  unfold keyRank
  have h1 : ((ls.take (i + 1)).filter (fun x => lineKey x = k)).length ≤
      ((ls.take j).filter (fun x => lineKey x = k)).length :=
    List.Sublist.length_le (List.Sublist.filter _
      (List.take_prefix_take_left ls hij).sublist)
  have h2 : ((ls.take (i + 1)).filter (fun x => lineKey x = k)).length =
      ((ls.take i).filter (fun x => lineKey x = k)).length + 1 := by
    rw [List.take_succ, hi]
    rw [List.filter_append]
    simp [hk]
  omega

end FullText

/-- **C7** (duplicate-token indexing): `process_duplicate_content` keeps the
line count; a line whose interactable token occurs at most once is emitted
unchanged; a line whose token `k` occurs more than once is emitted with
content `k ++ <1-based occurrence rank> ++ remainder`, and its token is
exactly `k` followed by the decimal rank; no emitted line carries a bare
duplicated token `k`; and two occurrences of the same duplicated token
always receive distinct tokens.  Together these give exactly the claim:
each token `k` with count `n > 1` appears as the `n` distinct indexed
tokens `k1 … kn` in order of appearance, with no bare `k` left, and
count-1 tokens are unchanged. -/
theorem c7_duplicate_indexing (ls : List FullText.PLine) :
    (FullText.processDuplicate ls).length = ls.length ∧
    (∀ (i : Nat) (l : FullText.PLine), ls[i]? = some l →
      (FullText.cnt ls (FullText.lineKey l) ≤ 1 →
        (FullText.processDuplicate ls)[i]? = some l) ∧
      (FullText.cnt ls (FullText.lineKey l) > 1 →
        (FullText.processDuplicate ls)[i]? =
          some (FullText.dupLine l
            (FullText.keyRank ls (FullText.lineKey l) i)) ∧
        FullText.lineKey (FullText.dupLine l
            (FullText.keyRank ls (FullText.lineKey l) i)) =
          FullText.lineKey l ++
            natToChars (FullText.keyRank ls (FullText.lineKey l) i))) ∧
    (∀ k : List Char, FullText.cnt ls k > 1 →
      ∀ l' ∈ FullText.processDuplicate ls, FullText.lineKey l' ≠ k) ∧
    (∀ (i j : Nat) (l m : FullText.PLine), i < j →
      ls[i]? = some l → ls[j]? = some m →
      FullText.lineKey l = FullText.lineKey m →
      FullText.cnt ls (FullText.lineKey l) > 1 →
      FullText.lineKey (FullText.dupLine l
          (FullText.keyRank ls (FullText.lineKey l) i)) ≠
        FullText.lineKey (FullText.dupLine m
          (FullText.keyRank ls (FullText.lineKey m) j))) := by
  refine ⟨FullText.pass2_length (FullText.cnt ls) ls [], ?_, ?_, ?_⟩
  · intro i l hl
    have hout := FullText.pass2_getElem (FullText.cnt ls) ls [] i l hl
    have hrank : (aget ([] : List (List Char × Nat))
        (FullText.lineKey l)).getD 0 +
        ((ls.take i).filter
          (fun x => FullText.lineKey x = FullText.lineKey l)).length + 1 =
        FullText.keyRank ls (FullText.lineKey l) i := by
      unfold FullText.keyRank aget
      simp
    constructor
    · intro hle
      show (FullText.pass2 (FullText.cnt ls) [] ls)[i]? = some l
      rw [hout, if_neg (by omega)]
    · intro hgt
      have hinc := FullText.cnt_included ls (FullText.lineKey l) hgt
      constructor
      · show (FullText.pass2 (FullText.cnt ls) [] ls)[i]? = _
        rw [hout, if_pos hgt, hrank]
      · exact FullText.lineKey_dupLine l _ hinc
  · intro k hk l' hmem
    obtain ⟨i, hi⟩ := List.mem_iff_getElem?.mp hmem
    have hi2 : (FullText.pass2 (FullText.cnt ls) [] ls)[i]? = some l' := hi
    obtain ⟨hlt, -⟩ := List.getElem?_eq_some_iff.mp hi2
    rw [FullText.pass2_length (FullText.cnt ls) ls []] at hlt
    have hls : ls[i]? = some ls[i] := List.getElem?_eq_getElem hlt
    have hout := FullText.pass2_getElem (FullText.cnt ls) ls [] i ls[i] hls
    rw [hout, Option.some.injEq] at hi2
    by_cases hc : FullText.cnt ls (FullText.lineKey ls[i]) > 1
    · rw [if_pos hc] at hi2
      intro hkey
      have hinci := FullText.cnt_included ls (FullText.lineKey ls[i]) hc
      obtain ⟨d, hd1, hd2⟩ :=
        FullText.lineKey_dupLine_last_digit ls[i]
          ((aget ([] : List (List Char × Nat))
            (FullText.lineKey ls[i])).getD 0 +
            ((ls.take i).filter
              (fun x => FullText.lineKey x = FullText.lineKey ls[i])).length
            + 1) hinci
      rw [hi2, hkey] at hd1
      have hinck := FullText.cnt_included ls k hk
      obtain ⟨-, -, hklast⟩ := FullText.included_props k hinck
      have := (hklast d hd1).2.2
      rw [hd2] at this
      exact absurd this (by simp)
    · rw [if_neg hc] at hi2
      intro hkey
      rw [hi2, hkey] at hc
      exact hc hk
  · intro i j l m hij hi hj hkeq hc
    have hinc : FullText.isIncludedToDuplicate (FullText.lineKey l) = true :=
      FullText.cnt_included ls _ hc
    have hincm : FullText.isIncludedToDuplicate (FullText.lineKey m) = true := by
      rw [← hkeq]
      exact hinc
    rw [FullText.lineKey_dupLine l _ hinc, FullText.lineKey_dupLine m _ hincm]
    intro heq
    rw [← hkeq] at heq
    have h2 := List.append_cancel_left heq
    have h3 := FullText.natToChars_inj _ _ h2
    have h4 : FullText.keyRank ls (FullText.lineKey l) i <
        FullText.keyRank ls (FullText.lineKey l) j :=
      FullText.keyRank_lt ls (FullText.lineKey l) i j l hij hi rfl
    omega

/-- Witness for C7 on a concrete line list with a duplicated token and a
unique token: position 0 holds a line whose token occurs twice, and the
processed list replaces it by its rank-indexed duplicate line. -/
theorem c7_duplicate_indexing_witness :
    ([(⟨[], "[a]".toList, [], [], []⟩ : FullText.PLine),
      ⟨[], "[a]".toList, [], [], []⟩,
      ⟨[], "[b]".toList, [], [], []⟩][0]? =
        some (⟨[], "[a]".toList, [], [], []⟩ : FullText.PLine)) ∧
    FullText.cnt [⟨[], "[a]".toList, [], [], []⟩,
      ⟨[], "[a]".toList, [], [], []⟩, ⟨[], "[b]".toList, [], [], []⟩]
      (FullText.lineKey
        (⟨[], "[a]".toList, [], [], []⟩ : FullText.PLine)) > 1 ∧
    (FullText.processDuplicate [⟨[], "[a]".toList, [], [], []⟩,
        ⟨[], "[a]".toList, [], [], []⟩, ⟨[], "[b]".toList, [], [], []⟩])[0]? =
      some (FullText.dupLine
        (⟨[], "[a]".toList, [], [], []⟩ : FullText.PLine)
        (FullText.keyRank [⟨[], "[a]".toList, [], [], []⟩,
          ⟨[], "[a]".toList, [], [], []⟩, ⟨[], "[b]".toList, [], [], []⟩]
          (FullText.lineKey
            (⟨[], "[a]".toList, [], [], []⟩ : FullText.PLine)) 0)) := by
  refine ⟨rfl, by decide, ?_⟩
  exact (((c7_duplicate_indexing _).2.1 0 _ rfl).2 (by decide)).1

namespace DataMasker

/-! ### Chunk reassembly and the mask/unmask composition -/

theorem flattenChunks_cons (c : Chunk) (cs : List Chunk) :
    flattenChunks (c :: cs) = chunkData c ++ flattenChunks cs := rfl

theorem flattenChunks_chunksAux :
    ∀ (f : Nat) (l : List Char), l.length ≤ f →
      flattenChunks (chunksAux f l) = l := by
  intro f
  induction f with
  | zero =>
    intro l hl
    rw [List.length_eq_zero.mp (Nat.le_zero.mp hl)]
    rfl
  | succ f ih =>
    intro l hl
    cases l with
    | nil => rfl
    | cons c cs =>
      have hcs : cs.length ≤ f := by
        rw [List.length_cons] at hl
        omega
      unfold chunksAux
      by_cases hw : isWsChar c = true
      · rw [if_pos hw, flattenChunks_cons]
        dsimp only [chunkData]
        rw [ih (cs.dropWhile isWsChar)
          (le_trans (List.dropWhile_suffix isWsChar).length_le hcs)]
        rw [List.cons_append, List.takeWhile_append_dropWhile]
      · rw [if_neg hw, flattenChunks_cons]
        dsimp only [chunkData]
        rw [ih (cs.dropWhile (fun x => !isWsChar x))
          (le_trans (List.dropWhile_suffix (fun x => !isWsChar x)).length_le
            hcs)]
        rw [List.cons_append, List.takeWhile_append_dropWhile]

theorem flattenChunks_chunksOf (l : List Char) :
    flattenChunks (chunksOf l) = l :=
  flattenChunks_chunksAux l.length l (Nat.le_refl _)

theorem maskChunks_ws (cfg : MaskerCfg) (σ : Nat → Nat)
    (dm : List (List Char)) (w : List Char) (rest : List Chunk)
    (st : MaskState) :
    maskChunks cfg σ dm (Chunk.ws w :: rest) st =
      (Chunk.ws w :: (maskChunks cfg σ dm rest st).1,
        (maskChunks cfg σ dm rest st).2) := rfl

theorem maskChunks_tok (cfg : MaskerCfg) (σ : Nat → Nat)
    (dm : List (List Char)) (t : List Char) (rest : List Chunk)
    (st : MaskState) :
    maskChunks cfg σ dm (Chunk.tok t :: rest) st =
      (Chunk.tok (replacer cfg σ dm st t).1 ::
          (maskChunks cfg σ dm rest (replacer cfg σ dm st t).2).1,
        (maskChunks cfg σ dm rest (replacer cfg σ dm st t).2).2) := rfl

theorem maskChunks_unmask (cfg : MaskerCfg) (σ : Nat → Nat)
    (dm : List (List Char)) (m : List (List Char × List Char)) :
    ∀ (cs : List Chunk) (st : MaskState),
      (∀ pr ∈ List.zip cs (maskChunks cfg σ dm cs st).1,
        chunkIsWs pr.1 = false → chunkIsWs pr.2 = false →
        revertTok m (chunkData pr.2) = chunkData pr.1) →
      flattenChunks ((maskChunks cfg σ dm cs st).1.map
        (mapTokChunk (revertTok m))) = flattenChunks cs := by
  intro cs
  induction cs with
  | nil => intro st _; rfl
  | cons c rest ih =>
    intro st hrev
    cases c with
    | ws w =>
      rw [maskChunks_ws, List.map_cons, flattenChunks_cons,
        flattenChunks_cons]
      dsimp only [mapTokChunk, chunkData]
      congr 1
      apply ih st
      intro pr hpr h1 h2
      exact hrev pr (by
        rw [maskChunks_ws, List.zip_cons_cons]
        exact List.mem_cons_of_mem _ hpr) h1 h2
    | tok t =>
      rw [maskChunks_tok, List.map_cons, flattenChunks_cons,
        flattenChunks_cons]
      have hhead := hrev (Chunk.tok t,
          Chunk.tok (replacer cfg σ dm st t).1)
        (by
          rw [maskChunks_tok, List.zip_cons_cons]
          exact List.mem_cons_self _ _) rfl rfl
      dsimp only [mapTokChunk, chunkData] at hhead ⊢
      rw [hhead]
      congr 1
      apply ih (replacer cfg σ dm st t).2
      intro pr hpr h1 h2
      exact hrev pr (by
        rw [maskChunks_tok, List.zip_cons_cons]
        exact List.mem_cons_of_mem _ hpr) h1 h2

end DataMasker

/-- **C1** (mask/unmask round-trip) is refuted as stated: for the text
`(12345)` every masked token is reverted to its original, but because the
masked text does not full-match the bracket-group regex, the unmask pass
then strips all bracket characters from the result, so the composition
returns `12345`, not the original text. -/
theorem c1_mask_roundtrip_counterexample :
    DataMasker.unmaskText
        (DataMasker.maskText DataMasker.defaultCfg (fun _ => 0) []
          "(12345)".toList).2.replacementMap
        (DataMasker.maskText DataMasker.defaultCfg (fun _ => 0) []
          "(12345)".toList).1 ≠ "(12345)".toList := by
  decide


namespace DataMasker

/-! ### Character-class facts for digit-replaced tokens -/

theorem toLower_digit (c : Char) (h : c.isDigit = true) : c.toLower = c := by
  have h2 : c.val ≤ (57 : UInt32) := by
    unfold Char.isDigit at h
    simp only [Bool.and_eq_true, decide_eq_true_eq] at h
    exact h.2
  have h3 : c.toNat ≤ 57 :=
    UInt32.toNat_le_of_le (by norm_num [UInt32.size]) h2
  simp only [Char.toLower]
  rw [if_neg (by omega)]

theorem digit_ne_of_not_digit (c l : Char) (h : c.isDigit = true)
    (hl : l.isDigit = false) : c ≠ l := by
  intro he
  subst he
  rw [h] at hl
  exact absurd hl (by simp)

theorem digit_isAmpm_false (c : Char) (h : c.isDigit = true) :
    isAmpmChar c = false := by
  cases h2 : isAmpmChar c
  · rfl
  · exfalso
    unfold isAmpmChar at h2
    simp only [Bool.or_eq_true, decide_eq_true_eq] at h2
    rcases h2 with ((((rfl | rfl) | rfl) | rfl) | rfl) | rfl <;>
      exact absurd h (by decide)

theorem digit_isWordChar (c : Char) (h : c.isDigit = true) :
    isWordChar c = true := by
  unfold isWordChar Char.isAlphanum
  rw [h]
  simp

/-! ### The digit-replacement shape relation -/

theorem sameShape_nil_nil : sameShape [] [] = true := rfl

theorem sameShape_nil_cons (b : Char) (bs : List Char) :
    sameShape [] (b :: bs) = false := rfl

theorem sameShape_cons_nil (a : Char) (as : List Char) :
    sameShape (a :: as) [] = false := rfl

theorem sameShape_cons_cons (a b : Char) (as bs : List Char) :
    sameShape (a :: as) (b :: bs) =
      ((a.isDigit && b.isDigit || a == b) && sameShape as bs) := rfl

theorem shapeChar_cases (a b : Char)
    (h : (a.isDigit && b.isDigit || a == b) = true) :
    (a.isDigit = true ∧ b.isDigit = true) ∨ a = b := by
  rcases Bool.or_eq_true_iff.mp h with h1 | h2
  · exact Or.inl (Bool.and_eq_true_iff.mp h1)
  · exact Or.inr (beq_iff_eq.mp h2)

theorem shapeChar_isDigit (a b : Char)
    (h : (a.isDigit && b.isDigit || a == b) = true) :
    a.isDigit = b.isDigit := by
  rcases shapeChar_cases a b h with ⟨h1, h2⟩ | rfl
  · rw [h1, h2]
  · rfl

theorem shapeChar_isWs (a b : Char)
    (h : (a.isDigit && b.isDigit || a == b) = true) :
    isWsChar a = isWsChar b := by
  rcases shapeChar_cases a b h with ⟨h1, h2⟩ | rfl
  · rw [FullText.isDigit_not_ws a h1, FullText.isDigit_not_ws b h2]
  · rfl

theorem shapeChar_isWord (a b : Char)
    (h : (a.isDigit && b.isDigit || a == b) = true) :
    isWordChar a = isWordChar b := by
  rcases shapeChar_cases a b h with ⟨h1, h2⟩ | rfl
  · rw [digit_isWordChar a h1, digit_isWordChar b h2]
  · rfl

theorem shapeChar_isAmpm (a b : Char)
    (h : (a.isDigit && b.isDigit || a == b) = true) :
    isAmpmChar a = isAmpmChar b := by
  rcases shapeChar_cases a b h with ⟨h1, h2⟩ | rfl
  · rw [digit_isAmpm_false a h1, digit_isAmpm_false b h2]
  · rfl

theorem shapeChar_eqLit (a b l : Char) (hl : l.isDigit = false)
    (h : (a.isDigit && b.isDigit || a == b) = true) :
    (a = l) = (b = l) := by
  rcases shapeChar_cases a b h with ⟨h1, h2⟩ | rfl
  · simp only [eq_iff_iff]
    exact iff_of_false (digit_ne_of_not_digit a l h1 hl)
      (digit_ne_of_not_digit b l h2 hl)
  · rfl

theorem sameShape_length :
    ∀ (a b : List Char), sameShape a b = true → a.length = b.length := by
  intro a
  induction a with
  | nil =>
    intro b h
    cases b with
    | nil => rfl
    | cons y ys => rw [sameShape_nil_cons] at h; exact absurd h (by simp)
  | cons x xs ih =>
    intro b h
    cases b with
    | nil => rw [sameShape_cons_nil] at h; exact absurd h (by simp)
    | cons y ys =>
      rw [sameShape_cons_cons, Bool.and_eq_true] at h
      rw [List.length_cons, List.length_cons, ih ys h.2]

theorem sameShape_append :
    ∀ (a b c d : List Char), sameShape a b = true → sameShape c d = true →
      sameShape (a ++ c) (b ++ d) = true := by
  intro a
  induction a with
  | nil =>
    intro b c d h1 h2
    cases b with
    | nil => exact h2
    | cons y ys => rw [sameShape_nil_cons] at h1; exact absurd h1 (by simp)
  | cons x xs ih =>
    intro b c d h1 h2
    cases b with
    | nil => rw [sameShape_cons_nil] at h1; exact absurd h1 (by simp)
    | cons y ys =>
      rw [sameShape_cons_cons, Bool.and_eq_true] at h1
      rw [List.cons_append, List.cons_append, sameShape_cons_cons,
        h1.1, ih ys c d h1.2 h2, Bool.and_self]

theorem sameShape_reverse :
    ∀ (a b : List Char), sameShape a b = true →
      sameShape a.reverse b.reverse = true := by
  intro a
  induction a with
  | nil =>
    intro b h
    cases b with
    | nil => rfl
    | cons y ys => rw [sameShape_nil_cons] at h; exact absurd h (by simp)
  | cons x xs ih =>
    intro b h
    cases b with
    | nil => rw [sameShape_cons_nil] at h; exact absurd h (by simp)
    | cons y ys =>
      rw [sameShape_cons_cons, Bool.and_eq_true] at h
      rw [List.reverse_cons, List.reverse_cons]
      exact sameShape_append xs.reverse ys.reverse [x] [y] (ih ys h.2)
        (by rw [sameShape_cons_cons, h.1]; rfl)

theorem sameShape_dropWhile (p : Char → Bool)
    (hp : ∀ x y, (x.isDigit && y.isDigit || x == y) = true → p x = p y) :
    ∀ (a b : List Char), sameShape a b = true →
      sameShape (a.dropWhile p) (b.dropWhile p) = true := by
  intro a
  induction a with
  | nil =>
    intro b h
    cases b with
    | nil => rfl
    | cons y ys => rw [sameShape_nil_cons] at h; exact absurd h (by simp)
  | cons x xs ih =>
    intro b h
    cases b with
    | nil => rw [sameShape_cons_nil] at h; exact absurd h (by simp)
    | cons y ys =>
      rw [sameShape_cons_cons, Bool.and_eq_true] at h
      rw [List.dropWhile_cons, List.dropWhile_cons, ← hp x y h.1]
      by_cases hx : p x = true
      · rw [if_pos hx, if_pos hx]
        exact ih ys h.2
      · rw [if_neg hx, if_neg hx]
        rw [sameShape_cons_cons, h.1, Bool.true_and]
        exact h.2

theorem sameShape_drop :
    ∀ (n : Nat) (a b : List Char), sameShape a b = true →
      sameShape (a.drop n) (b.drop n) = true := by
  intro n
  induction n with
  | zero => intro a b h; exact h
  | succ k ih =>
    intro a b h
    cases a with
    | nil =>
      cases b with
      | nil => rfl
      | cons y ys => rw [sameShape_nil_cons] at h; exact absurd h (by simp)
    | cons x xs =>
      cases b with
      | nil => rw [sameShape_cons_nil] at h; exact absurd h (by simp)
      | cons y ys =>
        rw [sameShape_cons_cons, Bool.and_eq_true] at h
        rw [List.drop_succ_cons, List.drop_succ_cons]
        exact ih xs ys h.2

theorem sameShape_any (f : Char → Bool)
    (hf : ∀ x y, (x.isDigit && y.isDigit || x == y) = true → f x = f y) :
    ∀ (a b : List Char), sameShape a b = true → a.any f = b.any f := by
  intro a
  induction a with
  | nil =>
    intro b h
    cases b with
    | nil => rfl
    | cons y ys => rw [sameShape_nil_cons] at h; exact absurd h (by simp)
  | cons x xs ih =>
    intro b h
    cases b with
    | nil => rw [sameShape_cons_nil] at h; exact absurd h (by simp)
    | cons y ys =>
      rw [sameShape_cons_cons, Bool.and_eq_true] at h
      rw [List.any_cons, List.any_cons, hf x y h.1, ih ys h.2]

theorem sameShape_all (f : Char → Bool)
    (hf : ∀ x y, (x.isDigit && y.isDigit || x == y) = true → f x = f y) :
    ∀ (a b : List Char), sameShape a b = true → a.all f = b.all f := by
  intro a
  induction a with
  | nil =>
    intro b h
    cases b with
    | nil => rfl
    | cons y ys => rw [sameShape_nil_cons] at h; exact absurd h (by simp)
  | cons x xs ih =>
    intro b h
    cases b with
    | nil => rw [sameShape_cons_nil] at h; exact absurd h (by simp)
    | cons y ys =>
      rw [sameShape_cons_cons, Bool.and_eq_true] at h
      rw [List.all_cons, List.all_cons, hf x y h.1, ih ys h.2]

theorem sameShape_pyStrip (a b : List Char) (h : sameShape a b = true) :
    sameShape (pyStrip a) (pyStrip b) = true := by
  unfold pyStrip
  exact sameShape_reverse _ _ (sameShape_dropWhile isWsChar shapeChar_isWs _ _
    (sameShape_reverse _ _ (sameShape_dropWhile isWsChar shapeChar_isWs a b h)))

end DataMasker

namespace DataMasker

/-! ### Invariance of the date/time tests under digit replacement -/

theorem sameShape_cons_elim (a b : Char) (as bs : List Char)
    (h : sameShape (a :: as) (b :: bs) = true) :
    (a.isDigit && b.isDigit || a == b) = true ∧ sameShape as bs = true := by
  rw [sameShape_cons_cons, Bool.and_eq_true] at h
  exact h

theorem ampmTail_shape :
    ∀ (a b : List Char), sameShape a b = true → ampmTail a = ampmTail b := by
  intro a b h
  cases a with
  | nil =>
    cases b with
    | nil => rfl
    | cons y1 b1 => exact absurd h (by rw [sameShape_nil_cons]; simp)
  | cons x1 a1 =>
    cases b with
    | nil => exact absurd h (by rw [sameShape_cons_nil]; simp)
    | cons y1 b1 =>
      obtain ⟨r1, h⟩ := sameShape_cons_elim x1 y1 a1 b1 h
      cases a1 with
      | nil =>
        cases b1 with
        | nil => rfl
        | cons y2 b2 => exact absurd h (by rw [sameShape_nil_cons]; simp)
      | cons x2 a2 =>
        cases b1 with
        | nil => exact absurd h (by rw [sameShape_cons_nil]; simp)
        | cons y2 b2 =>
          obtain ⟨r2, h⟩ := sameShape_cons_elim x2 y2 a2 b2 h
          cases a2 with
          | nil =>
            cases b2 with
            | nil =>
              show (isAmpmChar x1 && isAmpmChar x2) = _
              rw [shapeChar_isAmpm x1 y1 r1, shapeChar_isAmpm x2 y2 r2]
              rfl
            | cons y3 b3 => exact absurd h (by rw [sameShape_nil_cons]; simp)
          | cons x3 a3 =>
            cases b2 with
            | nil => exact absurd h (by rw [sameShape_cons_nil]; simp)
            | cons y3 b3 =>
              obtain ⟨r3, h⟩ := sameShape_cons_elim x3 y3 a3 b3 h
              cases a3 with
              | nil =>
                cases b3 with
                | nil =>
                  show (isWsChar x1 && isAmpmChar x2 && isAmpmChar x3) = _
                  rw [shapeChar_isWs x1 y1 r1, shapeChar_isAmpm x2 y2 r2,
                    shapeChar_isAmpm x3 y3 r3]
                  rfl
                | cons y4 b4 =>
                  exact absurd h (by rw [sameShape_nil_cons]; simp)
              | cons x4 a4 =>
                cases b3 with
                | nil => exact absurd h (by rw [sameShape_cons_nil]; simp)
                | cons y4 b4 => rfl

theorem secTail_colon (a b : Char) (rest : List Char) :
    secTail (':' :: a :: b :: rest) =
      if a.isDigit && b.isDigit then ampmTail rest
      else ampmTail (':' :: a :: b :: rest) := rfl

theorem secTail_not_colon (c : Char) (hc : c ≠ ':') (l : List Char) :
    secTail (c :: l) = ampmTail (c :: l) := by
  conv_lhs => rw [secTail.eq_def]
  split
  · rename_i a b rest heq
    injection heq with h1 _
    exact absurd h1 hc
  · rfl

theorem secTail_shape :
    ∀ (a b : List Char), sameShape a b = true → secTail a = secTail b := by
  intro a b h0
  cases a with
  | nil =>
    cases b with
    | nil => rfl
    | cons y1 b1 => exact absurd h0 (by rw [sameShape_nil_cons]; simp)
  | cons x1 a1 =>
    cases b with
    | nil => exact absurd h0 (by rw [sameShape_cons_nil]; simp)
    | cons y1 b1 =>
      obtain ⟨r1, ht1⟩ := sameShape_cons_elim x1 y1 a1 b1 h0
      by_cases hx : x1 = ':'
      · have hy : y1 = ':' := by
          subst hx
          exact Eq.mp (shapeChar_eqLit ':' y1 ':' (by decide) r1) rfl
        subst hx
        subst hy
        cases a1 with
        | nil =>
          cases b1 with
          | nil => rfl
          | cons y2 b2 => exact absurd ht1 (by rw [sameShape_nil_cons]; simp)
        | cons x2 a2 =>
          cases b1 with
          | nil => exact absurd ht1 (by rw [sameShape_cons_nil]; simp)
          | cons y2 b2 =>
            obtain ⟨r2, ht2⟩ := sameShape_cons_elim x2 y2 a2 b2 ht1
            cases a2 with
            | nil =>
              cases b2 with
              | nil => rfl
              | cons y3 b3 =>
                exact absurd ht2 (by rw [sameShape_nil_cons]; simp)
            | cons x3 a3 =>
              cases b2 with
              | nil => exact absurd ht2 (by rw [sameShape_cons_nil]; simp)
              | cons y3 b3 =>
                obtain ⟨r3, ht3⟩ := sameShape_cons_elim x3 y3 a3 b3 ht2
                rw [secTail_colon, secTail_colon,
                  shapeChar_isDigit x2 y2 r2, shapeChar_isDigit x3 y3 r3]
                by_cases hd : (y2.isDigit && y3.isDigit) = true
                · rw [if_pos hd, if_pos hd]
                  exact ampmTail_shape a3 b3 ht3
                · rw [if_neg hd, if_neg hd]
                  exact ampmTail_shape _ _ h0
      · have hy : y1 ≠ ':' := by
          intro he
          exact hx (Eq.mpr (shapeChar_eqLit x1 y1 ':' (by decide) r1) he)
        rw [secTail_not_colon x1 hx a1, secTail_not_colon y1 hy b1]
        exact ampmTail_shape _ _ h0

end DataMasker

namespace DataMasker

theorem timeMatch_p1 (a c d : Char) (rest : List Char) :
    timeMatch (a :: ':' :: c :: d :: rest) =
      (a.isDigit && c.isDigit && d.isDigit && secTail rest) := by
  rw [timeMatch.eq_def]
  split
  · rename_i a' c' d' rest' heq
    injection heq with e1 e2
    injection e2 with e3 e4
    injection e4 with e5 e6
    injection e6 with e7 e8
    subst e1
    subst e5
    subst e7
    subst e8
    rfl
  · rename_i z a' b' c' d' rest' hne heq
    exfalso
    injection heq with e1 e2
    injection e2 with e3 e4
    exact hne e3.symm
  · rename_i hn1 hn2
    exact (hn1 a c d rest rfl).elim

theorem timeMatch_p2 (a b c d : Char) (rest : List Char) (hb : b ≠ ':') :
    timeMatch (a :: b :: ':' :: c :: d :: rest) =
      (a.isDigit && b.isDigit && c.isDigit && d.isDigit &&
        secTail rest) := by
  rw [timeMatch.eq_def]
  split
  · rename_i a' c' d' rest' heq
    exfalso
    injection heq with e1 e2
    injection e2 with e3 e4
    exact hb e3
  · rename_i z a' b' c' d' rest' hne heq
    injection heq with e1 e2
    injection e2 with e3 e4
    injection e4 with e5 e6
    injection e6 with e7 e8
    injection e8 with e9 e10
    subst e1
    subst e3
    subst e7
    subst e9
    subst e10
    rfl
  · rename_i hn1 hn2
    exact absurd rfl (fun he => hn2 a b c d rest he)

theorem timeMatch_default (l : List Char)
    (h1 : ∀ (a c d : Char) (rest : List Char),
      l = a :: ':' :: c :: d :: rest → False)
    (h2 : ∀ (a b c d : Char) (rest : List Char),
      l = a :: b :: ':' :: c :: d :: rest → False) :
    timeMatch l = false := by
  rw [timeMatch.eq_def]
  split
  · rename_i z a' c' d' rest'
    exact (h1 a' c' d' rest' rfl).elim
  · rename_i z a' b' c' d' rest' hne
    exact (h2 a' b' c' d' rest' rfl).elim
  · rfl

end DataMasker

namespace DataMasker

theorem timeMatch_shape :
    ∀ (a b : List Char), sameShape a b = true →
      timeMatch a = timeMatch b := by
  intro a b h0
  cases a with
  | nil =>
    cases b with
    | nil => rfl
    | cons y1 b1 => exact absurd h0 (by rw [sameShape_nil_cons]; simp)
  | cons x1 a1 =>
    cases b with
    | nil => exact absurd h0 (by rw [sameShape_cons_nil]; simp)
    | cons y1 b1 =>
      obtain ⟨r1, ht1⟩ := sameShape_cons_elim x1 y1 a1 b1 h0
      cases a1 with
      | nil =>
        cases b1 with
        | nil => rfl
        | cons y2 b2 => exact absurd ht1 (by rw [sameShape_nil_cons]; simp)
      | cons x2 a2 =>
        cases b1 with
        | nil => exact absurd ht1 (by rw [sameShape_cons_nil]; simp)
        | cons y2 b2 =>
          obtain ⟨r2, ht2⟩ := sameShape_cons_elim x2 y2 a2 b2 ht1
          by_cases hx2 : x2 = ':'
          · have hy2 : y2 = ':' := by
              subst hx2
              exact Eq.mp (shapeChar_eqLit ':' y2 ':' (by decide) r2) rfl
            subst hx2
            subst hy2
            cases a2 with
            | nil =>
              cases b2 with
              | nil => rfl
              | cons y3 b3 =>
                exact absurd ht2 (by rw [sameShape_nil_cons]; simp)
            | cons x3 a3 =>
              cases b2 with
              | nil => exact absurd ht2 (by rw [sameShape_cons_nil]; simp)
              | cons y3 b3 =>
                obtain ⟨r3, ht3⟩ := sameShape_cons_elim x3 y3 a3 b3 ht2
                cases a3 with
                | nil =>
                  cases b3 with
                  | nil =>
                    rw [timeMatch_default [x1, ':', x3]
                        (by intro a c d rest he; simp at he)
                        (by intro a b c d rest he; simp at he),
                      timeMatch_default [y1, ':', y3]
                        (by intro a c d rest he; simp at he)
                        (by intro a b c d rest he; simp at he)]
                  | cons y4 b4 =>
                    exact absurd ht3 (by rw [sameShape_nil_cons]; simp)
                | cons x4 a4 =>
                  cases b3 with
                  | nil => exact absurd ht3 (by rw [sameShape_cons_nil]; simp)
                  | cons y4 b4 =>
                    obtain ⟨r4, ht4⟩ := sameShape_cons_elim x4 y4 a4 b4 ht3
                    rw [timeMatch_p1 x1 x3 x4 a4, timeMatch_p1 y1 y3 y4 b4,
                      shapeChar_isDigit x1 y1 r1, shapeChar_isDigit x3 y3 r3,
                      shapeChar_isDigit x4 y4 r4, secTail_shape a4 b4 ht4]
          · have hy2 : y2 ≠ ':' := by
              intro he
              exact hx2 (Eq.mpr (shapeChar_eqLit x2 y2 ':' (by decide) r2) he)
            cases a2 with
            | nil =>
              cases b2 with
              | nil =>
                rw [timeMatch_default [x1, x2]
                    (by intro a c d rest he; simp at he)
                    (by intro a b c d rest he; simp at he),
                  timeMatch_default [y1, y2]
                    (by intro a c d rest he; simp at he)
                    (by intro a b c d rest he; simp at he)]
              | cons y3 b3 =>
                exact absurd ht2 (by rw [sameShape_nil_cons]; simp)
            | cons x3 a3 =>
              cases b2 with
              | nil => exact absurd ht2 (by rw [sameShape_cons_nil]; simp)
              | cons y3 b3 =>
                obtain ⟨r3, ht3⟩ := sameShape_cons_elim x3 y3 a3 b3 ht2
                by_cases hx3 : x3 = ':'
                · have hy3 : y3 = ':' := by
                    subst hx3
                    exact Eq.mp (shapeChar_eqLit ':' y3 ':' (by decide) r3) rfl
                  subst hx3
                  subst hy3
                  cases a3 with
                  | nil =>
                    cases b3 with
                    | nil =>
                      rw [timeMatch_default [x1, x2, ':']
                          (by intro a c d rest he; simp at he)
                          (by intro a b c d rest he; simp at he),
                        timeMatch_default [y1, y2, ':']
                          (by intro a c d rest he; simp at he)
                          (by intro a b c d rest he; simp at he)]
                    | cons y4 b4 =>
                      exact absurd ht3 (by rw [sameShape_nil_cons]; simp)
                  | cons x4 a4 =>
                    cases b3 with
                    | nil =>
                      exact absurd ht3 (by rw [sameShape_cons_nil]; simp)
                    | cons y4 b4 =>
                      obtain ⟨r4, ht4⟩ := sameShape_cons_elim x4 y4 a4 b4 ht3
                      cases a4 with
                      | nil =>
                        cases b4 with
                        | nil =>
                          rw [timeMatch_default [x1, x2, ':', x4]
                              (by
                                intro a c d rest he
                                simp at he
                                exact hx2 he.2.1)
                              (by intro a b c d rest he; simp at he),
                            timeMatch_default [y1, y2, ':', y4]
                              (by
                                intro a c d rest he
                                simp at he
                                exact hy2 he.2.1)
                              (by intro a b c d rest he; simp at he)]
                        | cons y5 b5 =>
                          exact absurd ht4 (by rw [sameShape_nil_cons]; simp)
                      | cons x5 a5 =>
                        cases b4 with
                        | nil =>
                          exact absurd ht4 (by rw [sameShape_cons_nil]; simp)
                        | cons y5 b5 =>
                          obtain ⟨r5, ht5⟩ :=
                            sameShape_cons_elim x5 y5 a5 b5 ht4
                          rw [timeMatch_p2 x1 x2 x4 x5 a5 hx2,
                            timeMatch_p2 y1 y2 y4 y5 b5 hy2,
                            shapeChar_isDigit x1 y1 r1,
                            shapeChar_isDigit x2 y2 r2,
                            shapeChar_isDigit x4 y4 r4,
                            shapeChar_isDigit x5 y5 r5,
                            secTail_shape a5 b5 ht5]
                · have hy3 : y3 ≠ ':' := by
                    intro he
                    exact hx3 (Eq.mpr (shapeChar_eqLit x3 y3 ':'
                      (by decide) r3) he)
                  rw [timeMatch_default (x1 :: x2 :: x3 :: a3)
                      (by
                        intro a c d rest he
                        injection he with e1 e2
                        injection e2 with e3 e4
                        exact hx2 e3)
                      (by
                        intro a b c d rest he
                        injection he with e1 e2
                        injection e2 with e3 e4
                        injection e4 with e5 e6
                        exact hx3 e5),
                    timeMatch_default (y1 :: y2 :: y3 :: b3)
                      (by
                        intro a c d rest he
                        injection he with e1 e2
                        injection e2 with e3 e4
                        exact hy2 e3)
                      (by
                        intro a b c d rest he
                        injection he with e1 e2
                        injection e2 with e3 e4
                        injection e4 with e5 e6
                        exact hy3 e5)]

end DataMasker

namespace DataMasker

theorem monthNames_toLower_not_digit :
    ∀ m ∈ monthNames, ∀ p ∈ m, (p.toLower).isDigit = false := by decide

theorem any_congr_mem {α : Type} (l : List α) (f g : α → Bool)
    (h : ∀ x ∈ l, f x = g x) : l.any f = l.any g := by
  induction l with
  | nil => rfl
  | cons x xs ih =>
    rw [List.any_cons, List.any_cons, h x (List.mem_cons_self x xs),
      ih (fun y hy => h y (List.mem_cons_of_mem x hy))]

theorem ciPrefix_shape (m : List Char)
    (hm : ∀ p ∈ m, (p.toLower).isDigit = false) :
    ∀ (a b : List Char), sameShape a b = true →
      ciPrefix m a = ciPrefix m b := by
  induction m with
  | nil => intro a b h; rfl
  | cons p ps ih =>
    intro a b h
    cases a with
    | nil =>
      cases b with
      | nil => rfl
      | cons y ys => exact absurd h (by rw [sameShape_nil_cons]; simp)
    | cons x xs =>
      cases b with
      | nil => exact absurd h (by rw [sameShape_cons_nil]; simp)
      | cons y ys =>
        obtain ⟨r, ht⟩ := sameShape_cons_elim x y xs ys h
        show (p.toLower = x.toLower && ciPrefix ps xs) =
          (p.toLower = y.toLower && ciPrefix ps ys)
        rw [ih (fun q hq => hm q (List.mem_cons_of_mem p hq)) xs ys ht]
        congr 1
        rcases shapeChar_cases x y r with ⟨hdx, hdy⟩ | rfl
        · have hpd : (p.toLower).isDigit = false :=
            hm p (List.mem_cons_self p ps)
          rw [toLower_digit x hdx, toLower_digit y hdy]
          rw [decide_eq_false
              (Ne.symm (digit_ne_of_not_digit x p.toLower hdx hpd)),
            decide_eq_false
              (Ne.symm (digit_ne_of_not_digit y p.toLower hdy hpd))]
        · rfl

theorem boundary_shape (u v : List Char) (h : sameShape u v = true) :
    (match u with | [] => true | c :: _ => !isWordChar c) =
    (match v with | [] => true | c :: _ => !isWordChar c) := by
  cases u with
  | nil =>
    cases v with
    | nil => rfl
    | cons y ys => exact absurd h (by rw [sameShape_nil_cons]; simp)
  | cons x xs =>
    cases v with
    | nil => exact absurd h (by rw [sameShape_cons_nil]; simp)
    | cons y ys =>
      obtain ⟨r, ht⟩ := sameShape_cons_elim x y xs ys h
      show (!isWordChar x) = (!isWordChar y)
      rw [shapeChar_isWord x y r]

theorem monthHere_shape (a b : List Char) (h : sameShape a b = true) :
    monthHere a = monthHere b := by
  unfold monthHere
  apply any_congr_mem
  intro m hm
  rw [ciPrefix_shape m (monthNames_toLower_not_digit m hm) a b h]
  have hsd := sameShape_drop m.length a b h
  congr 1
  split
  · rename_i heq
    split
    · rfl
    · rename_i y ys heq2
      rw [heq, heq2] at hsd
      exact absurd hsd (by rw [sameShape_nil_cons]; simp)
  · rename_i c cs heq
    split
    · rename_i heq2
      rw [heq, heq2] at hsd
      exact absurd hsd (by rw [sameShape_cons_nil]; simp)
    · rename_i y ys heq2
      rw [heq, heq2] at hsd
      obtain ⟨r, ht⟩ := sameShape_cons_elim c y cs ys hsd
      rw [shapeChar_isWord c y r]

theorem monthScan_cons (p : Option Char) (c : Char) (cs : List Char) :
    monthScan p (c :: cs) =
      (((match p with | none => true | some q => !isWordChar q) &&
        monthHere (c :: cs)) || monthScan (some c) cs) := rfl

theorem monthScan_shape :
    ∀ (a b : List Char), sameShape a b = true →
    ∀ (p q : Option Char),
      ((p = none ∧ q = none) ∨
        (∃ cp cq, p = some cp ∧ q = some cq ∧
          (cp.isDigit && cq.isDigit || cp == cq) = true)) →
      monthScan p a = monthScan q b := by
  intro a
  induction a with
  | nil =>
    intro b h p q _
    cases b with
    | nil => rfl
    | cons y ys => exact absurd h (by rw [sameShape_nil_cons]; simp)
  | cons x xs ih =>
    intro b h p q hpq
    cases b with
    | nil => exact absurd h (by rw [sameShape_cons_nil]; simp)
    | cons y ys =>
      obtain ⟨r, ht⟩ := sameShape_cons_elim x y xs ys h
      rcases hpq with ⟨rfl, rfl⟩ | ⟨cp, cq, rfl, rfl, hr⟩
      · rw [monthScan_cons, monthScan_cons,
          monthHere_shape (x :: xs) (y :: ys) h,
          ih ys ht (some x) (some y) (Or.inr ⟨x, y, rfl, rfl, r⟩)]
      · rw [monthScan_cons, monthScan_cons]
        show ((!isWordChar cp) && _ || _) = ((!isWordChar cq) && _ || _)
        rw [shapeChar_isWord cp cq hr,
          monthHere_shape (x :: xs) (y :: ys) h,
          ih ys ht (some x) (some y) (Or.inr ⟨x, y, rfl, rfl, r⟩)]

theorem dashStrip_keep (c : Char) (hc : c ≠ '-') (r : List Char) :
    dashStrip (c :: r) = c :: r := by
  rw [dashStrip.eq_def]
  split
  · rename_i r' heq
    exfalso
    injection heq with e1 e2
    exact hc e1
  · rfl

theorem dashStrip_shape (a b : List Char) (h : sameShape a b = true) :
    sameShape (dashStrip a) (dashStrip b) = true := by
  cases a with
  | nil =>
    cases b with
    | nil => exact h
    | cons y ys => exact absurd h (by rw [sameShape_nil_cons]; simp)
  | cons x xs =>
    cases b with
    | nil => exact absurd h (by rw [sameShape_cons_nil]; simp)
    | cons y ys =>
      obtain ⟨r, ht⟩ := sameShape_cons_elim x y xs ys h
      by_cases hx : x = '-'
      · have hy : y = '-' := by
          subst hx
          exact Eq.mp (shapeChar_eqLit '-' y '-' (by decide) r) rfl
        subst hx
        subst hy
        show sameShape (pyLStrip xs) (pyLStrip ys) = true
        exact sameShape_dropWhile isWsChar shapeChar_isWs xs ys ht
      · have hy : y ≠ '-' := by
          intro he
          exact hx (Eq.mpr (shapeChar_eqLit x y '-' (by decide) r) he)
        rw [dashStrip_keep x hx xs, dashStrip_keep y hy ys]
        exact h

theorem isDateish_eq (tok : List Char) :
    isDateish tok =
      (timeMatch (dashStrip (pyStrip tok)) ||
        ((dashStrip (pyStrip tok)).any (fun c => c = '/' || c = '-') &&
          (dashStrip (pyStrip tok)).any Char.isDigit) ||
        (containsMonthWord (dashStrip (pyStrip tok)) &&
          (dashStrip (pyStrip tok)).any Char.isDigit)) := rfl

theorem isDateish_shape (a b : List Char) (h : sameShape a b = true) :
    isDateish a = isDateish b := by
  rw [isDateish_eq, isDateish_eq]
  have hs : sameShape (dashStrip (pyStrip a)) (dashStrip (pyStrip b)) =
      true := dashStrip_shape _ _ (sameShape_pyStrip a b h)
  have hcm : containsMonthWord (dashStrip (pyStrip a)) =
      containsMonthWord (dashStrip (pyStrip b)) :=
    monthScan_shape _ _ hs none none (Or.inl ⟨rfl, rfl⟩)
  rw [timeMatch_shape _ _ hs,
    sameShape_any (fun c => c = '/' || c = '-')
      (fun x y r => by
        dsimp only
        congr 1
        · rw [decide_eq_decide, shapeChar_eqLit x y '/' (by decide) r]
        · rw [decide_eq_decide, shapeChar_eqLit x y '-' (by decide) r]) _ _ hs,
    sameShape_any Char.isDigit shapeChar_isDigit _ _ hs, hcm]

end DataMasker

namespace DataMasker

/-! ### The shape and invariants of masked values -/

theorem digitChoices0_getD_digit (k : Nat) :
    (digitChoices0.getD k '0').isDigit = true := by
  unfold List.getD
  rw [List.get?_eq_getElem?]
  cases hk : digitChoices0[k]? with
  | none => decide
  | some x =>
    have hx : x ∈ digitChoices0 := List.getElem?_mem hk
    have hall : ∀ c ∈ digitChoices0, c.isDigit = true := by decide
    exact hall x hx

theorem digitChoices_getD_digit (k : Nat) :
    (digitChoices.getD k '1').isDigit = true := by
  unfold List.getD
  rw [List.get?_eq_getElem?]
  cases hk : digitChoices[k]? with
  | none => decide
  | some x =>
    have hx : x ∈ digitChoices := List.getElem?_mem hk
    have hall : ∀ c ∈ digitChoices, c.isDigit = true := by decide
    exact hall x hx

theorem maskCandidateAux_cons (σ : Nat → Nat) (c : Char) (cs : List Char)
    (n : Nat) :
    maskCandidateAux σ (c :: cs) n =
      if c.isDigit then
        ((if c = '0' then digitChoices0.getD (σ n % 10) '0'
          else digitChoices.getD (σ n % 9) '1') ::
          (maskCandidateAux σ cs (n + 1)).1,
         (maskCandidateAux σ cs (n + 1)).2)
      else
        (c :: (maskCandidateAux σ cs n).1,
          (maskCandidateAux σ cs n).2) := rfl

theorem maskCandidateAux_shape (σ : Nat → Nat) :
    ∀ (tok : List Char) (n : Nat),
      sameShape tok (maskCandidateAux σ tok n).1 = true := by
  intro tok
  induction tok with
  | nil => intro n; rfl
  | cons c cs ih =>
    intro n
    rw [maskCandidateAux_cons]
    by_cases hc : c.isDigit = true
    · rw [if_pos hc]
      have hd : (if c = '0' then digitChoices0.getD (σ n % 10) '0'
          else digitChoices.getD (σ n % 9) '1').isDigit = true := by
        by_cases h0 : c = '0'
        · rw [if_pos h0]; exact digitChoices0_getD_digit _
        · rw [if_neg h0]; exact digitChoices_getD_digit _
      rw [sameShape_cons_cons, hc, hd]
      simp [ih (n + 1)]
    · rw [if_neg hc]
      rw [sameShape_cons_cons]
      simp [ih n]

theorem sameShape_wsfree (a b : List Char) (h : sameShape a b = true)
    (ha : a.all (fun c => !isWsChar c) = true) :
    b.all (fun c => !isWsChar c) = true := by
  rw [← sameShape_all (fun c => !isWsChar c)
    (fun x y r => by dsimp only; rw [shapeChar_isWs x y r]) a b h]
  exact ha

theorem sameShape_hasDigit (a b : List Char) (h : sameShape a b = true) :
    hasDigitTok a = hasDigitTok b :=
  sameShape_any Char.isDigit shapeChar_isDigit a b h

theorem sameShape_ne_nil (a b : List Char) (h : sameShape a b = true)
    (ha : a ≠ []) : b ≠ [] := by
  intro hb
  apply ha
  have := sameShape_length a b h
  rw [hb] at this
  exact List.length_eq_zero.mp this

theorem isEmpty_false_of_ne_nil {α : Type} (l : List α) (h : l ≠ []) :
    l.isEmpty = false := by
  cases hl : l.isEmpty
  · rfl
  · exact absurd (List.isEmpty_iff.mp hl) h

theorem maskCand_valOK (σ : Nat → Nat) (tok : List Char) (n : Nat)
    (h1 : tok ≠ []) (h2 : tok.all (fun c => !isWsChar c) = true)
    (h3 : hasDigitTok tok = true) (h4 : isDateish tok = false) :
    valOK (maskCandidateAux σ tok n).1 = true := by
  have hs := maskCandidateAux_shape σ tok n
  unfold valOK
  rw [isEmpty_false_of_ne_nil _ (sameShape_ne_nil tok _ hs h1),
    sameShape_wsfree tok _ hs h2, ← sameShape_hasDigit tok _ hs, h3,
    ← isDateish_shape tok _ hs, h4]
  rfl

theorem getLast_digit (n : Nat) :
    ∀ c, (natToChars n).getLast? = some c → c.isDigit = true := by
  intro c hc
  rw [List.getLast?_eq_some_iff] at hc
  obtain ⟨ys, hys⟩ := hc
  exact (FullText.natToChars_digits n).2 c
    (by rw [hys]; exact List.mem_append_right ys (List.mem_singleton_self c))

theorem monthScan_digits :
    ∀ (r : List Char), (∀ c ∈ r, c.isDigit = true) →
      ∀ p, isWordChar p = true → monthScan (some p) r = false := by
  intro r
  induction r with
  | nil => intro _ p _; rfl
  | cons c cs ih =>
    intro hd p hp
    rw [monthScan_cons]
    show ((!isWordChar p) && _ || _) = false
    rw [hp]
    rw [ih (fun x hx => hd x (List.mem_cons_of_mem c hx)) c
      (digit_isWordChar c (hd c (List.mem_cons_self c cs)))]
    rfl

end DataMasker

namespace DataMasker

theorem fallback_strip (n : Nat) :
    pyStrip ("MASK".toList ++ natToChars n) =
      "MASK".toList ++ natToChars n := by
  apply FullText.pyStrip_eq_self
  · intro c hc
    rw [List.head?_append_of_ne_nil _ (by decide)] at hc
    rw [show ("MASK".toList).head? = some 'M' from rfl] at hc
    injection hc with hc2
    rw [← hc2]
    rfl
  · intro c hc
    rw [List.getLast?_append_of_ne_nil _
      (FullText.natToChars_digits n).1] at hc
    exact FullText.isDigit_not_ws c (getLast_digit n c hc)

theorem fallback_not_dateish (n : Nat) :
    isDateish ("MASK".toList ++ natToChars n) = false := by
  obtain ⟨hdne, hddig⟩ := FullText.natToChars_digits n
  rw [isDateish_eq, fallback_strip n]
  rw [show "MASK".toList ++ natToChars n =
    'M' :: 'A' :: 'S' :: 'K' :: natToChars n from rfl]
  rw [show dashStrip ('M' :: 'A' :: 'S' :: 'K' :: natToChars n) =
    'M' :: 'A' :: 'S' :: 'K' :: natToChars n from rfl]
  have c1 : timeMatch ('M' :: 'A' :: 'S' :: 'K' :: natToChars n) = false := by
    apply timeMatch_default
    · intro a c d rest he
      injection he with e1 e2
      injection e2 with e3 e4
      exact absurd e3 (by decide)
    · intro a b c d rest he
      injection he with e1 e2
      injection e2 with e3 e4
      injection e4 with e5 e6
      exact absurd e5 (by decide)
  have c2 : ('M' :: 'A' :: 'S' :: 'K' :: natToChars n).any
      (fun c => c = '/' || c = '-') = false := by
    rw [show ('M' :: 'A' :: 'S' :: 'K' :: natToChars n) =
      "MASK".toList ++ natToChars n from rfl, List.any_append]
    have hm : ("MASK".toList).any (fun c => c = '/' || c = '-') = false := by
      decide
    have hd : (natToChars n).any (fun c => c = '/' || c = '-') = false := by
      rw [List.any_eq_false]
      intro c hc
      have hcd := hddig c hc
      simp only [Bool.or_eq_true, decide_eq_true_eq]
      push_neg
      exact ⟨digit_ne_of_not_digit c '/' hcd (by decide),
        digit_ne_of_not_digit c '-' hcd (by decide)⟩
    rw [hm, hd]
    rfl
  have c3 : containsMonthWord ('M' :: 'A' :: 'S' :: 'K' :: natToChars n) =
      false := by
    show monthScan none ('M' :: 'A' :: 'S' :: 'K' :: natToChars n) = false
    rw [monthScan_cons]
    rw [show monthHere ('M' :: 'A' :: 'S' :: 'K' :: natToChars n) = false
      from rfl]
    rw [monthScan_cons]
    rw [show monthHere ('A' :: 'S' :: 'K' :: natToChars n) = false from rfl]
    rw [monthScan_cons]
    rw [show monthHere ('S' :: 'K' :: natToChars n) = false from rfl]
    rw [monthScan_cons]
    rw [show monthHere ('K' :: natToChars n) = false from rfl]
    rw [monthScan_digits (natToChars n) hddig 'K' (by decide)]
    simp
  rw [c1, c2, c3]
  rfl

theorem fallback_valOK (n : Nat) :
    valOK ("MASK".toList ++ natToChars n) = true := by
  unfold valOK
  rw [isEmpty_false_of_ne_nil _ (by simp), fallback_not_dateish n]
  have hws : ("MASK".toList ++ natToChars n).all
      (fun c => !isWsChar c) = true := by
    rw [List.all_append]
    have h1 : ("MASK".toList).all (fun c => !isWsChar c) = true := by decide
    have h2 : (natToChars n).all (fun c => !isWsChar c) = true := by
      rw [List.all_eq_true]
      intro c hc
      have := FullText.isDigit_not_ws c ((FullText.natToChars_digits n).2 c hc)
      simp [this]
    rw [h1, h2]
    rfl
  have hdig : hasDigitTok ("MASK".toList ++ natToChars n) = true := by
    unfold hasDigitTok
    rw [List.any_append]
    have h2 : (natToChars n).any Char.isDigit = true := by
      obtain ⟨hdne, hddig⟩ := FullText.natToChars_digits n
      cases hn : natToChars n with
      | nil => exact absurd hn hdne
      | cons c cs =>
        rw [List.any_cons, hddig c (by rw [hn]; exact List.mem_cons_self c cs)]
        rfl
    rw [h2]
    simp
  rw [hws, hdig]
  rfl

end DataMasker

namespace DataMasker

/-! ### Association-list lemmas for the reverse maps -/

theorem aget_append_some {κ α : Type} [DecidableEq κ] :
    ∀ (a : List (κ × α)) (b : List (κ × α)) (k : κ) (v : α),
      aget a k = some v → aget (a ++ b) k = some v := by
  intro a
  induction a with
  | nil => intro b k v h; simp [aget] at h
  | cons kv rest ih =>
    intro b k v h
    obtain ⟨k0, v0⟩ := kv
    rw [List.cons_append]
    unfold aget at h ⊢
    by_cases hk : k0 = k
    · rw [if_pos hk] at h ⊢
      exact h
    · rw [if_neg hk] at h ⊢
      exact ih b k v h

theorem aget_append_none {κ α : Type} [DecidableEq κ] :
    ∀ (a : List (κ × α)) (b : List (κ × α)) (k : κ),
      aget a k = none → aget (a ++ b) k = aget b k := by
  intro a
  induction a with
  | nil => intro b k _; rfl
  | cons kv rest ih =>
    intro b k h
    obtain ⟨k0, v0⟩ := kv
    rw [List.cons_append]
    unfold aget at h
    show (if k0 = k then some v0 else aget (rest ++ b) k) = aget b k
    by_cases hk : k0 = k
    · rw [if_pos hk] at h
      exact absurd h (by simp)
    · rw [if_neg hk] at h
      rw [if_neg hk]
      exact ih b k h

theorem aget_mem {κ α : Type} [DecidableEq κ] :
    ∀ (m : List (κ × α)) (k : κ) (v : α),
      aget m k = some v → (k, v) ∈ m := by
  intro m
  induction m with
  | nil => intro k v h; simp [aget] at h
  | cons kv rest ih =>
    intro k v h
    obtain ⟨k0, v0⟩ := kv
    unfold aget at h
    by_cases hk : k0 = k
    · rw [if_pos hk] at h
      injection h with h2
      rw [← hk, ← h2]
      exact List.mem_cons_self _ _
    · rw [if_neg hk] at h
      exact List.mem_cons_of_mem _ (ih k v h)

theorem aset_absent {κ α : Type} [DecidableEq κ] :
    ∀ (m : List (κ × α)) (k : κ) (v : α),
      aget m k = none → aset m k v = m ++ [(k, v)] := by
  intro m
  induction m with
  | nil => intro k v _; rfl
  | cons kv rest ih =>
    intro k v h
    obtain ⟨k0, v0⟩ := kv
    unfold aget at h
    unfold aset
    by_cases hk : k0 = k
    · rw [if_pos hk] at h
      exact absurd h (by simp)
    · rw [if_neg hk] at h
      rw [if_neg hk, ih k v h, List.cons_append]

theorem buildReverse_preserve :
    ∀ (m : List (List Char × List Char)) (acc : List (List Char × List Char))
      (k : List Char) (x : List Char),
      (∀ p ∈ m, p.2 ≠ k) → aget acc k = some x →
      aget (m.foldl (fun a om => aset a om.2 om.1) acc) k = some x := by
  intro m
  induction m with
  | nil => intro acc k x _ h; exact h
  | cons p rest ih =>
    intro acc k x hne h
    rw [List.foldl_cons]
    apply ih _ k x (fun q hq => hne q (List.mem_cons_of_mem p hq))
    rw [aget_aset_ne acc p.2 k p.1 (hne p (List.mem_cons_self p rest))]
    exact h

theorem buildReverse_none :
    ∀ (m : List (List Char × List Char)) (acc : List (List Char × List Char))
      (k : List Char),
      (∀ p ∈ m, p.2 ≠ k) → aget acc k = none →
      aget (m.foldl (fun a om => aset a om.2 om.1) acc) k = none := by
  intro m
  induction m with
  | nil => intro acc k _ h; exact h
  | cons p rest ih =>
    intro acc k hne h
    rw [List.foldl_cons]
    apply ih _ k (fun q hq => hne q (List.mem_cons_of_mem p hq))
    rw [aget_aset_ne acc p.2 k p.1 (hne p (List.mem_cons_self p rest))]
    exact h

theorem buildReverseNorm_none :
    ∀ (m : List (List Char × List Char)) (acc : List (List Char × List Char))
      (k : List Char),
      (∀ p ∈ m, normNumber p.2 ≠ k) → aget acc k = none →
      aget (m.foldl
        (fun a om => aset a (normNumber om.2) (normNumber om.1)) acc) k =
        none := by
  intro m
  induction m with
  | nil => intro acc k _ h; exact h
  | cons p rest ih =>
    intro acc k hne h
    rw [List.foldl_cons]
    apply ih _ k (fun q hq => hne q (List.mem_cons_of_mem p hq))
    rw [aget_aset_ne acc (normNumber p.2) k (normNumber p.1)
      (hne p (List.mem_cons_self p rest))]
    exact h

theorem buildReverse_lookup :
    ∀ (m : List (List Char × List Char))
      (acc : List (List Char × List Char)) (t v : List Char),
      (m.map Prod.snd).Nodup → (∀ p ∈ m, aget acc p.2 = none) →
      (t, v) ∈ m →
      aget (m.foldl (fun a om => aset a om.2 om.1) acc) v = some t := by
  intro m
  induction m with
  | nil => intro acc t v _ _ hm; simp at hm
  | cons p rest ih =>
    intro acc t v hnd hfresh hm
    rw [List.map_cons, List.nodup_cons] at hnd
    rw [List.foldl_cons]
    rw [aset_absent acc p.2 p.1 (hfresh p (List.mem_cons_self p rest))]
    rcases List.mem_cons.mp hm with rfl | hm2
    · -- p = (t, v): lookup persists through rest
      apply buildReverse_preserve rest _ v t
      · intro q hq he
        exact hnd.1 (by rw [← he]; exact List.mem_map.mpr ⟨q, hq, rfl⟩)
      · rw [aget_append_none acc _ v (hfresh (t, v) (List.mem_cons_self _ _))]
        unfold aget
        rw [if_pos rfl]
    · -- (t, v) in rest
      apply ih _ t v hnd.2
      · intro q hq
        rw [aget_append_none acc _ q.2 (hfresh q (List.mem_cons_of_mem p hq))]
        unfold aget
        rw [if_neg, aget]
        intro he
        exact hnd.1 (by
          rw [he]
          exact List.mem_map.mpr ⟨q, hq, rfl⟩)
      · exact hm2

end DataMasker

namespace DataMasker

/-! ### Characterisation of `revert_func` -/

theorem revertTok_hit (m : List (List Char × List Char)) (t v : List Char)
    (hv1 : hasDigitTok v = true) (hv2 : isDateish v = false)
    (hl : aget (buildReverse m) v = some t) (ht : t ≠ []) :
    revertTok m v = t := by
  unfold revertTok
  rw [hv1, hv2]
  rw [if_neg (by simp)]
  rw [hl]
  show (if t.isEmpty = true then revertNorm m v else t) = t
  rw [if_neg (by simp [isEmpty_false_of_ne_nil t ht])]

theorem revertTok_miss (m : List (List Char × List Char)) (u : List Char)
    (h1 : aget (buildReverse m) u = none)
    (h2 : aget (buildReverseNorm m) (normNumber u) = none) :
    revertTok m u = u := by
  unfold revertTok
  by_cases he : (!hasDigitTok u || isDateish u) = true
  · rw [if_pos he]
  · rw [if_neg he, h1]
    unfold revertNorm
    rw [h2]

/-! ### The replacement map built by the mask pass -/

theorem maskTokenLoop_map (σ : Nat → Nat) (tok : List Char) :
    ∀ (fuel : Nat) (st : MaskState),
      (maskTokenLoop σ tok fuel st).2.replacementMap =
        st.replacementMap ++
          [(tok, (maskTokenLoop σ tok fuel st).1)] := by
  intro fuel
  induction fuel with
  | zero => intro st; rfl
  | succ f ih =>
    intro st
    unfold maskTokenLoop
    split
    · exact ih _
    · rfl

theorem maskTokenLoop_out_valOK (σ : Nat → Nat) (tok : List Char)
    (h1 : tok ≠ []) (h2 : tok.all (fun c => !isWsChar c) = true)
    (h3 : hasDigitTok tok = true) (h4 : isDateish tok = false) :
    ∀ (fuel : Nat) (st : MaskState),
      valOK (maskTokenLoop σ tok fuel st).1 = true := by
  intro fuel
  induction fuel with
  | zero => intro st; exact fallback_valOK _
  | succ f ih =>
    intro st
    unfold maskTokenLoop
    split
    · exact ih _
    · exact maskCand_valOK σ tok st.ctr h1 h2 h3 h4

theorem replacer_eq (cfg : MaskerCfg) (σ : Nat → Nat)
    (dm : List (List Char)) (st : MaskState) (t : List Char) :
    replacer cfg σ dm st t =
      if shouldMask cfg dm t then maskTok σ st t else (t, st) := rfl

theorem shouldMask_facts (cfg : MaskerCfg) (dm : List (List Char))
    (tok : List Char) (h : shouldMask cfg dm tok = true) :
    hasDigitTok tok = true ∧ isDateish tok = false := by
  unfold shouldMask at h
  by_cases h1 : (normNumber tok).length < cfg.minTokenLength
  · rw [if_pos h1] at h; exact absurd h (by simp)
  · rw [if_neg h1] at h
    by_cases h2 : hasDigitTok tok = true
    · rw [h2] at h
      by_cases h3 : isDonotTerm cfg tok = true
      · rw [if_neg (by simp), if_pos h3] at h
        exact absurd h (by simp)
      · rw [if_neg (by simp), if_neg h3] at h
        by_cases h4 : isDateish tok = true
        · rw [if_pos h4] at h
          exact absurd h (by simp)
        · exact ⟨h2, Bool.eq_false_iff.mpr h4⟩
    · have h2f : hasDigitTok tok = false := Bool.eq_false_iff.mpr h2
      rw [h2f] at h
      rw [if_pos (by simp)] at h
      exact absurd h (by simp)

theorem maskTok_lookup (σ : Nat → Nat) (st : MaskState) (tok : List Char) :
    aget (maskTok σ st tok).2.replacementMap tok =
      some (maskTok σ st tok).1 := by
  unfold maskTok
  cases h : aget st.replacementMap tok with
  | some v => exact h
  | none =>
    rw [maskTokenLoop_map σ tok 100 st,
      aget_append_none st.replacementMap _ tok h]
    unfold aget
    rw [if_pos rfl]

theorem maskTok_mono (σ : Nat → Nat) (st : MaskState) (tok : List Char)
    (k : List Char) (v : List Char)
    (h : aget st.replacementMap k = some v) :
    aget (maskTok σ st tok).2.replacementMap k = some v := by
  unfold maskTok
  cases hg : aget st.replacementMap tok with
  | some w => exact h
  | none =>
    rw [maskTokenLoop_map σ tok 100 st]
    exact aget_append_some st.replacementMap _ k v h

theorem maskTok_all_valOK (cfg : MaskerCfg) (dm : List (List Char))
    (σ : Nat → Nat) (st : MaskState) (tok : List Char)
    (hst : (st.replacementMap.all fun p => valOK p.2) = true)
    (hm : shouldMask cfg dm tok = true)
    (h1 : tok ≠ []) (h2 : tok.all (fun c => !isWsChar c) = true) :
    valOK (maskTok σ st tok).1 = true ∧
      ((maskTok σ st tok).2.replacementMap.all fun p => valOK p.2) =
        true := by
  obtain ⟨h3, h4⟩ := shouldMask_facts cfg dm tok hm
  unfold maskTok
  cases hg : aget st.replacementMap tok with
  | some v =>
    refine ⟨?_, hst⟩
    have hmem := aget_mem st.replacementMap tok v hg
    exact List.all_eq_true.mp hst (tok, v) hmem
  | none =>
    have hv := maskTokenLoop_out_valOK σ tok h1 h2 h3 h4 100 st
    refine ⟨hv, ?_⟩
    rw [maskTokenLoop_map σ tok 100 st, List.all_append]
    rw [hst]
    simp [hv]

end DataMasker

namespace DataMasker

theorem valOK_parts (v : List Char) (h : valOK v = true) :
    v ≠ [] ∧ v.all (fun c => !isWsChar c) = true ∧
      hasDigitTok v = true ∧ isDateish v = false := by
  unfold valOK at h
  simp only [Bool.and_eq_true, Bool.not_eq_true'] at h
  obtain ⟨⟨⟨h1, h2⟩, h3⟩, h4⟩ := h
  refine ⟨?_, h2, h3, h4⟩
  intro he
  rw [he] at h1
  simp at h1

theorem chunkOK_tok_parts (t : List Char)
    (h : chunkOK (Chunk.tok t) = true) :
    t ≠ [] ∧ t.all (fun c => !isWsChar c) = true := by
  unfold chunkOK at h
  simp only [Bool.and_eq_true, Bool.not_eq_true'] at h
  refine ⟨?_, h.2⟩
  intro he
  rw [he] at h
  simp at h

theorem maskChunks_mono (cfg : MaskerCfg) (σ : Nat → Nat)
    (dm : List (List Char)) :
    ∀ (cs : List Chunk) (st : MaskState) (k v : List Char),
      aget st.replacementMap k = some v →
      aget (maskChunks cfg σ dm cs st).2.replacementMap k = some v := by
  intro cs
  induction cs with
  | nil => intro st k v h; exact h
  | cons c rest ih =>
    intro st k v h
    cases c with
    | ws w =>
      rw [maskChunks_ws]
      exact ih st k v h
    | tok t =>
      rw [maskChunks_tok]
      by_cases hm : shouldMask cfg dm t = true
      · rw [replacer_eq, if_pos hm]
        exact ih _ k v (maskTok_mono σ st t k v h)
      · rw [replacer_eq, if_neg hm]
        exact ih st k v h

theorem maskChunks_inv (cfg : MaskerCfg) (σ : Nat → Nat)
    (dm : List (List Char)) :
    ∀ (cs : List Chunk) (st : MaskState),
      cs.all chunkOK = true →
      (st.replacementMap.all fun p => valOK p.2) = true →
      ((maskChunks cfg σ dm cs st).2.replacementMap.all
        fun p => valOK p.2) = true ∧
      (maskChunks cfg σ dm cs st).1.all chunkOK = true ∧
      (maskChunks cfg σ dm cs st).1.map chunkIsWs = cs.map chunkIsWs := by
  intro cs
  induction cs with
  | nil => intro st _ hst; exact ⟨hst, rfl, rfl⟩
  | cons c rest ih =>
    intro st hcs hst
    rw [List.all_cons, Bool.and_eq_true] at hcs
    cases c with
    | ws w =>
      rw [maskChunks_ws]
      obtain ⟨i1, i2, i3⟩ := ih st hcs.2 hst
      refine ⟨i1, ?_, ?_⟩
      · rw [List.all_cons, hcs.1, i2]
        rfl
      · rw [List.map_cons, List.map_cons, i3]
    | tok t =>
      rw [maskChunks_tok]
      by_cases hm : shouldMask cfg dm t = true
      · obtain ⟨ht1, ht2⟩ := chunkOK_tok_parts t hcs.1
        have hrepl : replacer cfg σ dm st t = maskTok σ st t := by
          rw [replacer_eq, if_pos hm]
        rw [hrepl]
        obtain ⟨hv, hmap⟩ := maskTok_all_valOK cfg dm σ st t hst hm ht1 ht2
        obtain ⟨i1, i2, i3⟩ := ih (maskTok σ st t).2 hcs.2 hmap
        refine ⟨i1, ?_, ?_⟩
        · rw [List.all_cons, i2]
          obtain ⟨p1, p2, _, _⟩ := valOK_parts _ hv
          have hcOK : chunkOK (Chunk.tok (maskTok σ st t).1) = true := by
            show (!(maskTok σ st t).1.isEmpty &&
              (maskTok σ st t).1.all fun c => !isWsChar c) = true
            rw [isEmpty_false_of_ne_nil _ p1, p2]
            rfl
          rw [hcOK]
          rfl
        · rw [List.map_cons, List.map_cons, i3]
          rfl
      · have hrepl : replacer cfg σ dm st t = (t, st) := by
          rw [replacer_eq, if_neg hm]
        rw [hrepl]
        dsimp only
        obtain ⟨i1, i2, i3⟩ := ih st hcs.2 hst
        refine ⟨i1, ?_, ?_⟩
        · rw [List.all_cons, i2, hcs.1]
          rfl
        · rw [List.map_cons, List.map_cons, i3]

theorem maskChunks_desc (cfg : MaskerCfg) (σ : Nat → Nat)
    (dm : List (List Char)) :
    ∀ (cs : List Chunk) (st : MaskState),
      ∀ pr ∈ List.zip cs (maskChunks cfg σ dm cs st).1,
        (∀ w, pr.1 = Chunk.ws w → pr.2 = Chunk.ws w) ∧
        (∀ t, pr.1 = Chunk.tok t →
          ((shouldMask cfg dm t = false ∧ pr.2 = Chunk.tok t) ∨
           (shouldMask cfg dm t = true ∧ ∃ v, pr.2 = Chunk.tok v ∧
             aget (maskChunks cfg σ dm cs st).2.replacementMap t =
               some v))) := by
  intro cs
  induction cs with
  | nil => intro st pr hpr; simp at hpr
  | cons c rest ih =>
    intro st pr hpr
    cases c with
    | ws w =>
      rw [maskChunks_ws] at hpr ⊢
      rw [List.zip_cons_cons] at hpr
      rcases List.mem_cons.mp hpr with rfl | hpr2
      · constructor
        · intro w' hw
          injection hw with he
          rw [← he]
        · intro t htt
          exact Chunk.noConfusion htt
      · exact ih st pr hpr2
    | tok t0 =>
      rw [maskChunks_tok] at hpr ⊢
      rw [List.zip_cons_cons] at hpr
      rcases List.mem_cons.mp hpr with rfl | hpr2
      · constructor
        · intro w hw
          exact Chunk.noConfusion hw
        · intro t htt
          injection htt with hte
          subst hte
          by_cases hm : shouldMask cfg dm t0 = true
          · right
            refine ⟨hm, (maskTok σ st t0).1, ?_, ?_⟩
            · show Chunk.tok (replacer cfg σ dm st t0).1 = _
              rw [replacer_eq, if_pos hm]
            · show aget (maskChunks cfg σ dm rest
                  (replacer cfg σ dm st t0).2).2.replacementMap t0 =
                some (maskTok σ st t0).1
              rw [replacer_eq, if_pos hm]
              exact maskChunks_mono cfg σ dm rest _ t0 _
                (maskTok_lookup σ st t0)
          · left
            refine ⟨Bool.eq_false_iff.mpr hm, ?_⟩
            show Chunk.tok (replacer cfg σ dm st t0).1 = _
            rw [replacer_eq, if_neg hm]
      · exact ih _ pr hpr2

end DataMasker

namespace DataMasker

/-! ### Good chunk sequences: production and reconstruction -/

theorem takeWhile_append_all (p : Char → Bool) :
    ∀ (a b : List Char), (∀ x ∈ a, p x = true) →
      (a ++ b).takeWhile p = a ++ b.takeWhile p := by
  intro a
  induction a with
  | nil => intro b _; rfl
  | cons x xs ih =>
    intro b h
    rw [List.cons_append, List.takeWhile_cons,
      if_pos (h x (List.mem_cons_self x xs)), List.cons_append,
      ih b (fun y hy => h y (List.mem_cons_of_mem x hy))]

theorem dropWhile_append_all (p : Char → Bool) :
    ∀ (a b : List Char), (∀ x ∈ a, p x = true) →
      (a ++ b).dropWhile p = b.dropWhile p := by
  intro a
  induction a with
  | nil => intro b _; rfl
  | cons x xs ih =>
    intro b h
    rw [List.cons_append, List.dropWhile_cons,
      if_pos (h x (List.mem_cons_self x xs)),
      ih b (fun y hy => h y (List.mem_cons_of_mem x hy))]

theorem alternatingB_tail (b1 b2 : Bool) (r : List Bool)
    (h : alternatingB (b1 :: b2 :: r) = true) :
    (b1 != b2) = true ∧ alternatingB (b2 :: r) = true := by
  rw [show alternatingB (b1 :: b2 :: r) =
    ((b1 != b2) && alternatingB (b2 :: r)) from rfl] at h
  exact Bool.and_eq_true_iff.mp h

theorem alternatingB_of_cons (x : Bool) (bs : List Bool)
    (h : alternatingB (x :: bs) = true) : alternatingB bs = true := by
  cases bs with
  | nil => rfl
  | cons b r => exact (alternatingB_tail x b r h).2

theorem alternatingB_cons (x : Bool) (bs : List Bool)
    (h : alternatingB bs = true)
    (hh : ∀ b, bs.head? = some b → (x != b) = true) :
    alternatingB (x :: bs) = true := by
  cases bs with
  | nil => rfl
  | cons b r =>
    rw [show alternatingB (x :: b :: r) =
      ((x != b) && alternatingB (b :: r)) from rfl]
    rw [hh b rfl, h]
    rfl

theorem chunkOK_ws_parts (w : List Char)
    (h : chunkOK (Chunk.ws w) = true) :
    w ≠ [] ∧ w.all isWsChar = true := by
  unfold chunkOK at h
  simp only [Bool.and_eq_true, Bool.not_eq_true'] at h
  refine ⟨?_, h.2⟩
  intro he
  rw [he] at h
  simp at h

theorem chunksAux_head_flag :
    ∀ (f : Nat) (c0 : Char) (cs0 : List Char), (c0 :: cs0).length ≤ f →
      ∃ d rest, chunksAux f (c0 :: cs0) = d :: rest ∧
        chunkIsWs d = isWsChar c0 := by
  intro f c0 cs0 hf
  cases f with
  | zero => simp at hf
  | succ f' =>
    unfold chunksAux
    by_cases hw : isWsChar c0 = true
    · rw [if_pos hw]
      refine ⟨_, _, rfl, ?_⟩
      show true = isWsChar c0
      rw [hw]
    · rw [if_neg hw]
      refine ⟨_, _, rfl, ?_⟩
      show false = isWsChar c0
      rw [Bool.eq_false_iff.mpr hw]

theorem chunksAux_good :
    ∀ (f : Nat) (l : List Char), l.length ≤ f →
      (chunksAux f l).all chunkOK = true ∧
      alternatingB ((chunksAux f l).map chunkIsWs) = true := by
  intro f
  induction f with
  | zero =>
    intro l hl
    rw [List.length_eq_zero.mp (Nat.le_zero.mp hl)]
    exact ⟨rfl, rfl⟩
  | succ f' ih =>
    intro l hl
    cases l with
    | nil => exact ⟨rfl, rfl⟩
    | cons c cs =>
      have hlen : cs.length ≤ f' := by
        rw [List.length_cons] at hl
        omega
      unfold chunksAux
      by_cases hw : isWsChar c = true
      · rw [if_pos hw]
        have hrec := ih (cs.dropWhile isWsChar)
          (le_trans (List.dropWhile_suffix isWsChar).length_le hlen)
        refine ⟨?_, ?_⟩
        · rw [List.all_cons, hrec.1]
          have hOK : chunkOK (Chunk.ws (c :: cs.takeWhile isWsChar)) =
              true := by
            show (!(c :: cs.takeWhile isWsChar).isEmpty &&
              (c :: cs.takeWhile isWsChar).all isWsChar) = true
            rw [List.all_cons, hw]
            have h2 : (cs.takeWhile isWsChar).all isWsChar = true := by
              rw [List.all_eq_true]
              intro x hx
              exact List.mem_takeWhile_imp hx
            rw [h2]
            rfl
          rw [hOK]
          rfl
        · rw [List.map_cons]
          apply alternatingB_cons _ _ hrec.2
          intro b hb
          cases hd : cs.dropWhile isWsChar with
          | nil => rw [hd] at hb; simp [chunksAux] at hb
          | cons d0 ds =>
            obtain ⟨ch, rest2, hch, hflag⟩ := chunksAux_head_flag f' d0 ds
              (by
                rw [← hd]
                exact le_trans (List.dropWhile_suffix isWsChar).length_le
                  hlen)
            rw [hd, hch, List.map_cons, List.head?_cons] at hb
            injection hb with hb2
            have hd0 : isWsChar d0 = false := by
              apply FullText.dropWhile_head_not isWsChar cs
              rw [hd]
              rfl
            rw [← hb2, hflag, hd0]
            rfl
      · rw [if_neg hw]
        have hwf : isWsChar c = false := Bool.eq_false_iff.mpr hw
        have hrec := ih (cs.dropWhile (fun x => !isWsChar x))
          (le_trans (List.dropWhile_suffix _).length_le hlen)
        refine ⟨?_, ?_⟩
        · rw [List.all_cons, hrec.1]
          have hOK : chunkOK (Chunk.tok
              (c :: cs.takeWhile (fun x => !isWsChar x))) = true := by
            show (!(c :: cs.takeWhile (fun x => !isWsChar x)).isEmpty &&
              (c :: cs.takeWhile (fun x => !isWsChar x)).all
                (fun x => !isWsChar x)) = true
            rw [List.all_cons]
            have h2 : (cs.takeWhile (fun x => !isWsChar x)).all
                (fun x => !isWsChar x) = true := by
              rw [List.all_eq_true]
              intro x hx
              exact @List.mem_takeWhile_imp Char (fun y => !isWsChar y) cs x hx
            rw [h2, hwf]
            rfl
          rw [hOK]
          rfl
        · rw [List.map_cons]
          apply alternatingB_cons _ _ hrec.2
          intro b hb
          cases hd : cs.dropWhile (fun x => !isWsChar x) with
          | nil => rw [hd] at hb; simp [chunksAux] at hb
          | cons d0 ds =>
            obtain ⟨ch, rest2, hch, hflag⟩ := chunksAux_head_flag f' d0 ds
              (by
                rw [← hd]
                exact le_trans (List.dropWhile_suffix _).length_le hlen)
            rw [hd, hch, List.map_cons, List.head?_cons] at hb
            injection hb with hb2
            have hd0 : isWsChar d0 = true := by
              have h3 := FullText.dropWhile_head_not
                (fun x => !isWsChar x) cs d0 (by rw [hd]; rfl)
              simp only [Bool.not_eq_false'] at h3
              exact h3
            rw [← hb2, hflag, hd0]
            rfl

theorem chunksOf_good (l : List Char) : goodChunks (chunksOf l) = true := by
  unfold goodChunks chunksOf
  obtain ⟨h1, h2⟩ := chunksAux_good l.length l (Nat.le_refl _)
  rw [h1, h2]
  rfl

end DataMasker

namespace DataMasker

theorem flat_head_class :
    ∀ (cs : List Chunk), cs.all chunkOK = true →
      (cs = [] ∧ flattenChunks cs = []) ∨
      (∃ d rest c0 ctail, cs = d :: rest ∧ chunkData d = c0 :: ctail ∧
        flattenChunks cs = c0 :: (ctail ++ flattenChunks rest) ∧
        isWsChar c0 = chunkIsWs d ∧
        (∀ x ∈ ctail, isWsChar x = chunkIsWs d)) := by
  intro cs hcs
  cases cs with
  | nil => exact Or.inl ⟨rfl, rfl⟩
  | cons d rest =>
    right
    rw [List.all_cons, Bool.and_eq_true] at hcs
    cases d with
    | ws w =>
      obtain ⟨hwne, hwall⟩ := chunkOK_ws_parts w hcs.1
      cases w with
      | nil => exact absurd rfl hwne
      | cons c0 ctail =>
        rw [List.all_cons, Bool.and_eq_true] at hwall
        refine ⟨_, rest, c0, ctail, rfl, rfl, ?_, ?_, ?_⟩
        · rw [flattenChunks_cons]
          rfl
        · show isWsChar c0 = true
          exact hwall.1
        · intro x hx
          show isWsChar x = true
          exact List.all_eq_true.mp hwall.2 x hx
    | tok t =>
      obtain ⟨htne, htall⟩ := chunkOK_tok_parts t hcs.1
      cases t with
      | nil => exact absurd rfl htne
      | cons c0 ctail =>
        rw [List.all_cons, Bool.and_eq_true] at htall
        refine ⟨_, rest, c0, ctail, rfl, rfl, ?_, ?_, ?_⟩
        · rw [flattenChunks_cons]
          rfl
        · show isWsChar c0 = false
          simp only [Bool.not_eq_true'] at htall
          exact htall.1
        · intro x hx
          have h5 := List.all_eq_true.mp htall.2 x hx
          show isWsChar x = false
          simp only [Bool.not_eq_true'] at h5
          exact h5

end DataMasker

namespace DataMasker

theorem chunksAux_flatten :
    ∀ (cs : List Chunk) (f : Nat), cs.all chunkOK = true →
      alternatingB (cs.map chunkIsWs) = true →
      (flattenChunks cs).length ≤ f →
      chunksAux f (flattenChunks cs) = cs := by
  intro cs
  induction cs with
  | nil =>
    intro f _ _ _
    cases f <;> rfl
  | cons d rest ih =>
    intro f hOK halt hf
    rw [List.all_cons, Bool.and_eq_true] at hOK
    have hstop_ws : chunkIsWs d = true →
        (flattenChunks rest).takeWhile isWsChar = [] ∧
        (flattenChunks rest).dropWhile isWsChar = flattenChunks rest := by
      intro hdws
      rcases flat_head_class rest hOK.2 with ⟨_, hfe⟩ |
        ⟨d3, r3, c3, ct3, hcs3, _, hflat3, hflag3, _⟩
      · rw [hfe]
        exact ⟨rfl, rfl⟩
      · have hc3 : isWsChar c3 = false := by
          rw [hcs3, List.map_cons, List.map_cons] at halt
          obtain ⟨hne2, _⟩ := alternatingB_tail _ _ _ halt
          rw [hdws] at hne2
          rw [hflag3]
          cases hq : chunkIsWs d3
          · rfl
          · rw [hq] at hne2
            exact absurd hne2 (by decide)
        rw [hflat3, List.takeWhile_cons, if_neg (by simp [hc3]),
          List.dropWhile_cons, if_neg (by simp [hc3])]
        exact ⟨rfl, rfl⟩
    have hstop_tok : chunkIsWs d = false →
        (flattenChunks rest).takeWhile (fun x => !isWsChar x) = [] ∧
        (flattenChunks rest).dropWhile (fun x => !isWsChar x) =
          flattenChunks rest := by
      intro hdtok
      rcases flat_head_class rest hOK.2 with ⟨_, hfe⟩ |
        ⟨d3, r3, c3, ct3, hcs3, _, hflat3, hflag3, _⟩
      · rw [hfe]
        exact ⟨rfl, rfl⟩
      · have hc3 : isWsChar c3 = true := by
          rw [hcs3, List.map_cons, List.map_cons] at halt
          obtain ⟨hne2, _⟩ := alternatingB_tail _ _ _ halt
          rw [hdtok] at hne2
          rw [hflag3]
          cases hq : chunkIsWs d3
          · rw [hq] at hne2
            exact absurd hne2 (by decide)
          · rfl
        rw [hflat3, List.takeWhile_cons, if_neg (by simp [hc3]),
          List.dropWhile_cons, if_neg (by simp [hc3])]
        exact ⟨rfl, rfl⟩
    have haltrest : alternatingB (rest.map chunkIsWs) = true := by
      rw [List.map_cons] at halt
      exact alternatingB_of_cons _ _ halt
    cases d with
    | ws w =>
      obtain ⟨hwne, hwall⟩ := chunkOK_ws_parts w hOK.1
      cases w with
      | nil => exact absurd rfl hwne
      | cons c0 ctail =>
        rw [List.all_cons, Bool.and_eq_true] at hwall
        rw [flattenChunks_cons] at hf ⊢
        simp only [chunkData, List.length_append, List.length_cons] at hf
        show chunksAux f (c0 :: (ctail ++ flattenChunks rest)) = _
        cases f with
        | zero => omega
        | succ f' =>
          unfold chunksAux
          rw [if_pos hwall.1]
          rw [takeWhile_append_all isWsChar ctail _
              (List.all_eq_true.mp hwall.2),
            dropWhile_append_all isWsChar ctail _
              (List.all_eq_true.mp hwall.2)]
          obtain ⟨hstop1, hstop2⟩ := hstop_ws rfl
          rw [hstop1, hstop2, List.append_nil]
          rw [ih f' hOK.2 haltrest (by omega)]
    | tok t =>
      obtain ⟨htne, htall⟩ := chunkOK_tok_parts t hOK.1
      cases t with
      | nil => exact absurd rfl htne
      | cons c0 ctail =>
        rw [List.all_cons, Bool.and_eq_true] at htall
        rw [flattenChunks_cons] at hf ⊢
        simp only [chunkData, List.length_append, List.length_cons] at hf
        show chunksAux f (c0 :: (ctail ++ flattenChunks rest)) = _
        cases f with
        | zero => omega
        | succ f' =>
          unfold chunksAux
          have hc0 : isWsChar c0 = false := by
            have := htall.1
            simp only [Bool.not_eq_true'] at this
            exact this
          rw [if_neg (by simp [hc0])]
          rw [takeWhile_append_all (fun x => !isWsChar x) ctail _
              (List.all_eq_true.mp htall.2),
            dropWhile_append_all (fun x => !isWsChar x) ctail _
              (List.all_eq_true.mp htall.2)]
          obtain ⟨hstop1, hstop2⟩ := hstop_tok rfl
          rw [hstop1, hstop2, List.append_nil]
          rw [ih f' hOK.2 haltrest (by omega)]

theorem chunksOf_flatten_good (cs : List Chunk)
    (h : goodChunks cs = true) : chunksOf (flattenChunks cs) = cs := by
  unfold goodChunks at h
  obtain ⟨h1, h2⟩ := Bool.and_eq_true_iff.mp h
  exact chunksAux_flatten cs _ h1 h2 (Nat.le_refl _)

theorem flattenChunks_ne_nil (cs : List Chunk) (h : cs.all chunkOK = true)
    (hne : cs ≠ []) : flattenChunks cs ≠ [] := by
  rcases flat_head_class cs h with ⟨he, _⟩ |
    ⟨d, r, c0, ct, _, _, hflat, _, _⟩
  · exact absurd he hne
  · rw [hflat]
    simp

theorem chunksOf_ne_nil (l : List Char) (h : l ≠ []) : chunksOf l ≠ [] := by
  cases l with
  | nil => exact absurd rfl h
  | cons c cs =>
    obtain ⟨d, rest, hch, _⟩ := chunksAux_head_flag (c :: cs).length c cs
      (Nat.le_refl _)
    unfold chunksOf
    rw [hch]
    simp

end DataMasker

/-- Without collision-freedom the tokenwise reversion is genuinely false:
with donot-term `56789` and a choice stream that masks `12345` to `56789`,
the unmask pass also rewrites the untouched token `56789` to `12345`.
This is the failure mode excluded by the side conditions of the amended
round-trip theorem. -/
theorem revert_collision_demo :
    DataMasker.unmaskText
        (DataMasker.maskText ⟨["56789".toList], 5⟩ (fun n => n + 4) []
          "12345 56789".toList).2.replacementMap
        (DataMasker.maskText ⟨["56789".toList], 5⟩ (fun n => n + 4) []
          "12345 56789".toList).1 =
      "12345 12345".toList := by decide

/-- **C1** amended: the composition `unmask ∘ mask` returns the original
text when the masked text full-matches the bracket-group pattern, and
otherwise the original text with all bracket characters removed, provided
the mask pass produced no collisions: the masked values are pairwise
distinct, and no digit-bearing, non-date-like token that the pass left
unmasked coincides with a masked value directly or after numeric
normalisation.  Re-tokenisation stability of the masked text and correct
reversion of every token run are *proved* from these conditions (masked
values are nonempty, whitespace-free, digit-bearing and — since digit
replacement preserves the date/time shape — never date-like). -/
theorem c1_mask_roundtrip_amended (cfg : DataMasker.MaskerCfg)
    (σ : Nat → Nat) (dm : List (List Char)) (T : List Char)
    (hA : ((DataMasker.maskText cfg σ dm T).2.replacementMap.map
      Prod.snd).Nodup)
    (hB : ∀ ch ∈ DataMasker.chunksOf T,
      DataMasker.chunkIsWs ch = false →
      DataMasker.shouldMask cfg dm (DataMasker.chunkData ch) = false →
      DataMasker.hasDigitTok (DataMasker.chunkData ch) = true →
      DataMasker.isDateish (DataMasker.chunkData ch) = false →
      ∀ pr ∈ (DataMasker.maskText cfg σ dm T).2.replacementMap,
        pr.2 ≠ DataMasker.chunkData ch ∧
        DataMasker.normNumber pr.2 ≠
          DataMasker.normNumber (DataMasker.chunkData ch)) :
    DataMasker.unmaskText
        (DataMasker.maskText cfg σ dm T).2.replacementMap
        (DataMasker.maskText cfg σ dm T).1 =
      if DataMasker.fullmatchBracketNum (DataMasker.maskText cfg σ dm T).1
      then T else DataMasker.stripBracketChars T := by
  by_cases hT : T = []
  · subst hT
    rfl
  · have hgoodT := DataMasker.chunksOf_good T
    unfold DataMasker.goodChunks at hgoodT
    obtain ⟨hOKT, haltT⟩ := Bool.and_eq_true_iff.mp hgoodT
    obtain ⟨hmapOK, hOKout, hflags⟩ :=
      DataMasker.maskChunks_inv cfg σ dm (DataMasker.chunksOf T)
        DataMasker.emptyMaskState hOKT rfl
    have hgoodOut : DataMasker.goodChunks
        (DataMasker.maskChunks cfg σ dm (DataMasker.chunksOf T)
          DataMasker.emptyMaskState).1 = true := by
      unfold DataMasker.goodChunks
      rw [hOKout, hflags, haltT]
      rfl
    have hre : DataMasker.chunksOf (DataMasker.maskText cfg σ dm T).1 =
        (DataMasker.maskChunks cfg σ dm (DataMasker.chunksOf T)
          DataMasker.emptyMaskState).1 :=
      DataMasker.chunksOf_flatten_good _ hgoodOut
    have hne : (DataMasker.maskText cfg σ dm T).1 ≠ [] := by
      show DataMasker.flattenChunks (DataMasker.maskChunks cfg σ dm
        (DataMasker.chunksOf T) DataMasker.emptyMaskState).1 ≠ []
      apply DataMasker.flattenChunks_ne_nil _ hOKout
      intro he
      rw [he, List.map_nil] at hflags
      have h0 : DataMasker.chunksOf T = [] := by
        have h1 := hflags.symm
        rw [List.map_eq_nil_iff] at h1
        exact h1
      exact DataMasker.chunksOf_ne_nil T hT h0
    have hu : DataMasker.flattenChunks
        (((DataMasker.maskChunks cfg σ dm (DataMasker.chunksOf T)
          DataMasker.emptyMaskState).1).map
          (DataMasker.mapTokChunk (DataMasker.revertTok
            (DataMasker.maskText cfg σ dm T).2.replacementMap))) =
        DataMasker.flattenChunks (DataMasker.chunksOf T) := by
      apply DataMasker.maskChunks_unmask
      intro pr hpr h1 h2
      obtain ⟨hdesc1, hdesc2⟩ := DataMasker.maskChunks_desc cfg σ dm
        (DataMasker.chunksOf T) DataMasker.emptyMaskState pr hpr
      obtain ⟨hin1, hin2⟩ := List.of_mem_zip hpr
      cases hc1 : pr.1 with
      | ws w =>
        rw [hc1] at h1
        exact absurd h1 (by simp [DataMasker.chunkIsWs])
      | tok t =>
        rcases hdesc2 t hc1 with ⟨hsm, hpr2⟩ | ⟨hsm, v, hpr2, hlook⟩
        · rw [hpr2]
          show DataMasker.revertTok
            (DataMasker.maskText cfg σ dm T).2.replacementMap t = t
          by_cases hd : (!DataMasker.hasDigitTok t ||
              DataMasker.isDateish t) = true
          · unfold DataMasker.revertTok
            rw [if_pos hd]
          · have hd2 := Bool.or_eq_false_iff.mp (Bool.eq_false_iff.mpr hd)
            have hdig : DataMasker.hasDigitTok t = true := by
              have h3 := hd2.1
              simp only [Bool.not_eq_false'] at h3
              exact h3
            have hdat : DataMasker.isDateish t = false := hd2.2
            rw [hc1] at hin1
            have hBt := hB (DataMasker.Chunk.tok t) hin1 rfl hsm hdig hdat
            apply DataMasker.revertTok_miss
            · exact DataMasker.buildReverse_none _ [] t
                (fun p hp => (hBt p hp).1) rfl
            · exact DataMasker.buildReverseNorm_none _ [] _
                (fun p hp => (hBt p hp).2) rfl
        · rw [hpr2]
          show DataMasker.revertTok
            (DataMasker.maskText cfg σ dm T).2.replacementMap v = t
          have hlook2 : aget (DataMasker.maskText cfg σ dm
              T).2.replacementMap t = some v := hlook
          have hmem := DataMasker.aget_mem _ t v hlook2
          have hvOK := List.all_eq_true.mp hmapOK (t, v) hmem
          obtain ⟨p1, p2, p3, p4⟩ := DataMasker.valOK_parts v hvOK
          rw [hc1] at hin1
          have htOK := List.all_eq_true.mp hOKT _ hin1
          obtain ⟨ht1, _⟩ := DataMasker.chunkOK_tok_parts t htOK
          apply DataMasker.revertTok_hit _ t v p3 p4 _ ht1
          exact DataMasker.buildReverse_lookup _ [] t v hA
            (fun p hp => rfl) hmem
    unfold DataMasker.unmaskText
    rw [if_neg (by simp [List.isEmpty_iff, hne])]
    show (if DataMasker.fullmatchBracketNum
        (DataMasker.maskText cfg σ dm T).1 then
        DataMasker.flattenChunks
          ((DataMasker.chunksOf
            (DataMasker.maskText cfg σ dm T).1).map
            (DataMasker.mapTokChunk (DataMasker.revertTok
              (DataMasker.maskText cfg σ dm T).2.replacementMap)))
      else DataMasker.stripBracketChars
        (DataMasker.flattenChunks
          ((DataMasker.chunksOf
            (DataMasker.maskText cfg σ dm T).1).map
            (DataMasker.mapTokChunk (DataMasker.revertTok
              (DataMasker.maskText cfg σ dm T).2.replacementMap))))) = _
    rw [hre, hu, DataMasker.flattenChunks_chunksOf]

/-- Witness for the amended C1 on `abc 12345`: the masked values are
distinct, the untouched tokens collide with nothing, and the composition
reduces to the non-full-match branch, which here equals the original text
since it contains no bracket characters. -/
theorem c1_mask_roundtrip_amended_witness :
    ((DataMasker.maskText DataMasker.defaultCfg (fun _ => 0) []
      "abc 12345".toList).2.replacementMap.map Prod.snd).Nodup ∧
    DataMasker.unmaskText
        (DataMasker.maskText DataMasker.defaultCfg (fun _ => 0) []
          "abc 12345".toList).2.replacementMap
        (DataMasker.maskText DataMasker.defaultCfg (fun _ => 0) []
          "abc 12345".toList).1 =
      (if DataMasker.fullmatchBracketNum
          (DataMasker.maskText DataMasker.defaultCfg (fun _ => 0) []
            "abc 12345".toList).1
        then "abc 12345".toList
        else DataMasker.stripBracketChars "abc 12345".toList) :=
  ⟨by decide,
   c1_mask_roundtrip_amended DataMasker.defaultCfg (fun _ => 0) []
     ("abc 12345".toList) (by decide) (by decide)⟩
